import Mathlib

/-!
# Firewall rule engine: `Assignment1/serverWithComments.c`

A shallow embedding of the request processor.  C strings are lists of
characters (the bytes before the terminating NUL), `uint32_t` values are
natural numbers, `int` values are integers, and the file-scope variables of
the C program are gathered in a `State` record that is passed explicitly.

The `scanf` directives used by the program are embedded one by one:
`scan_d` is `%d`, `scan_s` is `%Ns`, `scan_lit` is a literal character of the
format.  Each returns the unread remainder of its input, which stands for the
pointer `s + consumed` of the C code.
-/

namespace Firewall

/-- A C string, without its terminating NUL. -/
abbrev CStr := List Char

/-! ## `<ctype.h>` and `<string.h>` -/

/-- The C locale `isspace`: space, `\t`, `\n`, `\v`, `\f`, `\r`. -/
def isspace (c : Char) : Bool :=
  c = ' ' || c = '\t' || c = '\n' || c = '\x0b' || c = '\x0c' || c = '\r'

/-- The C locale `isdigit`: `0` to `9`. -/
def isdigit (c : Char) : Bool :=
  decide (48 ≤ c.toNat) && decide (c.toNat ≤ 57)

/-- Index of the first occurrence of `c` in `s` (`strchr`), if any. -/
def strchr : CStr → Char → Option Nat
  | [], _ => none
  | x :: xs, c => if x = c then some 0 else (strchr xs c).map (· + 1)

/-- Index of the last occurrence of `c` in `s` (`strrchr`), if any. -/
def strrchr : CStr → Char → Option Nat
  | [], _ => none
  | x :: xs, c =>
    match strrchr xs c with
    | some i => some (i + 1)
    | none => if x = c then some 0 else none

/-- Whether `s` holds one of the characters of `accept` (`strpbrk(s, accept) != NULL`). -/
def strpbrk (s accept : CStr) : Bool :=
  s.any (fun c => accept.contains c)

/-! ## `sscanf` directives -/

/-- Value of a digit character. -/
def digitVal (c : Char) : Nat := c.toNat - 48

/-- Decimal value of a sequence of digit characters. -/
def decVal (ds : CStr) : Nat :=
  ds.foldl (fun acc c => acc * 10 + digitVal c) 0

/-- The conversion `strtol` performs for a 64-bit `long`: out-of-range values
saturate at `LONG_MIN` and `LONG_MAX`. -/
def clampLong (v : Int) : Int :=
  if v < -9223372036854775808 then -9223372036854775808
  else if v > 9223372036854775807 then 9223372036854775807
  else v

/-- The cast `(int)` of a `long`: the low 32 bits, read as two's complement. -/
def toInt32 (v : Int) : Int :=
  (v + 2147483648) % 4294967296 - 2147483648

/-- Optional sign of a `%d` item: whether it is negative, and the input after it. -/
def scanSign (s : CStr) : Bool × CStr :=
  match s with
  | [] => (false, [])
  | c :: t => if c = '-' then (true, t) else if c = '+' then (false, t) else (false, c :: t)

/-- The directive `%d`: skips white space, reads an optional sign and a
non-empty run of decimal digits, and stores their value in an `int`.  The
conversion is the one of glibc on a 64-bit target: the digits are converted by
`strtol` to a `long`, which saturates, and the `long` is cast to `int`, which
keeps the low 32 bits (ISO C leaves the result open when the value does not
fit an `int`; for values that fit, the stored value is the value written).
Returns the stored value and the unread input, or `none` on a matching
failure. -/
def scan_d (s : CStr) : Option (Int × CStr) :=
  let s1 := s.dropWhile isspace
  let neg := (scanSign s1).1
  let s2 := (scanSign s1).2
  let ds := s2.takeWhile isdigit
  if ds = [] then none
  else
    let mag : Int := (decVal ds : Int)
    some (toInt32 (clampLong (if neg then -mag else mag)), s2.dropWhile isdigit)

/-- A literal character of the format: it must be the next input character. -/
def scan_lit (c : Char) (s : CStr) : Option CStr :=
  match s with
  | [] => none
  | x :: t => if x = c then some t else none

/-- The directive `%Ns`: skips white space, then reads at most `w` characters
up to the next white space.  Fails when the input ends before a character is
read. -/
def scan_s (w : Nat) (s : CStr) : Option (CStr × CStr) :=
  let s1 := s.dropWhile isspace
  let tok := (s1.takeWhile (fun c => !isspace c)).take w
  if tok = [] then none else some (tok, s1.drop tok.length)

/-- The call `sscanf(s, "%d.%d.%d.%d%n", &a, &b, &c, &d, &consumed)` when it
returns 4: the four integers and the input from `s + consumed` on. -/
def sscanf_quad (s : CStr) : Option (Int × Int × Int × Int × CStr) :=
  match scan_d s with
  | none => none
  | some (a, r1) =>
    match scan_lit '.' r1 with
    | none => none
    | some r2 =>
      match scan_d r2 with
      | none => none
      | some (b, r3) =>
        match scan_lit '.' r3 with
        | none => none
        | some r4 =>
          match scan_d r4 with
          | none => none
          | some (c, r5) =>
            match scan_lit '.' r5 with
            | none => none
            | some r6 =>
              match scan_d r6 with
              | none => none
              | some (d, r7) => some (a, b, c, d, r7)

/-- The call `sscanf(s, "%63s %31s", ip_part, port_part)` when it returns 2:
the two words read.  The blank of the format skips any white space. -/
def sscanf_words (s : CStr) : Option (CStr × CStr) :=
  match scan_s 63 s with
  | none => none
  | some (w1, r1) =>
    match scan_s 31 (r1.dropWhile isspace) with
    | none => none
    | some (w2, _) => some (w1, w2)

/-! ## Data model -/

/-- One accepted connection check. -/
structure Query where
  ip : Nat
  port : Int
deriving DecidableEq

/-- One allow-rule with its query history.  `query_count` is the length of
`queries`; `query_cap` is the allocated capacity. -/
structure Rule where
  ip_start : Nat
  ip_end : Nat
  port_start : Int
  port_end : Int
  queries : List Query
  query_cap : Nat
deriving DecidableEq

/-- The file-scope variables: `rule_count` and `req_count` are the lengths of
`rules` and `requests`. -/
structure State where
  rules : List Rule
  rule_cap : Nat
  requests : List CStr
  req_cap : Nat
deriving DecidableEq

/-- The state of a fresh process: every static variable is zero. -/
def State.init : State := ⟨[], 0, [], 0⟩

/-! ## Parsers -/

/-- The cast `(uint32_t)` of an `int`. -/
def u32_of_int (a : Int) : Nat := (a % 4294967296).toNat

/-- A left shift on `uint32_t`. -/
def shl32 (x k : Nat) : Nat := (x <<< k) % 4294967296

/-- Function `parse_ip`: the packed address, or `none` for the return value 0. -/
def parse_ip (s : CStr) : Option Nat :=
  match sscanf_quad s with
  | none => none
  | some (a, b, c, d, rest) =>
    if rest ≠ [] then none
    else if a < 0 ∨ a > 255 ∨ b < 0 ∨ b > 255 ∨ c < 0 ∨ c > 255 ∨ d < 0 ∨ d > 255 then none
    else some (shl32 (u32_of_int a) 24 ||| shl32 (u32_of_int b) 16 |||
               shl32 (u32_of_int c) 8 ||| u32_of_int d)

/-- Function `parse_port`: the port, or `none` for the return value 0. -/
def parse_port (s : CStr) : Option Int :=
  match s with
  | [] => none
  | c0 :: _ =>
    if !isdigit c0 then none
    else
      match scan_d s with
      | none => none
      | some (port, rest) =>
        if rest ≠ [] then none
        else if port < 0 ∨ port > 65535 then none
        else some port

/-- The IP clause of `parse_rule`: split at the first dash when there is one. -/
def parse_ip_clause (ip_part : CStr) : Option (Nat × Nat) :=
  match strchr ip_part '-' with
  | some i =>
    match parse_ip (ip_part.take i) with
    | none => none
    | some ip_start =>
      match parse_ip (ip_part.drop (i + 1)) with
      | none => none
      | some ip_end => if ip_start ≥ ip_end then none else some (ip_start, ip_end)
  | none =>
    match parse_ip ip_part with
    | none => none
    | some ip_start => some (ip_start, ip_start)

/-- The port clause of `parse_rule`: split at the first dash when there is one. -/
def parse_port_clause (port_part : CStr) : Option (Int × Int) :=
  match strchr port_part '-' with
  | some i =>
    match parse_port (port_part.take i) with
    | none => none
    | some port_start =>
      match parse_port (port_part.drop (i + 1)) with
      | none => none
      | some port_end => if port_start ≥ port_end then none else some (port_start, port_end)
  | none =>
    match parse_port port_part with
    | none => none
    | some port_start => some (port_start, port_start)

/-- Function `parse_rule`, called on a zeroed `Rule`: the rule read, with no
queries and no capacity, or `none` for the return value 0. -/
def parse_rule (s : CStr) : Option Rule :=
  match strchr s ' ' with
  | none => none
  | some sp =>
    if some sp ≠ strrchr s ' ' then none
    else if strpbrk s ['\t', '\r', '\n'] then none
    else
      match sscanf_words s with
      | none => none
      | some (ip_part, port_part) =>
        match parse_ip_clause ip_part with
        | none => none
        | some (ip_start, ip_end) =>
          match parse_port_clause port_part with
          | none => none
          | some (port_start, port_end) =>
            some ⟨ip_start, ip_end, port_start, port_end, [], 0⟩

/-- Function `ip_in_range`. -/
def ip_in_range (ip : Nat) (r : Rule) : Bool :=
  decide (ip ≥ r.ip_start) && decide (ip ≤ r.ip_end)

/-- Function `port_in_range`. -/
def port_in_range (port : Int) (r : Rule) : Bool :=
  decide (port ≥ r.port_start) && decide (port ≤ r.port_end)

/-! ## Formatting -/

/-- The conversion `%u` of `sprintf`. -/
def fmt_u (n : Nat) : CStr := Nat.toDigits 10 n

/-- The conversion `%d` of `sprintf`. -/
def fmt_d (i : Int) : CStr :=
  if i < 0 then '-' :: Nat.toDigits 10 (-i).toNat else Nat.toDigits 10 i.toNat

/-- Function `ip_to_str`. -/
def ip_to_str (ip : Nat) : CStr :=
  fmt_u ((ip >>> 24) &&& 255) ++ '.' :: fmt_u ((ip >>> 16) &&& 255) ++
    '.' :: fmt_u ((ip >>> 8) &&& 255) ++ '.' :: fmt_u (ip &&& 255)

/-! ## Handlers -/

/-- The growth step shared by the three dynamic arrays: the capacity after
making room for one more element when `count` elements are stored. -/
def grow (count cap : Nat) : Nat :=
  if count = cap then (if cap = 0 then 8 else cap * 2) else cap

/-- Function `log_request`. -/
def log_request (st : State) (request : CStr) : State :=
  { st with requests := st.requests ++ [request],
            req_cap := grow st.requests.length st.req_cap }

/-- Function `handle_R`. -/
def handle_R (st : State) : CStr :=
  if st.requests.length = 0 then []
  else (st.requests.map (fun r => r ++ ['\n'])).flatten

/-- Function `handle_A`. -/
def handle_A (st : State) (request : CStr) : State × CStr :=
  match parse_rule (request.drop 2) with
  | none => (st, "Invalid rule".toList)
  | some r =>
    ({ st with rules := st.rules ++ [r], rule_cap := grow st.rules.length st.rule_cap },
     "Rule added".toList)

/-- The body of the matching branch of `handle_C`: store the query in the
next free slot of the rule, growing the array first when it is full. -/
def record_query (r : Rule) (ip : Nat) (port : Int) : Rule :=
  { r with queries := r.queries ++ [⟨ip, port⟩],
           query_cap := grow r.queries.length r.query_cap }

/-- The loop of `handle_C`: the rules after recording the query under the first
rule that covers it, or `none` when the loop ends without a match. -/
def handle_C_loop (ip : Nat) (port : Int) : List Rule → Option (List Rule)
  | [] => none
  | r :: rs =>
    if ip_in_range ip r && port_in_range port r then some (record_query r ip port :: rs)
    else (handle_C_loop ip port rs).map (fun rs' => r :: rs')

/-- Function `handle_C`. -/
def handle_C (st : State) (request : CStr) : State × CStr :=
  let rest := request.drop 2
  if strpbrk rest ['\t', '\r', '\n'] then
    (st, "Illegal IP address or port specified".toList)
  else
    match strchr rest ' ' with
    | none => (st, "Illegal IP address or port specified".toList)
    | some sp =>
      if some sp ≠ strrchr rest ' ' then
        (st, "Illegal IP address or port specified".toList)
      else
        match sscanf_words rest with
        | none => (st, "Illegal IP address or port specified".toList)
        | some (ip_str, port_str) =>
          match parse_ip ip_str, parse_port port_str with
          | some ip, some port =>
            match handle_C_loop ip port st.rules with
            | some rules' => ({ st with rules := rules' }, "Connection accepted".toList)
            | none => (st, "Connection rejected".toList)
          | _, _ => (st, "Illegal IP address or port specified".toList)

/-- Function `handle_F`. -/
def handle_F (_st : State) : State × CStr :=
  (⟨[], 0, [], 0⟩, "All rules deleted".toList)

/-- The loop of `handle_D`: the rules after removing the first one whose four
endpoints equal those of `k`, or `none` when there is none. -/
def handle_D_loop (k : Rule) : List Rule → Option (List Rule)
  | [] => none
  | r :: rs =>
    if r.ip_start = k.ip_start ∧ r.ip_end = k.ip_end ∧
       r.port_start = k.port_start ∧ r.port_end = k.port_end then some rs
    else (handle_D_loop k rs).map (fun rs' => r :: rs')

/-- Function `handle_D`. -/
def handle_D (st : State) (request : CStr) : State × CStr :=
  match parse_rule (request.drop 2) with
  | none => (st, "Invalid rule".toList)
  | some k =>
    match handle_D_loop k st.rules with
    | some rules' => ({ st with rules := rules' }, "Rule deleted".toList)
    | none => (st, "Rule not found".toList)

/-- The text the second pass of `handle_L` writes for one query. -/
def fmt_query (q : Query) : CStr :=
  "Query: ".toList ++ ip_to_str q.ip ++ ' ' :: fmt_d q.port ++ ['\n']

/-- The text the second pass of `handle_L` writes for one rule and its queries. -/
def fmt_rule (r : Rule) : CStr :=
  (if r.ip_start = r.ip_end then "Rule: ".toList ++ ip_to_str r.ip_start
   else "Rule: ".toList ++ ip_to_str r.ip_start ++ '-' :: ip_to_str r.ip_end) ++
  (if r.port_start = r.port_end then ' ' :: fmt_d r.port_start ++ ['\n']
   else ' ' :: fmt_d r.port_start ++ '-' :: fmt_d r.port_end ++ ['\n']) ++
  (r.queries.map fmt_query).flatten

/-- Function `handle_L`: the text written by its second pass. -/
def handle_L (st : State) : CStr :=
  if st.rules.length = 0 then []
  else (st.rules.map fmt_rule).flatten

/-- The trimming loop of `processRequest`: trailing white space is cut off. -/
def trim (s : CStr) : CStr :=
  (s.reverse.dropWhile isspace).reverse

/-- Function `processRequest`: the state after the call and the response. -/
def processRequest (st : State) (request0 : CStr) : State × CStr :=
  let request := trim request0
  let st1 := log_request st request
  if request = ['R'] then (st1, handle_R st1)
  else if request.take 2 = ['A', ' '] then handle_A st1 request
  else if request.take 2 = ['C', ' '] then handle_C st1 request
  else if request = ['F'] then handle_F st1
  else if request.take 2 = ['D', ' '] then handle_D st1 request
  else if request = ['L'] then (st1, handle_L st1)
  else (st1, "Illegal request".toList)

/-- The state after a sequence of calls of `processRequest`, oldest first. -/
def run (st : State) (reqs : List CStr) : State :=
  reqs.foldl (fun s r => (processRequest s r).1) st

/-- The chain of tests of `processRequest`, run on the trimmed request after it
was logged: `st1` is the state `log_request` left. -/
def dispatch (st1 : State) (request : CStr) : State × CStr :=
  if request = ['R'] then (st1, handle_R st1)
  else if request.take 2 = ['A', ' '] then handle_A st1 request
  else if request.take 2 = ['C', ' '] then handle_C st1 request
  else if request = ['F'] then handle_F st1
  else if request.take 2 = ['D', ' '] then handle_D st1 request
  else if request = ['L'] then (st1, handle_L st1)
  else (st1, "Illegal request".toList)

/-- The responses to a sequence of calls of `processRequest`, oldest first. -/
def responses : State → List CStr → List CStr
  | _, [] => []
  | st, r :: rs => (processRequest st r).2 :: responses (processRequest st r).1 rs

/-- The history, as the specification words it: every logged request in
order, each followed by one newline. -/
def spec_history : List CStr → CStr
  | [] => []
  | r :: rs => r ++ '\n' :: spec_history rs

/-! ## The request grammar

The texts the grammar of the requests admits, with the values they denote. -/

/-- Grammar `octet`: one to three decimal digits with a value of at most 255. -/
def octetText (t : CStr) : Bool :=
  decide (1 ≤ t.length) && decide (t.length ≤ 3) && t.all isdigit && decide (decVal t ≤ 255)

/-- Grammar `PORT`: one to five decimal digits with a value of at most 65535. -/
def portText (t : CStr) : Bool :=
  decide (1 ≤ t.length) && decide (t.length ≤ 5) && t.all isdigit && decide (decVal t ≤ 65535)

/-- The 32-bit value `(a<<24)|(b<<16)|(c<<8)|d`. -/
def pack (a b c d : Nat) : Nat :=
  a <<< 24 ||| b <<< 16 ||| c <<< 8 ||| d

/-- Four texts joined by dots. -/
def dotted (o1 o2 o3 o4 : CStr) : CStr :=
  o1 ++ '.' :: (o2 ++ '.' :: (o3 ++ '.' :: o4))

/-- Grammar `IP`: the text `t` is a dotted quad of octets and denotes `v`. -/
def IPText (t : CStr) (v : Nat) : Prop :=
  ∃ o1 o2 o3 o4 : CStr,
    octetText o1 = true ∧ octetText o2 = true ∧ octetText o3 = true ∧ octetText o4 = true ∧
    t = dotted o1 o2 o3 o4 ∧ v = pack (decVal o1) (decVal o2) (decVal o3) (decVal o4)

/-- Grammar `PORT`, with the value the text denotes. -/
def PortText (t : CStr) (v : Int) : Prop :=
  portText t = true ∧ v = (decVal t : Int)

/-- Grammar `IPrange`: a single address, or two addresses in strictly
increasing order joined by a dash. -/
def IPRangeText (t : CStr) (lo hi : Nat) : Prop :=
  (IPText t lo ∧ hi = lo) ∨
  ∃ x y : CStr, IPText x lo ∧ IPText y hi ∧ lo < hi ∧ t = x ++ '-' :: y

/-- Grammar `PORTrange`: a single port, or two ports in strictly increasing
order joined by a dash. -/
def PortRangeText (t : CStr) (lo hi : Int) : Prop :=
  (PortText t lo ∧ hi = lo) ∨
  ∃ x y : CStr, PortText x lo ∧ PortText y hi ∧ lo < hi ∧ t = x ++ '-' :: y

/-- Grammar `RULESPEC`: an address range, one space, a port range. -/
def RuleSpecText (s : CStr) (ip_lo ip_hi : Nat) (port_lo port_hi : Int) : Prop :=
  ∃ i p : CStr, IPRangeText i ip_lo ip_hi ∧ PortRangeText p port_lo port_hi ∧ s = i ++ ' ' :: p

/-- Whether rule `r` covers the pair `(ip, port)`. -/
def covers (r : Rule) (ip : Nat) (port : Int) : Prop :=
  r.ip_start ≤ ip ∧ ip ≤ r.ip_end ∧ r.port_start ≤ port ∧ port ≤ r.port_end

instance coversDecidable (r : Rule) (ip : Nat) (port : Int) : Decidable (covers r ip port) := by
  unfold covers; infer_instance

/-- Whether the four endpoints of rule `r` are `a`, `b`, `p`, `q`. -/
def sameEndpoints (r : Rule) (a b : Nat) (p q : Int) : Prop :=
  r.ip_start = a ∧ r.ip_end = b ∧ r.port_start = p ∧ r.port_end = q

instance sameEndpointsDecidable (r : Rule) (a b : Nat) (p q : Int) :
    Decidable (sameEndpoints r a b p q) := by
  unfold sameEndpoints; infer_instance

/-! ## The listing format, as the specification words it -/

/-- Decimal text of an integer, as the standard library prints it. -/
def spec_decimal (i : Int) : CStr := (toString i).toList

/-- The dotted quad of a 32-bit address: its four octets, the most significant
first, each in decimal. -/
def spec_dotted_quad (v : Nat) : CStr :=
  spec_decimal (v / 16777216 % 256) ++ ".".toList ++ spec_decimal (v / 65536 % 256) ++
    ".".toList ++ spec_decimal (v / 256 % 256) ++ ".".toList ++ spec_decimal (v % 256)

/-- The `<ip-spec>` of a rule: one dotted quad when the two ends are equal,
`start-end` otherwise. -/
def spec_ip_spec (r : Rule) : CStr :=
  if r.ip_start = r.ip_end then spec_dotted_quad r.ip_start
  else spec_dotted_quad r.ip_start ++ "-".toList ++ spec_dotted_quad r.ip_end

/-- The `<port-spec>` of a rule: one decimal port when the two ends are equal,
`start-end` otherwise. -/
def spec_port_spec (r : Rule) : CStr :=
  if r.port_start = r.port_end then spec_decimal r.port_start
  else spec_decimal r.port_start ++ "-".toList ++ spec_decimal r.port_end

/-- The line `Rule: <ip-spec> <port-spec>`, with its newline. -/
def spec_rule_line (r : Rule) : CStr :=
  "Rule: ".toList ++ spec_ip_spec r ++ " ".toList ++ spec_port_spec r ++ "\n".toList

/-- The line `Query: <dotted-quad> <port>`, with its newline. -/
def spec_query_line (q : Query) : CStr :=
  "Query: ".toList ++ spec_dotted_quad q.ip ++ " ".toList ++ spec_decimal q.port ++
    "\n".toList

/-- The listing of a store: for each rule in order, its line followed by one
line for each of its queries in order. -/
def spec_listing : List Rule → CStr
  | [] => []
  | r :: rs => spec_rule_line r ++ (r.queries.map spec_query_line).flatten ++ spec_listing rs

/-! ## The submitted variant: `Assignment1/serverCSubmission.c`

The parsers and the handlers of `A`, `C`, `D`, `F` and `R` are those of
`serverWithComments.c`, statement for statement.  The variant has its own
`handle_L` and its own `processRequest`. -/

namespace Submission

/-- Function `handle_L` of the submitted variant: the text written by its
second pass.  The formats of the ports are `%d\n` and `%d-%d\n`. -/
def handle_L (st : State) : CStr :=
  if st.rules.length = 0 then []
  else
    (st.rules.map (fun r =>
      (if r.ip_start = r.ip_end then "Rule: ".toList ++ ip_to_str r.ip_start
       else "Rule: ".toList ++ ip_to_str r.ip_start ++ '-' :: ip_to_str r.ip_end) ++
      (if r.port_start = r.port_end then fmt_d r.port_start ++ ['\n']
       else fmt_d r.port_start ++ '-' :: fmt_d r.port_end ++ ['\n']) ++
      (r.queries.map fmt_query).flatten)).flatten

/-- The trimming loop of the submitted `processRequest`,
`while (len < 0 && isspace(request[len - 1])) request[len--] = 0;`,
run for at most `fuel` rounds.  Storing the NUL at index `len` cuts the string
there. -/
def trim_loop : Nat → CStr → Nat → CStr
  | 0, request, _ => request
  | fuel + 1, request, len =>
    if decide (len < 0) && (match request.get? (len - 1) with
                            | some c => isspace c
                            | none => false) then
      trim_loop fuel (request.take len) (len - 1)
    else request

/-- The request after the trimming loop of the submitted variant. -/
def trim (request : CStr) : CStr :=
  trim_loop request.length request request.length

/-- Function `processRequest` of the submitted variant.  The chain of tests has
no final `else`: when none applies, the variable `response` is returned as it
was declared, without a value, which is `none` here. -/
def processRequest (st : State) (request0 : CStr) : State × Option CStr :=
  let request := trim request0
  let st1 := log_request st request
  if request = ['R'] then (st1, some (handle_R st1))
  else if request.take 2 = ['A', ' '] then ((handle_A st1 request).1, some (handle_A st1 request).2)
  else if request.take 2 = ['C', ' '] then ((handle_C st1 request).1, some (handle_C st1 request).2)
  else if request = ['F'] then ((handle_F st1).1, some (handle_F st1).2)
  else if request.take 2 = ['D', ' '] then ((handle_D st1 request).1, some (handle_D st1 request).2)
  else if request = ['L'] then (st1, some (handle_L st1))
  else (st1, none)

end Submission

/-! ## Capacities and the first pass of `handle_L` -/

/-- What the first pass of `handle_L` adds to `total` for one query. -/
def query_total (q : Query) : Nat :=
  "Query: ".toList.length + (ip_to_str q.ip).length + 1 + 5 + 1

/-- What the first pass of `handle_L` adds to `total` for one rule and its queries. -/
def rule_total (r : Rule) : Nat :=
  (if r.ip_start = r.ip_end then "Rule: ".toList.length + (ip_to_str r.ip_start).length
   else "Rule: ".toList.length + (ip_to_str r.ip_start).length + 1 +
     (ip_to_str r.ip_end).length) +
  (if r.port_start = r.port_end then 1 + 5 else 1 + 5 + 1 + 5) + 1 +
  (r.queries.map query_total).sum

/-- The value of `total` after the first pass of `handle_L`; `total + 1` bytes
are allocated for the response. -/
def handle_L_total (st : State) : Nat :=
  (st.rules.map rule_total).sum

/-- A capacity the doubling arrays can have: 0, or 8 times a power of two. -/
def capOK (c : Nat) : Prop :=
  c = 0 ∨ ∃ k : Nat, c = 8 * 2 ^ k

/-- The capacity invariant: every count is at most its capacity, and every
capacity is 0 or 8 times a power of two. -/
def CapInv (st : State) : Prop :=
  st.rules.length ≤ st.rule_cap ∧ capOK st.rule_cap ∧
  st.requests.length ≤ st.req_cap ∧ capOK st.req_cap ∧
  ∀ r ∈ st.rules, r.queries.length ≤ r.query_cap ∧ capOK r.query_cap

/-! ## Order of octets and canonical texts -/

/-- The lexicographic order on four octets. -/
def lexLt (a b c d a' b' c' d' : Nat) : Prop :=
  a < a' ∨ (a = a' ∧ (b < b' ∨ (b = b' ∧ (c < c' ∨ (c = c' ∧ d < d')))))

/-- A decimal text without leading zeros: the text `0`, or a text that does not
start with `0`. -/
def noLeadingZero (t : CStr) : Prop :=
  t = ['0'] ∨ ∀ c, t.head? = some c → c ≠ '0'

/-- Grammar `IP` with every octet written without leading zeros. -/
def CanonIPText (t : CStr) (v : Nat) : Prop :=
  ∃ o1 o2 o3 o4 : CStr,
    (octetText o1 = true ∧ noLeadingZero o1) ∧ (octetText o2 = true ∧ noLeadingZero o2) ∧
    (octetText o3 = true ∧ noLeadingZero o3) ∧ (octetText o4 = true ∧ noLeadingZero o4) ∧
    t = dotted o1 o2 o3 o4 ∧ v = pack (decVal o1) (decVal o2) (decVal o3) (decVal o4)

/-- Grammar `PORT` written without leading zeros. -/
def CanonPortText (t : CStr) (v : Int) : Prop :=
  PortText t v ∧ noLeadingZero t

/-- Grammar `RULESPEC` with every number written without leading zeros. -/
def CanonRuleSpecText (s : CStr) (ip_lo ip_hi : Nat) (port_lo port_hi : Int) : Prop :=
  ∃ i p : CStr,
    ((CanonIPText i ip_lo ∧ ip_hi = ip_lo) ∨
      ∃ x y : CStr, CanonIPText x ip_lo ∧ CanonIPText y ip_hi ∧ ip_lo < ip_hi ∧
        i = x ++ '-' :: y) ∧
    ((CanonPortText p port_lo ∧ port_hi = port_lo) ∨
      ∃ x y : CStr, CanonPortText x port_lo ∧ CanonPortText y port_hi ∧ port_lo < port_hi ∧
        p = x ++ '-' :: y) ∧
    s = i ++ ' ' :: p

/-- The canonical form of a rule specification with the given endpoints:
`<ip-spec>`, one space, `<port-spec>`. -/
def spec_canonical (a b : Nat) (p q : Int) : CStr :=
  spec_ip_spec ⟨a, b, p, q, [], 0⟩ ++ ' ' :: spec_port_spec ⟨a, b, p, q, [], 0⟩

namespace Submission

/-- The state after a sequence of calls of the submitted `processRequest`. -/
def run (st : State) (reqs : List CStr) : State :=
  reqs.foldl (fun s r => (Submission.processRequest s r).1) st

/-- The responses to a sequence of calls of the submitted `processRequest`. -/
def responses : State → List CStr → List (Option CStr)
  | _, [] => []
  | st, r :: rs =>
    (Submission.processRequest st r).2 ::
      Submission.responses (Submission.processRequest st r).1 rs

end Submission

/-- A request on which the two variants are compared: it does not end in white
space, and it is exactly `R` or `F` or begins with `A `, `C ` or `D `. -/
def CommonRequest (r : CStr) : Prop :=
  (∀ c, r.getLast? = some c → isspace c = false) ∧
  (r = ['R'] ∨ r = ['F'] ∨ (∃ rest, r = 'A' :: ' ' :: rest) ∨
    (∃ rest, r = 'C' :: ' ' :: rest) ∨ (∃ rest, r = 'D' :: ' ' :: rest))

/-! ## Texts on which `%d` and `%s` read what is written -/

theorem isdigit_iff (c : Char) : isdigit c = true ↔ 48 ≤ c.toNat ∧ c.toNat ≤ 57 := by
  simp [isdigit]

theorem isspace_of_isdigit {c : Char} (h : isdigit c = true) : isspace c = false := by
  rw [isdigit_iff] at h
  simp only [isspace, Bool.or_eq_false_iff, decide_eq_false_iff_not]
  refine ⟨⟨⟨⟨⟨?_, ?_⟩, ?_⟩, ?_⟩, ?_⟩, ?_⟩ <;> (intro e; subst e; revert h; decide)

theorem ne_of_isdigit {c d : Char} (h : isdigit c = true) (hd : isdigit d = false) : c ≠ d := by
  intro e; subst e; simp [h] at hd

theorem toInt32_clampLong_small {v : Int} (h0 : 0 ≤ v) (h1 : v ≤ 2147483647) :
    toInt32 (clampLong v) = v := by
  unfold toInt32 clampLong
  split_ifs <;> omega

theorem scanSign_digit {c : Char} (t : CStr) (h : isdigit c = true) :
    scanSign (c :: t) = (false, c :: t) := by
  have h1 : c ≠ '-' := ne_of_isdigit h (by decide)
  have h2 : c ≠ '+' := ne_of_isdigit h (by decide)
  simp [scanSign, h1, h2]

/-- The directive `%d` on a run of digits followed by something that is not a digit. -/
theorem scan_d_digits (ds rest : CStr) (hne : ds ≠ []) (hd : ∀ c ∈ ds, isdigit c = true)
    (hr : ∀ c, rest.head? = some c → isdigit c = false) :
    scan_d (ds ++ rest) = some (toInt32 (clampLong (decVal ds)), rest) := by
  obtain ⟨c, t, rfl⟩ := List.exists_cons_of_ne_nil hne
  have hc : isdigit c = true := hd c (List.mem_cons_self _ _)
  have hrest_t : rest.takeWhile isdigit = [] := by
    cases rest with
    | nil => rfl
    | cons x xs => simp [List.takeWhile, hr x rfl]
  have hrest_d : rest.dropWhile isdigit = rest := by
    cases rest with
    | nil => rfl
    | cons x xs => simp [List.dropWhile, hr x rfl]
  have htake : (c :: (t ++ rest)).takeWhile isdigit = c :: t := by
    have := @List.takeWhile_append_of_pos _ isdigit (c :: t) rest hd
    simpa [hrest_t] using this
  have hdrop : (c :: (t ++ rest)).dropWhile isdigit = rest := by
    have := @List.dropWhile_append_of_pos _ isdigit (c :: t) rest hd
    simpa [hrest_d] using this
  have hsp : (c :: (t ++ rest)).dropWhile isspace = c :: (t ++ rest) := by
    simp [List.dropWhile, isspace_of_isdigit hc]
  simp only [scan_d, List.cons_append, hsp, scanSign_digit _ hc, htake, hdrop]
  simp

theorem octetText_iff (t : CStr) : octetText t = true ↔
    t ≠ [] ∧ t.length ≤ 3 ∧ (∀ c ∈ t, isdigit c = true) ∧ decVal t ≤ 255 := by
  simp only [octetText, Bool.and_eq_true, decide_eq_true_eq, List.all_eq_true]
  constructor
  · rintro ⟨⟨⟨h1, h2⟩, h3⟩, h4⟩
    exact ⟨by intro e; subst e; simp at h1, h2, h3, h4⟩
  · rintro ⟨h1, h2, h3, h4⟩
    exact ⟨⟨⟨List.length_pos.mpr h1, h2⟩, h3⟩, h4⟩

theorem portText_iff (t : CStr) : portText t = true ↔
    t ≠ [] ∧ t.length ≤ 5 ∧ (∀ c ∈ t, isdigit c = true) ∧ decVal t ≤ 65535 := by
  simp only [portText, Bool.and_eq_true, decide_eq_true_eq, List.all_eq_true]
  constructor
  · rintro ⟨⟨⟨h1, h2⟩, h3⟩, h4⟩
    exact ⟨by intro e; subst e; simp at h1, h2, h3, h4⟩
  · rintro ⟨h1, h2, h3, h4⟩
    exact ⟨⟨⟨List.length_pos.mpr h1, h2⟩, h3⟩, h4⟩

/-- The directive `%d` on an octet followed by something that is not a digit. -/
theorem scan_d_octet (o rest : CStr) (ho : octetText o = true)
    (hr : ∀ c, rest.head? = some c → isdigit c = false) :
    scan_d (o ++ rest) = some ((decVal o : Int), rest) := by
  obtain ⟨h1, _, h3, h4⟩ := (octetText_iff o).mp ho
  rw [scan_d_digits o rest h1 h3 hr, toInt32_clampLong_small (by omega) (by omega)]

theorem scan_lit_cons (c : Char) (t : CStr) : scan_lit c (c :: t) = some t := by
  simp [scan_lit]

theorem sscanf_quad_dotted (o1 o2 o3 o4 : CStr) (h1 : octetText o1 = true)
    (h2 : octetText o2 = true) (h3 : octetText o3 = true) (h4 : octetText o4 = true) :
    sscanf_quad (dotted o1 o2 o3 o4) =
      some ((decVal o1 : Int), (decVal o2 : Int), (decVal o3 : Int), (decVal o4 : Int), []) := by
  have hdot : ∀ (t : CStr) (c : Char), ('.' :: t).head? = some c → isdigit c = false := by
    intro t c hc
    simp only [List.head?_cons, Option.some.injEq] at hc
    subst hc; decide
  have hnil : ∀ c : Char, ([] : CStr).head? = some c → isdigit c = false := by
    intro c hc; simp at hc
  have e4 := scan_d_octet o4 [] h4 hnil
  rw [List.append_nil] at e4
  simp only [sscanf_quad, dotted, scan_d_octet o1 _ h1 (hdot _), scan_d_octet o2 _ h2 (hdot _),
    scan_d_octet o3 _ h3 (hdot _), e4, scan_lit_cons]

theorem u32_of_int_small {a : Nat} (h : a ≤ 255) : u32_of_int (a : Int) = a := by
  unfold u32_of_int; omega

theorem shl32_small {a k : Nat} (h : a ≤ 255) (hk : k ≤ 24) : shl32 a k = a <<< k := by
  unfold shl32
  apply Nat.mod_eq_of_lt
  rw [Nat.shiftLeft_eq]
  calc a * 2 ^ k ≤ 255 * 2 ^ 24 :=
        Nat.mul_le_mul h (Nat.pow_le_pow_right (by decide) hk)
    _ < 4294967296 := by decide

/-! ## The parsers on texts of the grammar -/

theorem parse_ip_dotted (o1 o2 o3 o4 : CStr) (h1 : octetText o1 = true)
    (h2 : octetText o2 = true) (h3 : octetText o3 = true) (h4 : octetText o4 = true) :
    parse_ip (dotted o1 o2 o3 o4) =
      some (pack (decVal o1) (decVal o2) (decVal o3) (decVal o4)) := by
  have b1 := ((octetText_iff o1).mp h1).2.2.2
  have b2 := ((octetText_iff o2).mp h2).2.2.2
  have b3 := ((octetText_iff o3).mp h3).2.2.2
  have b4 := ((octetText_iff o4).mp h4).2.2.2
  have hr : ¬ ((decVal o1 : Int) < 0 ∨ (decVal o1 : Int) > 255 ∨ (decVal o2 : Int) < 0 ∨
      (decVal o2 : Int) > 255 ∨ (decVal o3 : Int) < 0 ∨ (decVal o3 : Int) > 255 ∨
      (decVal o4 : Int) < 0 ∨ (decVal o4 : Int) > 255) := by omega
  simp only [parse_ip, sscanf_quad_dotted o1 o2 o3 o4 h1 h2 h3 h4, ne_eq, not_true_eq_false,
    if_false, hr, u32_of_int_small b1, u32_of_int_small b2, u32_of_int_small b3,
    u32_of_int_small b4, shl32_small b1 (le_refl 24), shl32_small b2 (by decide : 16 ≤ 24),
    shl32_small b3 (by decide : 8 ≤ 24), pack]

theorem parse_ip_of_IPText {t : CStr} {v : Nat} (h : IPText t v) : parse_ip t = some v := by
  obtain ⟨o1, o2, o3, o4, h1, h2, h3, h4, rfl, rfl⟩ := h
  exact parse_ip_dotted o1 o2 o3 o4 h1 h2 h3 h4

theorem parse_port_of_portText {t : CStr} (h : portText t = true) :
    parse_port t = some (decVal t : Int) := by
  obtain ⟨h1, _, h3, h4⟩ := (portText_iff t).mp h
  obtain ⟨c, u, rfl⟩ := List.exists_cons_of_ne_nil h1
  have hc : isdigit c = true := h3 c (List.mem_cons_self _ _)
  have e := scan_d_digits (c :: u) [] h1 h3 (by intro c hc; simp at hc)
  rw [List.append_nil, toInt32_clampLong_small (by omega) (by omega)] at e
  have hr : ¬ ((decVal (c :: u) : Int) < 0 ∨ (decVal (c :: u) : Int) > 65535) := by omega
  simp only [parse_port, hc, Bool.not_true, e, ne_eq, not_true_eq_false, if_false, hr]
  simp

theorem parse_port_of_PortText {t : CStr} {v : Int} (h : PortText t v) :
    parse_port t = some v := by
  obtain ⟨h1, rfl⟩ := h
  exact parse_port_of_portText h1

/-! ## `strchr`, `strrchr`, `strpbrk` and the word directives -/

theorem strchr_of_not_mem (s : CStr) (c : Char) (h : c ∉ s) : strchr s c = none := by
  induction s with
  | nil => rfl
  | cons x xs ih =>
    have hx : x ≠ c := fun e => h (e ▸ List.mem_cons_self _ _)
    have hxs : c ∉ xs := fun m => h (List.mem_cons_of_mem _ m)
    simp [strchr, hx, ih hxs]

theorem strchr_append_cons (x y : CStr) (c : Char) (h : c ∉ x) :
    strchr (x ++ c :: y) c = some x.length := by
  induction x with
  | nil => simp [strchr]
  | cons a as ih =>
    have ha : a ≠ c := fun e => h (e ▸ List.mem_cons_self _ _)
    have has : c ∉ as := fun m => h (List.mem_cons_of_mem _ m)
    simp [strchr, ha, ih has]

theorem strrchr_of_not_mem (s : CStr) (c : Char) (h : c ∉ s) : strrchr s c = none := by
  induction s with
  | nil => rfl
  | cons x xs ih =>
    have hx : x ≠ c := fun e => h (e ▸ List.mem_cons_self _ _)
    have hxs : c ∉ xs := fun m => h (List.mem_cons_of_mem _ m)
    simp [strrchr, hx, ih hxs]

theorem strrchr_append_cons (x y : CStr) (c : Char) (h : c ∉ y) :
    strrchr (x ++ c :: y) c = some x.length := by
  induction x with
  | nil => simp [strrchr, strrchr_of_not_mem y c h]
  | cons a as ih => simp [strrchr, ih]

theorem strpbrk_eq_false (s accept : CStr) (h : ∀ c ∈ s, c ∉ accept) :
    strpbrk s accept = false := by
  simp only [strpbrk, List.any_eq_false, List.contains_eq_any_beq, List.any_eq_true, beq_iff_eq,
    not_exists, not_and]
  intro c hc x hx e
  exact h c hc (e ▸ hx)

/-- The directive `%Ns` on a word that fits the width and is followed by
white space or by the end of the input. -/
theorem scan_s_word (w : Nat) (t rest : CStr) (hne : t ≠ [])
    (ht : ∀ c ∈ t, isspace c = false) (hw : t.length ≤ w)
    (hr : ∀ c, rest.head? = some c → isspace c = true) :
    scan_s w (t ++ rest) = some (t, rest) := by
  obtain ⟨c, u, rfl⟩ := List.exists_cons_of_ne_nil hne
  have hc : isspace c = false := ht c (List.mem_cons_self _ _)
  have hsp : (c :: (u ++ rest)).dropWhile isspace = c :: (u ++ rest) := by
    simp [List.dropWhile, hc]
  have hrest : rest.takeWhile (fun c => !isspace c) = [] := by
    cases rest with
    | nil => rfl
    | cons x xs => simp [List.takeWhile, hr x rfl]
  have htake : (c :: (u ++ rest)).takeWhile (fun c => !isspace c) = c :: u := by
    have := @List.takeWhile_append_of_pos _ (fun c => !isspace c) (c :: u) rest
      (by intro a ha; simp [ht a ha])
    simpa [hrest] using this
  have htk : (c :: u).take w = c :: u := List.take_of_length_le hw
  simp only [scan_s, List.cons_append, hsp, htake, htk]
  simp

theorem sscanf_words_pair (x y : CStr) (hx : x ≠ []) (hy : y ≠ [])
    (hxs : ∀ c ∈ x, isspace c = false) (hys : ∀ c ∈ y, isspace c = false)
    (hxl : x.length ≤ 63) (hyl : y.length ≤ 31) :
    sscanf_words (x ++ ' ' :: y) = some (x, y) := by
  have e1 := scan_s_word 63 x (' ' :: y) hx hxs hxl
    (by intro c hc; simp only [List.head?_cons, Option.some.injEq] at hc; subst hc; decide)
  have e2 := scan_s_word 31 y [] hy hys hyl (by intro c hc; simp at hc)
  rw [List.append_nil] at e2
  obtain ⟨c, u, rfl⟩ := List.exists_cons_of_ne_nil hy
  have hc : isspace c = false := hys c (List.mem_cons_self _ _)
  have hsp : isspace ' ' = true := by decide
  have hd : (' ' :: c :: u).dropWhile isspace = c :: u := by
    rw [List.dropWhile_cons_of_pos hsp, List.dropWhile_cons_of_neg (by simp [hc])]
  simp only [sscanf_words, e1, hd, e2]

/-! ## Shape of the texts of the grammar -/

theorem isspace_of_digit_or_dot {c : Char} (h : isdigit c = true ∨ c = '.') :
    isspace c = false := by
  rcases h with h | h
  · exact isspace_of_isdigit h
  · subst h; decide

theorem ne_dash_of_digit_or_dot {c : Char} (h : isdigit c = true ∨ c = '.') : c ≠ '-' := by
  rcases h with h | h
  · exact ne_of_isdigit h (by decide)
  · subst h; decide

theorem IPText.ipShape {t : CStr} {v : Nat} (h : IPText t v) :
    t ≠ [] ∧ (∀ c ∈ t, isdigit c = true ∨ c = '.') ∧ t.length ≤ 15 := by
  obtain ⟨o1, o2, o3, o4, h1, h2, h3, h4, rfl, _⟩ := h
  obtain ⟨n1, l1, d1, _⟩ := (octetText_iff o1).mp h1
  obtain ⟨_, l2, d2, _⟩ := (octetText_iff o2).mp h2
  obtain ⟨_, l3, d3, _⟩ := (octetText_iff o3).mp h3
  obtain ⟨_, l4, d4, _⟩ := (octetText_iff o4).mp h4
  refine ⟨by simp [dotted, n1], ?_, ?_⟩
  · intro c hc
    simp only [dotted, List.mem_append, List.mem_cons] at hc
    rcases hc with hc | hc | hc | hc | hc | hc | hc
    · exact Or.inl (d1 c hc)
    · exact Or.inr hc
    · exact Or.inl (d2 c hc)
    · exact Or.inr hc
    · exact Or.inl (d3 c hc)
    · exact Or.inr hc
    · exact Or.inl (d4 c hc)
  · simp only [dotted, List.length_append, List.length_cons]
    omega

theorem PortText.portShape {t : CStr} {v : Int} (h : PortText t v) :
    t ≠ [] ∧ (∀ c ∈ t, isdigit c = true) ∧ t.length ≤ 5 ∧ 0 ≤ v ∧ v ≤ 65535 := by
  obtain ⟨h1, rfl⟩ := h
  obtain ⟨n, l, d, b⟩ := (portText_iff t).mp h1
  exact ⟨n, d, l, by omega, by omega⟩

theorem take_length_append_cons (x y : CStr) (c : Char) :
    (x ++ c :: y).take x.length = x := by
  simp

theorem drop_length_append_cons (x y : CStr) (c : Char) :
    (x ++ c :: y).drop (x.length + 1) = y := by
  induction x with
  | nil => simp
  | cons a as ih => simp [ih]

/-! ## The clauses of `parse_rule` on texts of the grammar -/

theorem parse_ip_clause_single {t : CStr} {v : Nat} (h : IPText t v) :
    parse_ip_clause t = some (v, v) := by
  have hd : '-' ∉ t := fun m => ne_dash_of_digit_or_dot (h.ipShape.2.1 _ m) rfl
  simp [parse_ip_clause, strchr_of_not_mem t '-' hd, parse_ip_of_IPText h]

theorem parse_ip_clause_dash {x y : CStr} {lo hi : Nat} (hx : IPText x lo) (hy : IPText y hi) :
    parse_ip_clause (x ++ '-' :: y) = if lo ≥ hi then none else some (lo, hi) := by
  have hd : '-' ∉ x := fun m => ne_dash_of_digit_or_dot (hx.ipShape.2.1 _ m) rfl
  simp only [parse_ip_clause, strchr_append_cons x y '-' hd, take_length_append_cons,
    drop_length_append_cons, parse_ip_of_IPText hx, parse_ip_of_IPText hy]

theorem parse_ip_clause_of_range {t : CStr} {lo hi : Nat} (h : IPRangeText t lo hi) :
    parse_ip_clause t = some (lo, hi) := by
  rcases h with ⟨h, rfl⟩ | ⟨x, y, hx, hy, hlt, rfl⟩
  · exact parse_ip_clause_single h
  · rw [parse_ip_clause_dash hx hy, if_neg (by omega)]

theorem parse_port_clause_single {t : CStr} {v : Int} (h : PortText t v) :
    parse_port_clause t = some (v, v) := by
  have hd : '-' ∉ t := fun m => ne_of_isdigit (h.portShape.2.1 _ m) (by decide) rfl
  simp [parse_port_clause, strchr_of_not_mem t '-' hd, parse_port_of_PortText h]

theorem parse_port_clause_dash {x y : CStr} {lo hi : Int} (hx : PortText x lo)
    (hy : PortText y hi) :
    parse_port_clause (x ++ '-' :: y) = if lo ≥ hi then none else some (lo, hi) := by
  have hd : '-' ∉ x := fun m => ne_of_isdigit (hx.portShape.2.1 _ m) (by decide) rfl
  simp only [parse_port_clause, strchr_append_cons x y '-' hd, take_length_append_cons,
    drop_length_append_cons, parse_port_of_PortText hx, parse_port_of_PortText hy]

theorem parse_port_clause_of_range {t : CStr} {lo hi : Int} (h : PortRangeText t lo hi) :
    parse_port_clause t = some (lo, hi) := by
  rcases h with ⟨h, rfl⟩ | ⟨x, y, hx, hy, hlt, rfl⟩
  · exact parse_port_clause_single h
  · rw [parse_port_clause_dash hx hy, if_neg (by omega)]

/-- A word: a non-empty text without white space. -/
theorem IPText.ipWord {t : CStr} {v : Nat} (h : IPText t v) :
    t ≠ [] ∧ (∀ c ∈ t, isspace c = false) ∧ t.length ≤ 15 :=
  ⟨h.ipShape.1, fun c hc => isspace_of_digit_or_dot (h.ipShape.2.1 c hc), h.ipShape.2.2⟩

theorem PortText.portWord {t : CStr} {v : Int} (h : PortText t v) :
    t ≠ [] ∧ (∀ c ∈ t, isspace c = false) ∧ t.length ≤ 5 :=
  ⟨h.portShape.1, fun c hc => isspace_of_isdigit (h.portShape.2.1 c hc), h.portShape.2.2.1⟩

theorem word_dash {x y : CStr} {n m : Nat}
    (hx : x ≠ [] ∧ (∀ c ∈ x, isspace c = false) ∧ x.length ≤ n)
    (hy : y ≠ [] ∧ (∀ c ∈ y, isspace c = false) ∧ y.length ≤ m) :
    x ++ '-' :: y ≠ [] ∧ (∀ c ∈ x ++ '-' :: y, isspace c = false) ∧
      (x ++ '-' :: y).length ≤ n + m + 1 := by
  refine ⟨by simp, ?_, ?_⟩
  · intro c hc
    simp only [List.mem_append, List.mem_cons] at hc
    rcases hc with hc | hc | hc
    · exact hx.2.1 c hc
    · subst hc; decide
    · exact hy.2.1 c hc
  · simp only [List.length_append, List.length_cons]
    omega

theorem IPRangeText.ipRangeWord {t : CStr} {lo hi : Nat} (h : IPRangeText t lo hi) :
    t ≠ [] ∧ (∀ c ∈ t, isspace c = false) ∧ t.length ≤ 31 := by
  rcases h with ⟨h, _⟩ | ⟨x, y, hx, hy, _, rfl⟩
  · exact ⟨h.ipWord.1, h.ipWord.2.1, by have := h.ipWord.2.2; omega⟩
  · exact word_dash hx.ipWord hy.ipWord

theorem PortRangeText.portRangeWord {t : CStr} {lo hi : Int} (h : PortRangeText t lo hi) :
    t ≠ [] ∧ (∀ c ∈ t, isspace c = false) ∧ t.length ≤ 11 := by
  rcases h with ⟨h, _⟩ | ⟨x, y, hx, hy, _, rfl⟩
  · exact ⟨h.portWord.1, h.portWord.2.1, by have := h.portWord.2.2; omega⟩
  · exact word_dash hx.portWord hy.portWord

/-- The checks of `parse_rule` and `handle_C` ahead of the parsers, on two words
separated by one space. -/
theorem surface_checks (x y : CStr) (hxs : ∀ c ∈ x, isspace c = false)
    (hys : ∀ c ∈ y, isspace c = false) :
    strchr (x ++ ' ' :: y) ' ' = some x.length ∧ strrchr (x ++ ' ' :: y) ' ' = some x.length ∧
      strpbrk (x ++ ' ' :: y) ['\t', '\r', '\n'] = false := by
  have nx : ' ' ∉ x := fun m => by have := hxs _ m; revert this; decide
  have ny : ' ' ∉ y := fun m => by have := hys _ m; revert this; decide
  refine ⟨strchr_append_cons x y ' ' nx, strrchr_append_cons x y ' ' ny, ?_⟩
  apply strpbrk_eq_false
  intro c hc hm
  have hsp : isspace c = true := by
    simp only [List.mem_cons, List.mem_singleton, List.not_mem_nil, or_false] at hm
    rcases hm with e | e | e <;> (subst e; decide)
  simp only [List.mem_append, List.mem_cons] at hc
  rcases hc with hc | hc | hc
  · rw [hxs c hc] at hsp; exact Bool.noConfusion hsp
  · subst hc; simp at hm
  · rw [hys c hc] at hsp; exact Bool.noConfusion hsp

theorem parse_rule_of_spec {s : CStr} {a b : Nat} {p q : Int} (h : RuleSpecText s a b p q) :
    parse_rule s = some ⟨a, b, p, q, [], 0⟩ := by
  obtain ⟨i, t, hi, ht, rfl⟩ := h
  obtain ⟨c1, c2, c3⟩ := surface_checks i t hi.ipRangeWord.2.1 ht.portRangeWord.2.1
  have hw := sscanf_words_pair i t hi.ipRangeWord.1 ht.portRangeWord.1 hi.ipRangeWord.2.1 ht.portRangeWord.2.1
    (by have := hi.ipRangeWord.2.2; omega) (by have := ht.portRangeWord.2.2; omega)
  simp [parse_rule, c1, c2, c3, hw, parse_ip_clause_of_range hi, parse_port_clause_of_range ht]

/-! ## The dispatcher -/

theorem trim_append_word (x y : CStr) (hy : y ≠ []) (hys : ∀ c ∈ y, isspace c = false) :
    trim (x ++ y) = x ++ y := by
  have hr : y.reverse ≠ [] := by simpa using hy
  obtain ⟨c, u, hcu⟩ := List.exists_cons_of_ne_nil hr
  have hc : isspace c = false := by
    apply hys
    have : c ∈ y.reverse := by rw [hcu]; exact List.mem_cons_self _ _
    simpa using this
  unfold trim
  rw [List.reverse_append, hcu, List.cons_append, List.dropWhile_cons_of_neg (by simp [hc]),
    ← List.cons_append, ← hcu, ← List.reverse_append, List.reverse_reverse]

theorem trim_cmd (k : Char) (x y : CStr) (hy : y ≠ []) (hys : ∀ c ∈ y, isspace c = false) :
    trim (k :: ' ' :: (x ++ ' ' :: y)) = k :: ' ' :: (x ++ ' ' :: y) := by
  have := trim_append_word (k :: ' ' :: (x ++ [' '])) y hy hys
  simpa using this

theorem processRequest_A (st : State) (s : CStr) (h : trim ('A' :: ' ' :: s) = 'A' :: ' ' :: s) :
    processRequest st ('A' :: ' ' :: s) =
      handle_A (log_request st ('A' :: ' ' :: s)) ('A' :: ' ' :: s) := by
  simp [processRequest, h]

theorem processRequest_C (st : State) (s : CStr) (h : trim ('C' :: ' ' :: s) = 'C' :: ' ' :: s) :
    processRequest st ('C' :: ' ' :: s) =
      handle_C (log_request st ('C' :: ' ' :: s)) ('C' :: ' ' :: s) := by
  simp [processRequest, h]

theorem processRequest_D (st : State) (s : CStr) (h : trim ('D' :: ' ' :: s) = 'D' :: ' ' :: s) :
    processRequest st ('D' :: ' ' :: s) =
      handle_D (log_request st ('D' :: ' ' :: s)) ('D' :: ' ' :: s) := by
  simp [processRequest, h]

/-! ## The matching loop of `handle_C` -/

theorem in_range_iff (r : Rule) (ip : Nat) (port : Int) :
    (ip_in_range ip r && port_in_range port r) = true ↔ covers r ip port := by
  simp [ip_in_range, port_in_range, covers, and_assoc]

theorem handle_C_loop_none (ip : Nat) (port : Int) (rules : List Rule) :
    handle_C_loop ip port rules = none ↔ ∀ r ∈ rules, ¬ covers r ip port := by
  induction rules with
  | nil => simp [handle_C_loop]
  | cons r rs ih =>
    by_cases h : covers r ip port
    · simp [handle_C_loop, (in_range_iff r ip port).mpr h, h]
    · have h' : ¬ ((ip_in_range ip r && port_in_range port r) = true) :=
        fun e => h ((in_range_iff r ip port).mp e)
      simp [handle_C_loop, h', h, ih]

theorem handle_C_loop_first (ip : Nat) (port : Int) (pre post : List Rule) (r : Rule)
    (hpre : ∀ x ∈ pre, ¬ covers x ip port) (hr : covers r ip port) :
    handle_C_loop ip port (pre ++ r :: post) = some (pre ++ record_query r ip port :: post) := by
  induction pre with
  | nil => simp [handle_C_loop, (in_range_iff r ip port).mpr hr]
  | cons x xs ih =>
    have hx : ¬ ((ip_in_range ip x && port_in_range port x) = true) :=
      fun e => hpre x (List.mem_cons_self _ _) ((in_range_iff x ip port).mp e)
    have := ih (fun y hy => hpre y (List.mem_cons_of_mem _ hy))
    simp [handle_C_loop, hx, this]

/-- The earliest covering rule: a split of the rules around it. -/
theorem exists_first_cover (ip : Nat) (port : Int) (rules : List Rule)
    (h : ∃ r ∈ rules, covers r ip port) :
    ∃ pre r post, rules = pre ++ r :: post ∧ (∀ x ∈ pre, ¬ covers x ip port) ∧
      covers r ip port := by
  induction rules with
  | nil => obtain ⟨r, hr, _⟩ := h; simp at hr
  | cons x xs ih =>
    by_cases hx : covers x ip port
    · exact ⟨[], x, xs, rfl, by simp, hx⟩
    · obtain ⟨r, hr, hc⟩ := h
      have hr' : r ∈ xs := by
        rcases List.mem_cons.mp hr with e | e
        · subst e; exact absurd hc hx
        · exact e
      obtain ⟨pre, r0, post, e, hpre, hc0⟩ := ih ⟨r, hr', hc⟩
      refine ⟨x :: pre, r0, post, by simp [e], ?_, hc0⟩
      intro y hy
      rcases List.mem_cons.mp hy with e' | e'
      · subst e'; exact hx
      · exact hpre y e'

/-- Function `handle_C` on a request of the grammar: only the loop is left. -/
theorem handle_C_valid (st : State) (ipT portT : CStr) (ip : Nat) (port : Int)
    (hip : IPText ipT ip) (hport : PortText portT port) :
    handle_C st ('C' :: ' ' :: (ipT ++ ' ' :: portT)) =
      match handle_C_loop ip port st.rules with
      | some rules' => ({ st with rules := rules' }, "Connection accepted".toList)
      | none => (st, "Connection rejected".toList) := by
  obtain ⟨c1, c2, c3⟩ := surface_checks ipT portT hip.ipWord.2.1 hport.portWord.2.1
  have hw := sscanf_words_pair ipT portT hip.ipWord.1 hport.portWord.1 hip.ipWord.2.1 hport.portWord.2.1
    (by have := hip.ipWord.2.2; omega) (by have := hport.portWord.2.2; omega)
  simp only [handle_C, List.drop_succ_cons, List.drop_zero, c1, c2, c3, hw,
    parse_ip_of_IPText hip, parse_port_of_PortText hport]
  cases handle_C_loop ip port st.rules <;> simp

/-! ## Claims C1 to C3: checking a connection and adding a rule -/

/-- C1: for every state and every pair of an address text and a port text of the
grammar, `processRequest` on `C ip port` answers `Connection accepted` exactly
when some stored rule covers the pair, and `Connection rejected` exactly when
none does. -/
theorem check_connection_accepted_iff_covered (st : State) (ipT portT : CStr) (ip : Nat)
    (port : Int) (hip : IPText ipT ip) (hport : PortText portT port) :
    ((processRequest st ('C' :: ' ' :: (ipT ++ ' ' :: portT))).2 = "Connection accepted".toList ↔
      ∃ r ∈ st.rules, covers r ip port) ∧
    ((processRequest st ('C' :: ' ' :: (ipT ++ ' ' :: portT))).2 = "Connection rejected".toList ↔
      ¬ ∃ r ∈ st.rules, covers r ip port) := by
  rw [processRequest_C st _ (trim_cmd 'C' ipT portT hport.portWord.1 hport.portWord.2.1),
    handle_C_valid _ ipT portT ip port hip hport]
  have hrules : (log_request st ('C' :: ' ' :: (ipT ++ ' ' :: portT))).rules = st.rules := rfl
  have hne : "Connection rejected".toList ≠ "Connection accepted".toList := by decide
  rw [hrules]
  cases hl : handle_C_loop ip port st.rules with
  | none =>
    have hn := (handle_C_loop_none ip port st.rules).mp hl
    have hnex : ¬ ∃ r ∈ st.rules, covers r ip port := fun ⟨r, hr, hc⟩ => hn r hr hc
    exact ⟨⟨fun e => absurd e hne, fun h => absurd h hnex⟩, ⟨fun _ => hnex, fun _ => rfl⟩⟩
  | some rules' =>
    have hex : ∃ r ∈ st.rules, covers r ip port := by
      by_contra hnex
      have : handle_C_loop ip port st.rules = none :=
        (handle_C_loop_none ip port st.rules).mpr (fun r hr hc => hnex ⟨r, hr, hc⟩)
      rw [hl] at this
      exact Option.noConfusion this
    exact ⟨⟨fun _ => hex, fun _ => rfl⟩, ⟨fun e => absurd e.symm hne, fun h => absurd hex h⟩⟩

theorem check_connection_accepted_iff_covered_witness :
    IPText "1.2.3.4".toList 16909060 ∧ PortText "80".toList 80 ∧
    (((processRequest ⟨[⟨16909060, 16909060, 80, 80, [], 0⟩], 8, [], 0⟩
        "C 1.2.3.4 80".toList).2 = "Connection accepted".toList ↔
      ∃ r ∈ [(⟨16909060, 16909060, 80, 80, [], 0⟩ : Rule)], covers r 16909060 80) ∧
    ((processRequest ⟨[⟨16909060, 16909060, 80, 80, [], 0⟩], 8, [], 0⟩
        "C 1.2.3.4 80".toList).2 = "Connection rejected".toList ↔
      ¬ ∃ r ∈ [(⟨16909060, 16909060, 80, 80, [], 0⟩ : Rule)], covers r 16909060 80)) :=
  have hip : IPText "1.2.3.4".toList 16909060 :=
    ⟨['1'], ['2'], ['3'], ['4'], by decide, by decide, by decide, by decide, by decide, by decide⟩
  have hport : PortText "80".toList 80 := ⟨by decide, by decide⟩
  ⟨hip, hport, check_connection_accepted_iff_covered
    ⟨[⟨16909060, 16909060, 80, 80, [], 0⟩], 8, [], 0⟩ _ _ _ _ hip hport⟩

/-- C2: first match.  When some stored rule covers the pair, `C ip port` is
accepted, the query is appended at the end of the query list of the earliest
covering rule, whose endpoints stay as they were, and the rules before and
after it are unchanged, in number and in order. -/
theorem check_connection_records_first_match (st : State) (ipT portT : CStr) (ip : Nat)
    (port : Int) (hip : IPText ipT ip) (hport : PortText portT port)
    (hcov : ∃ r ∈ st.rules, covers r ip port) :
    ∃ (pre : List Rule) (r : Rule) (post : List Rule) (r' : Rule),
      st.rules = pre ++ r :: post ∧ (∀ x ∈ pre, ¬ covers x ip port) ∧ covers r ip port ∧
      (processRequest st ('C' :: ' ' :: (ipT ++ ' ' :: portT))).2 = "Connection accepted".toList ∧
      (processRequest st ('C' :: ' ' :: (ipT ++ ' ' :: portT))).1.rules = pre ++ r' :: post ∧
      r'.queries = r.queries ++ [⟨ip, port⟩] ∧
      r'.ip_start = r.ip_start ∧ r'.ip_end = r.ip_end ∧
      r'.port_start = r.port_start ∧ r'.port_end = r.port_end := by
  obtain ⟨pre, r, post, hsplit, hpre, hr⟩ := exists_first_cover ip port st.rules hcov
  refine ⟨pre, r, post, record_query r ip port, hsplit, hpre, hr, ?_, ?_, rfl, rfl, rfl, rfl, rfl⟩
  all_goals
    rw [processRequest_C st _ (trim_cmd 'C' ipT portT hport.portWord.1 hport.portWord.2.1),
      handle_C_valid _ ipT portT ip port hip hport]
    have hrules : (log_request st ('C' :: ' ' :: (ipT ++ ' ' :: portT))).rules = st.rules := rfl
    rw [hrules, hsplit, handle_C_loop_first ip port pre post r hpre hr]

theorem check_connection_records_first_match_witness :
    IPText "1.2.3.4".toList 16909060 ∧ PortText "80".toList 80 ∧
    (∃ r ∈ [(⟨0, 5, 80, 80, [], 0⟩ : Rule), ⟨16909060, 16909060, 80, 80, [], 0⟩,
        ⟨0, 4294967295, 0, 65535, [], 0⟩], covers r 16909060 80) ∧
    ∃ (pre : List Rule) (r : Rule) (post : List Rule) (r' : Rule),
      [(⟨0, 5, 80, 80, [], 0⟩ : Rule), ⟨16909060, 16909060, 80, 80, [], 0⟩,
        ⟨0, 4294967295, 0, 65535, [], 0⟩] = pre ++ r :: post ∧
      (∀ x ∈ pre, ¬ covers x 16909060 80) ∧ covers r 16909060 80 ∧
      (processRequest ⟨[⟨0, 5, 80, 80, [], 0⟩, ⟨16909060, 16909060, 80, 80, [], 0⟩,
        ⟨0, 4294967295, 0, 65535, [], 0⟩], 8, [], 0⟩ "C 1.2.3.4 80".toList).2 =
          "Connection accepted".toList ∧
      (processRequest ⟨[⟨0, 5, 80, 80, [], 0⟩, ⟨16909060, 16909060, 80, 80, [], 0⟩,
        ⟨0, 4294967295, 0, 65535, [], 0⟩], 8, [], 0⟩ "C 1.2.3.4 80".toList).1.rules =
          pre ++ r' :: post ∧
      r'.queries = r.queries ++ [⟨16909060, 80⟩] ∧
      r'.ip_start = r.ip_start ∧ r'.ip_end = r.ip_end ∧
      r'.port_start = r.port_start ∧ r'.port_end = r.port_end :=
  have hip : IPText "1.2.3.4".toList 16909060 :=
    ⟨['1'], ['2'], ['3'], ['4'], by decide, by decide, by decide, by decide, by decide, by decide⟩
  have hport : PortText "80".toList 80 := ⟨by decide, by decide⟩
  have hcov : ∃ r ∈ [(⟨0, 5, 80, 80, [], 0⟩ : Rule), ⟨16909060, 16909060, 80, 80, [], 0⟩,
      ⟨0, 4294967295, 0, 65535, [], 0⟩], covers r 16909060 80 :=
    ⟨⟨16909060, 16909060, 80, 80, [], 0⟩, by simp, by decide⟩
  ⟨hip, hport, hcov, check_connection_records_first_match
    ⟨[⟨0, 5, 80, 80, [], 0⟩, ⟨16909060, 16909060, 80, 80, [], 0⟩,
      ⟨0, 4294967295, 0, 65535, [], 0⟩], 8, [], 0⟩ _ _ _ _ hip hport hcov⟩

/-- C3: for every rule specification of the grammar, `processRequest` on `A s`
answers `Rule added` and appends one rule with the denoted endpoints and no
queries at the end of the store; the rules already stored are unchanged. -/
theorem add_rule_appends (st : State) (s : CStr) (a b : Nat) (p q : Int)
    (h : RuleSpecText s a b p q) :
    (processRequest st ('A' :: ' ' :: s)).2 = "Rule added".toList ∧
    (processRequest st ('A' :: ' ' :: s)).1.rules = st.rules ++ [⟨a, b, p, q, [], 0⟩] := by
  have hp := parse_rule_of_spec h
  obtain ⟨i, t, hi, ht, rfl⟩ := h
  rw [processRequest_A st _ (trim_cmd 'A' i t ht.portRangeWord.1 ht.portRangeWord.2.1)]
  have e : handle_A (log_request st ('A' :: ' ' :: (i ++ ' ' :: t))) ('A' :: ' ' :: (i ++ ' ' :: t)) =
      ({ log_request st ('A' :: ' ' :: (i ++ ' ' :: t)) with
          rules := st.rules ++ [⟨a, b, p, q, [], 0⟩],
          rule_cap := grow st.rules.length st.rule_cap }, "Rule added".toList) := by
    simp only [handle_A, List.drop_succ_cons, List.drop_zero, hp]
    rfl
  rw [e]
  exact ⟨rfl, rfl⟩

theorem add_rule_appends_witness :
    RuleSpecText "1.2.3.4-1.2.3.9 80".toList 16909060 16909065 80 80 ∧
    (processRequest ⟨[⟨0, 5, 80, 80, [⟨3, 80⟩], 8⟩], 8, [], 0⟩
      "A 1.2.3.4-1.2.3.9 80".toList).2 = "Rule added".toList ∧
    (processRequest ⟨[⟨0, 5, 80, 80, [⟨3, 80⟩], 8⟩], 8, [], 0⟩
      "A 1.2.3.4-1.2.3.9 80".toList).1.rules =
        [⟨0, 5, 80, 80, [⟨3, 80⟩], 8⟩] ++ [⟨16909060, 16909065, 80, 80, [], 0⟩] :=
  have hx : IPText "1.2.3.4".toList 16909060 :=
    ⟨['1'], ['2'], ['3'], ['4'], by decide, by decide, by decide, by decide, by decide, by decide⟩
  have hy : IPText "1.2.3.9".toList 16909065 :=
    ⟨['1'], ['2'], ['3'], ['9'], by decide, by decide, by decide, by decide, by decide, by decide⟩
  have hspec : RuleSpecText "1.2.3.4-1.2.3.9 80".toList 16909060 16909065 80 80 :=
    ⟨"1.2.3.4-1.2.3.9".toList, "80".toList,
      Or.inr ⟨"1.2.3.4".toList, "1.2.3.9".toList, hx, hy, by decide, by decide⟩,
      Or.inl ⟨⟨by decide, by decide⟩, rfl⟩, by decide⟩
  ⟨hspec, add_rule_appends ⟨[⟨0, 5, 80, 80, [⟨3, 80⟩], 8⟩], 8, [], 0⟩ _ _ _ _ _ hspec⟩

/-! ## Claim C6: `parse_ip` on dotted quads -/

set_option maxRecDepth 100000 in
theorem octetText_fmt_u :
    ∀ a : Nat, a ≤ 255 → octetText (fmt_u a) = true ∧ decVal (fmt_u a) = a := by
  decide

theorem pack_lt (a b c d : Nat) (ha : a ≤ 255) (hb : b ≤ 255) (hc : c ≤ 255) (hd : d ≤ 255) :
    pack a b c d < 4294967296 := by
  have h32 : (4294967296 : Nat) = 2 ^ 32 := by norm_num
  have e1 : a <<< 24 < 2 ^ 32 := by rw [Nat.shiftLeft_eq]; omega
  have e2 : b <<< 16 < 2 ^ 32 := by rw [Nat.shiftLeft_eq]; omega
  have e3 : c <<< 8 < 2 ^ 32 := by rw [Nat.shiftLeft_eq]; omega
  have e4 : d < 2 ^ 32 := by omega
  rw [h32]
  exact Nat.or_lt_two_pow (Nat.or_lt_two_pow (Nat.or_lt_two_pow e1 e2) e3) e4

/-- C6: for all octets `a`, `b`, `c`, `d` in 0..255, `parse_ip` succeeds on the
dotted-quad text `a.b.c.d` and returns the 32-bit value
`(a<<24)|(b<<16)|(c<<8)|d`. -/
theorem parse_ip_dotted_quad (a b c d : Nat) (ha : a ≤ 255) (hb : b ≤ 255) (hc : c ≤ 255)
    (hd : d ≤ 255) :
    parse_ip (fmt_u a ++ '.' :: (fmt_u b ++ '.' :: (fmt_u c ++ '.' :: fmt_u d))) =
      some (a <<< 24 ||| b <<< 16 ||| c <<< 8 ||| d) ∧
    a <<< 24 ||| b <<< 16 ||| c <<< 8 ||| d < 4294967296 := by
  obtain ⟨ta, va⟩ := octetText_fmt_u a ha
  obtain ⟨tb, vb⟩ := octetText_fmt_u b hb
  obtain ⟨tc, vc⟩ := octetText_fmt_u c hc
  obtain ⟨td, vd⟩ := octetText_fmt_u d hd
  have h := parse_ip_dotted (fmt_u a) (fmt_u b) (fmt_u c) (fmt_u d) ta tb tc td
  rw [va, vb, vc, vd] at h
  exact ⟨h, pack_lt a b c d ha hb hc hd⟩

theorem parse_ip_dotted_quad_witness :
    (0 ≤ 255 ∧ 255 ≤ 255 ∧ 192 ≤ 255 ∧ 43 ≤ 255) ∧
    parse_ip "0.255.192.43".toList = some (0 <<< 24 ||| 255 <<< 16 ||| 192 <<< 8 ||| 43) ∧
    0 <<< 24 ||| 255 <<< 16 ||| 192 <<< 8 ||| 43 < 4294967296 :=
  ⟨by decide, parse_ip_dotted_quad 0 255 192 43 (by decide) (by decide) (by decide) (by decide)⟩

/-! ## Claim C8: ranges must be strictly increasing -/

/-- Function `parse_rule` on two words separated by one space: only the two
clauses are left. -/
theorem parse_rule_words (i t : CStr)
    (hi : i ≠ [] ∧ (∀ c ∈ i, isspace c = false) ∧ i.length ≤ 63)
    (ht : t ≠ [] ∧ (∀ c ∈ t, isspace c = false) ∧ t.length ≤ 31) :
    parse_rule (i ++ ' ' :: t) =
      match parse_ip_clause i with
      | none => none
      | some (a, b) =>
        match parse_port_clause t with
        | none => none
        | some (p, q) => some ⟨a, b, p, q, [], 0⟩ := by
  obtain ⟨c1, c2, c3⟩ := surface_checks i t hi.2.1 ht.2.1
  have hw := sscanf_words_pair i t hi.1 ht.1 hi.2.1 ht.2.1 hi.2.2 ht.2.2
  simp only [parse_rule, c1, c2, c3, hw]
  rcases parse_ip_clause i with _ | ⟨a, b⟩
  · simp
  · rcases parse_port_clause t with _ | ⟨p, q⟩ <;> simp

theorem invalid_of_parse_rule_none (st : State) (x y : CStr) (hy : y ≠ [])
    (hys : ∀ c ∈ y, isspace c = false) (h : parse_rule (x ++ ' ' :: y) = none) :
    (processRequest st ('A' :: ' ' :: (x ++ ' ' :: y))).2 = "Invalid rule".toList ∧
    (processRequest st ('D' :: ' ' :: (x ++ ' ' :: y))).2 = "Invalid rule".toList := by
  rw [processRequest_A st _ (trim_cmd 'A' x y hy hys),
    processRequest_D st _ (trim_cmd 'D' x y hy hys)]
  simp [handle_A, handle_D, h]

/-- C8: for address texts `x`, `y` and port texts `p`, `q` of the grammar,
`parse_rule` rejects `x-y p` when the address of `x` is not below that of `y`,
and rejects `x p-q` when the port of `p` is not below that of `q`; `A` and `D`
then answer `Invalid rule`. -/
theorem parse_rule_rejects_non_increasing (st : State) (x y p q : CStr) (X Y : Nat)
    (P Q : Int) (hx : IPText x X) (hy : IPText y Y) (hp : PortText p P) (hq : PortText q Q) :
    (X ≥ Y →
      parse_rule ((x ++ '-' :: y) ++ ' ' :: p) = none ∧
      (processRequest st ('A' :: ' ' :: ((x ++ '-' :: y) ++ ' ' :: p))).2 =
        "Invalid rule".toList ∧
      (processRequest st ('D' :: ' ' :: ((x ++ '-' :: y) ++ ' ' :: p))).2 =
        "Invalid rule".toList) ∧
    (P ≥ Q →
      parse_rule (x ++ ' ' :: (p ++ '-' :: q)) = none ∧
      (processRequest st ('A' :: ' ' :: (x ++ ' ' :: (p ++ '-' :: q)))).2 =
        "Invalid rule".toList ∧
      (processRequest st ('D' :: ' ' :: (x ++ ' ' :: (p ++ '-' :: q)))).2 =
        "Invalid rule".toList) := by
  constructor
  · intro hge
    have wi := word_dash hx.ipWord hy.ipWord
    have hnone : parse_rule ((x ++ '-' :: y) ++ ' ' :: p) = none := by
      rw [parse_rule_words _ p ⟨wi.1, wi.2.1, by have := wi.2.2; omega⟩
        ⟨hp.portWord.1, hp.portWord.2.1, by have := hp.portWord.2.2; omega⟩,
        parse_ip_clause_dash hx hy, if_pos hge]
    exact ⟨hnone, invalid_of_parse_rule_none st _ p hp.portWord.1 hp.portWord.2.1 hnone⟩
  · intro hge
    have wt := word_dash hp.portWord hq.portWord
    have hnone : parse_rule (x ++ ' ' :: (p ++ '-' :: q)) = none := by
      rw [parse_rule_words x _ ⟨hx.ipWord.1, hx.ipWord.2.1, by have := hx.ipWord.2.2; omega⟩
        ⟨wt.1, wt.2.1, by have := wt.2.2; omega⟩,
        parse_ip_clause_single hx, parse_port_clause_dash hp hq, if_pos hge]
    exact ⟨hnone, invalid_of_parse_rule_none st x _ wt.1 wt.2.1 hnone⟩

theorem parse_rule_rejects_non_increasing_witness :
    IPText "10.0.0.1".toList 167772161 ∧ PortText "22".toList 22 ∧
    (167772161 ≥ 167772161 ∧
      parse_rule "10.0.0.1-10.0.0.1 22".toList = none ∧
      (processRequest State.init "A 10.0.0.1-10.0.0.1 22".toList).2 = "Invalid rule".toList ∧
      (processRequest State.init "D 10.0.0.1-10.0.0.1 22".toList).2 = "Invalid rule".toList) ∧
    ((22 : Int) ≥ 22 ∧
      parse_rule "10.0.0.1 22-22".toList = none ∧
      (processRequest State.init "A 10.0.0.1 22-22".toList).2 = "Invalid rule".toList ∧
      (processRequest State.init "D 10.0.0.1 22-22".toList).2 = "Invalid rule".toList) :=
  have hx : IPText "10.0.0.1".toList 167772161 :=
    ⟨['1', '0'], ['0'], ['0'], ['1'], by decide, by decide, by decide, by decide, by decide,
      by decide⟩
  have hp : PortText "22".toList 22 := ⟨by decide, by decide⟩
  ⟨hx, hp,
    ⟨le_refl _, (parse_rule_rejects_non_increasing State.init _ _ _ _ _ _ _ _ hx hx hp hp).1
      (le_refl _)⟩,
    ⟨le_refl _, (parse_rule_rejects_non_increasing State.init _ _ _ _ _ _ _ _ hx hx hp hp).2
      (le_refl _)⟩⟩

/-! ## Claims C4, C5 and C7: inputs on which the parsers accept too much -/

/-- C4, evaluated: `parse_rule` accepts a text with exactly one space and no tab,
carriage return or newline whose part after the space is not a port or port
range (a form feed ends the word `sscanf` reads), and accepts a text whose address
clause is longer than the 63 characters `sscanf` reads, with endpoints other
than the ones the two clauses denote. -/
theorem parse_rule_accepts_beyond_clauses :
    parse_rule ("1.2.3.4 80".toList ++ '\x0c' :: "junk".toList) =
      some ⟨16909060, 16909060, 80, 80, [], 0⟩ ∧
    parse_port_clause ("80".toList ++ '\x0c' :: "junk".toList) = none ∧
    (processRequest State.init ("A 1.2.3.4 80".toList ++ '\x0c' :: "junk".toList)).2 =
      "Rule added".toList ∧
    parse_rule ((List.replicate 56 '0' ++ "1.2.3.45".toList) ++ ' ' :: "80".toList) =
      some ⟨16909060, 16909060, 5, 5, [], 0⟩ ∧
    parse_ip_clause (List.replicate 56 '0' ++ "1.2.3.45".toList) = some (16909101, 16909101) ∧
    parse_port_clause "80".toList = some (80, 80) := by
  refine ⟨by decide, by decide, by decide, by decide, by decide, by decide⟩

/-- C5, evaluated: `parse_ip` accepts an address with a sign in front of an
octet and an address with white space in front of an octet, and `A` and `C`
accept a signed address. -/
theorem parse_ip_accepts_sign_and_space :
    parse_ip "+1.2.3.4".toList = some 16909060 ∧
    parse_ip "1.2.3.-0".toList = some 16909056 ∧
    parse_ip " 1. 2.3.4".toList = some 16909060 ∧
    (processRequest State.init "A +1.2.3.4 80".toList).2 = "Rule added".toList ∧
    (processRequest State.init "C +1.2.3.4 80".toList).2 = "Connection rejected".toList := by
  refine ⟨by decide, by decide, by decide, by decide, by decide⟩

/-- C7, evaluated: `parse_port` accepts the digits `4294967296`, whose value is
above 65535, as port 0, because `%d` stores the low 32 bits of the number read;
`A` then adds a rule for port 0. -/
theorem parse_port_accepts_wrapped_value :
    parse_port "4294967296".toList = some 0 ∧
    decVal "4294967296".toList = 4294967296 ∧
    parse_port "4294967376".toList = some 80 ∧
    (processRequest State.init "A 1.2.3.4 4294967296".toList) =
      (⟨[⟨16909060, 16909060, 0, 0, [], 0⟩], 8, ["A 1.2.3.4 4294967296".toList], 8⟩,
        "Rule added".toList) := by
  refine ⟨by decide, by decide, by decide, by decide⟩

/-! ## Claims C9 and C10: invariants of the rule store -/

theorem parse_port_bounds {s : CStr} {p : Int} (h : parse_port s = some p) :
    0 ≤ p ∧ p ≤ 65535 := by
  unfold parse_port at h
  split at h
  · exact Option.noConfusion h
  · split_ifs at h
    split at h
    · exact Option.noConfusion h
    · split_ifs at h with h1 h2
      rw [Option.some.injEq] at h
      subst h
      omega

theorem parse_ip_clause_le {s : CStr} {a b : Nat} (h : parse_ip_clause s = some (a, b)) :
    a ≤ b := by
  unfold parse_ip_clause at h
  split at h
  · split at h
    · exact Option.noConfusion h
    · split at h
      · exact Option.noConfusion h
      · split_ifs at h with hge
        simp only [Option.some.injEq, Prod.mk.injEq] at h
        omega
  · split at h
    · exact Option.noConfusion h
    · simp only [Option.some.injEq, Prod.mk.injEq] at h
      omega

theorem parse_port_clause_bounds {s : CStr} {p q : Int}
    (h : parse_port_clause s = some (p, q)) : 0 ≤ p ∧ p ≤ q ∧ q ≤ 65535 := by
  unfold parse_port_clause at h
  split at h
  · split at h
    · exact Option.noConfusion h
    · rename_i p0 hp0
      split at h
      · exact Option.noConfusion h
      · rename_i q0 hq0
        split_ifs at h with hge
        simp only [Option.some.injEq, Prod.mk.injEq] at h
        have b1 := parse_port_bounds hp0
        have b2 := parse_port_bounds hq0
        omega
  · split at h
    · exact Option.noConfusion h
    · rename_i p0 hp0
      simp only [Option.some.injEq, Prod.mk.injEq] at h
      have b1 := parse_port_bounds hp0
      omega

/-- What `parse_rule` returns on any input: ordered endpoints, ports in range,
no queries. -/
theorem parse_rule_sound {s : CStr} {r : Rule} (h : parse_rule s = some r) :
    r.ip_start ≤ r.ip_end ∧ 0 ≤ r.port_start ∧ r.port_start ≤ r.port_end ∧
      r.port_end ≤ 65535 ∧ r.queries = [] := by
  unfold parse_rule at h
  split at h
  · exact Option.noConfusion h
  · split_ifs at h
    split at h
    · exact Option.noConfusion h
    · split at h
      · exact Option.noConfusion h
      · rename_i a b hab
        split at h
        · exact Option.noConfusion h
        · rename_i p q hpq
          rw [Option.some.injEq] at h
          subst h
          have b1 := parse_ip_clause_le hab
          have b2 := parse_port_clause_bounds hpq
          exact ⟨b1, b2.1, b2.2.1, b2.2.2, rfl⟩

theorem handle_C_loop_preserves (P : Rule → Prop) (ip : Nat) (port : Int)
    (hrec : ∀ r, P r → covers r ip port → P (record_query r ip port)) :
    ∀ (rules rules' : List Rule), (∀ r ∈ rules, P r) →
      handle_C_loop ip port rules = some rules' → ∀ r ∈ rules', P r := by
  intro rules
  induction rules with
  | nil => intro rules' _ h; simp [handle_C_loop] at h
  | cons x xs ih =>
    intro rules' hP h
    by_cases hx : (ip_in_range ip x && port_in_range port x) = true
    · simp only [handle_C_loop, hx, if_true, Option.some.injEq] at h
      subst h
      intro r hr
      rcases List.mem_cons.mp hr with e | e
      · subst e
        exact hrec x (hP x (List.mem_cons_self _ _)) ((in_range_iff x ip port).mp hx)
      · exact hP r (List.mem_cons_of_mem _ e)
    · simp only [handle_C_loop, hx] at h
      cases hl : handle_C_loop ip port xs with
      | none => rw [hl] at h; simp at h
      | some ys =>
        rw [hl] at h
        simp only [Option.map_some', Option.some.injEq, Bool.false_eq_true, if_false] at h
        subst h
        intro r hr
        rcases List.mem_cons.mp hr with e | e
        · subst e; exact hP r (List.mem_cons_self _ _)
        · exact ih ys (fun y hy => hP y (List.mem_cons_of_mem _ hy)) hl r e

theorem handle_D_loop_subset (k : Rule) :
    ∀ (rules rules' : List Rule), handle_D_loop k rules = some rules' →
      ∀ r ∈ rules', r ∈ rules := by
  intro rules
  induction rules with
  | nil => intro rules' h; simp [handle_D_loop] at h
  | cons x xs ih =>
    intro rules' h
    unfold handle_D_loop at h
    split_ifs at h with hx
    · rw [Option.some.injEq] at h
      subst h
      exact fun r hr => List.mem_cons_of_mem _ hr
    · cases hl : handle_D_loop k xs with
      | none => rw [hl] at h; simp at h
      | some ys =>
        rw [hl] at h
        simp only [Option.map_some', Option.some.injEq] at h
        subst h
        intro r hr
        rcases List.mem_cons.mp hr with e | e
        · subst e; exact List.mem_cons_self _ _
        · exact List.mem_cons_of_mem _ (ih ys hl r e)

/-- The rules `handle_C` leaves: the rules it found, or what its loop returned. -/
theorem handle_C_rules (st : State) (request : CStr) :
    (handle_C st request).1.rules = st.rules ∨
      ∃ ip port, handle_C_loop ip port st.rules = some (handle_C st request).1.rules := by
  unfold handle_C
  simp only
  split_ifs
  · exact Or.inl rfl
  · split
    · exact Or.inl rfl
    · split_ifs
      · exact Or.inl rfl
      · split
        · exact Or.inl rfl
        · split
          · rename_i ip port _ _
            split
            · rename_i rules' hl
              exact Or.inr ⟨ip, port, hl⟩
            · exact Or.inl rfl
          · exact Or.inl rfl

/-- A property of rules that holds for what `parse_rule` returns and survives the
recording of a covered query holds for every stored rule after every call. -/
theorem processRequest_preserves (P : Rule → Prop)
    (hnew : ∀ s r, parse_rule s = some r → P r)
    (hrec : ∀ r ip port, P r → covers r ip port → P (record_query r ip port))
    (st : State) (request : CStr) (hst : ∀ r ∈ st.rules, P r) :
    ∀ r ∈ (processRequest st request).1.rules, P r := by
  have hlog : ∀ q, (log_request st q).rules = st.rules := fun _ => rfl
  unfold processRequest
  simp only
  split_ifs
  · exact hst
  · unfold handle_A
    split
    · exact hst
    · rename_i r0 hr0
      intro r hr
      simp only [hlog, List.mem_append, List.mem_singleton] at hr
      rcases hr with e | e
      · exact hst r e
      · subst e; exact hnew _ _ hr0
  · rcases handle_C_rules (log_request st (trim request)) (trim request) with e | ⟨ip, port, e⟩
    · rw [e]; exact hst
    · exact handle_C_loop_preserves P ip port (hrec · ip port) _ _ hst e
  · intro r hr
    simp [handle_F] at hr
  · unfold handle_D
    split
    · exact hst
    · split
      · rename_i rules' hl
        intro r hr
        exact hst r (handle_D_loop_subset _ _ _ hl r hr)
      · exact hst
  · exact hst
  · exact hst

theorem run_preserves (P : Rule → Prop)
    (hnew : ∀ s r, parse_rule s = some r → P r)
    (hrec : ∀ r ip port, P r → covers r ip port → P (record_query r ip port))
    (reqs : List CStr) :
    ∀ st : State, (∀ r ∈ st.rules, P r) → ∀ r ∈ (run st reqs).rules, P r := by
  induction reqs with
  | nil => intro st hst; exact hst
  | cons q qs ih =>
    intro st hst
    exact ih _ (processRequest_preserves P hnew hrec st q hst)

/-- C9: rule invariant.  Starting from the empty state, after every finite
sequence of requests every stored rule has `ip_start ≤ ip_end` and
`0 ≤ port_start ≤ port_end ≤ 65535`. -/
theorem rule_invariant (reqs : List CStr) (r : Rule) (hr : r ∈ (run State.init reqs).rules) :
    r.ip_start ≤ r.ip_end ∧ 0 ≤ r.port_start ∧ r.port_start ≤ r.port_end ∧
      r.port_end ≤ 65535 := by
  refine run_preserves
    (fun r => r.ip_start ≤ r.ip_end ∧ 0 ≤ r.port_start ∧ r.port_start ≤ r.port_end ∧
      r.port_end ≤ 65535) ?_ ?_ reqs State.init ?_ r hr
  · intro s r0 h0
    have h := parse_rule_sound h0
    exact ⟨h.1, h.2.1, h.2.2.1, h.2.2.2.1⟩
  · intro r0 ip port h0 _
    exact h0
  · intro r0 h0
    simp [State.init] at h0

theorem rule_invariant_witness :
    (⟨16909060, 16909065, 80, 90, [⟨16909061, 85⟩], 8⟩ : Rule) ∈
      (run State.init ["A 1.2.3.4-1.2.3.9 80-90".toList, "C 1.2.3.5 85".toList,
        "Z foo".toList, "D 9.9.9.9 1".toList]).rules ∧
    ((16909060 : Nat) ≤ 16909065 ∧ (0 : Int) ≤ 80 ∧ (80 : Int) ≤ 90 ∧ (90 : Int) ≤ 65535) :=
  have hr : (⟨16909060, 16909065, 80, 90, [⟨16909061, 85⟩], 8⟩ : Rule) ∈
      (run State.init ["A 1.2.3.4-1.2.3.9 80-90".toList, "C 1.2.3.5 85".toList,
        "Z foo".toList, "D 9.9.9.9 1".toList]).rules := by decide
  ⟨hr, rule_invariant _ _ hr⟩

/-- C10: query invariant.  Starting from the empty state, after every finite
sequence of requests every query stored under a rule lies within the address
range and the port range of that rule. -/
theorem query_invariant (reqs : List CStr) (r : Rule) (hr : r ∈ (run State.init reqs).rules)
    (q : Query) (hq : q ∈ r.queries) :
    r.ip_start ≤ q.ip ∧ q.ip ≤ r.ip_end ∧ r.port_start ≤ q.port ∧ q.port ≤ r.port_end := by
  refine run_preserves (fun r => ∀ q ∈ r.queries, covers r q.ip q.port)
    ?_ ?_ reqs State.init ?_ r hr q hq
  · intro s r0 h0 q0 hq0
    rw [(parse_rule_sound h0).2.2.2.2] at hq0
    simp at hq0
  · intro r0 ip port h0 hc q0 hq0
    simp only [record_query, List.mem_append, List.mem_singleton] at hq0
    rcases hq0 with e | e
    · exact h0 q0 e
    · subst e; exact hc
  · intro r0 h0
    simp [State.init] at h0

theorem query_invariant_witness :
    (⟨16909060, 16909065, 80, 90, [⟨16909061, 85⟩], 8⟩ : Rule) ∈
      (run State.init ["A 1.2.3.4-1.2.3.9 80-90".toList, "C 1.2.3.5 85".toList,
        "C 1.2.3.5 95".toList, "L".toList]).rules ∧
    (⟨16909061, 85⟩ : Query) ∈ [(⟨16909061, 85⟩ : Query)] ∧
    ((16909060 : Nat) ≤ 16909061 ∧ (16909061 : Nat) ≤ 16909065 ∧ (80 : Int) ≤ 85 ∧
      (85 : Int) ≤ 90) :=
  have hr : (⟨16909060, 16909065, 80, 90, [⟨16909061, 85⟩], 8⟩ : Rule) ∈
      (run State.init ["A 1.2.3.4-1.2.3.9 80-90".toList, "C 1.2.3.5 85".toList,
        "C 1.2.3.5 95".toList, "L".toList]).rules := by decide
  have hq : (⟨16909061, 85⟩ : Query) ∈ [(⟨16909061, 85⟩ : Query)] := by decide
  ⟨hr, hq, query_invariant _ _ hr _ hq⟩

/-! ## Claims C11 and C12: deleting a rule -/

theorem handle_D_loop_none (k : Rule) (rules : List Rule) :
    handle_D_loop k rules = none ↔
      ∀ r ∈ rules, ¬ sameEndpoints r k.ip_start k.ip_end k.port_start k.port_end := by
  induction rules with
  | nil => simp [handle_D_loop]
  | cons r rs ih =>
    by_cases h : sameEndpoints r k.ip_start k.ip_end k.port_start k.port_end
    · have h' := h
      unfold sameEndpoints at h'
      simp [handle_D_loop, h', h]
    · have h' := h
      unfold sameEndpoints at h'
      simp [handle_D_loop, h', h, ih]

theorem handle_D_loop_first (k : Rule) (pre post : List Rule) (r : Rule)
    (hpre : ∀ x ∈ pre, ¬ sameEndpoints x k.ip_start k.ip_end k.port_start k.port_end)
    (hr : sameEndpoints r k.ip_start k.ip_end k.port_start k.port_end) :
    handle_D_loop k (pre ++ r :: post) = some (pre ++ post) := by
  induction pre with
  | nil =>
    unfold sameEndpoints at hr
    simp [handle_D_loop, hr]
  | cons x xs ih =>
    have hx := hpre x (List.mem_cons_self _ _)
    unfold sameEndpoints at hx
    have := ih (fun y hy => hpre y (List.mem_cons_of_mem _ hy))
    simp [handle_D_loop, hx, this]

/-- The earliest rule with given endpoints: a split of the rules around it. -/
theorem exists_first_same (a b : Nat) (p q : Int) (rules : List Rule)
    (h : ∃ r ∈ rules, sameEndpoints r a b p q) :
    ∃ pre r post, rules = pre ++ r :: post ∧ (∀ x ∈ pre, ¬ sameEndpoints x a b p q) ∧
      sameEndpoints r a b p q := by
  induction rules with
  | nil => obtain ⟨r, hr, _⟩ := h; simp at hr
  | cons x xs ih =>
    by_cases hx : sameEndpoints x a b p q
    · exact ⟨[], x, xs, rfl, by simp, hx⟩
    · obtain ⟨r, hr, hc⟩ := h
      have hr' : r ∈ xs := by
        rcases List.mem_cons.mp hr with e | e
        · subst e; exact absurd hc hx
        · exact e
      obtain ⟨pre, r0, post, e, hpre, hc0⟩ := ih ⟨r, hr', hc⟩
      refine ⟨x :: pre, r0, post, by simp [e], ?_, hc0⟩
      intro y hy
      rcases List.mem_cons.mp hy with e' | e'
      · subst e'; exact hx
      · exact hpre y e'

/-- Function `handle_D` on a rule specification of the grammar: only the loop is left. -/
theorem handle_D_valid (st : State) (s : CStr) (a b : Nat) (p q : Int)
    (h : RuleSpecText s a b p q) :
    handle_D st ('D' :: ' ' :: s) =
      match handle_D_loop ⟨a, b, p, q, [], 0⟩ st.rules with
      | some rules' => ({ st with rules := rules' }, "Rule deleted".toList)
      | none => (st, "Rule not found".toList) := by
  simp only [handle_D, List.drop_succ_cons, List.drop_zero, parse_rule_of_spec h]

theorem processRequest_D_spec (st : State) (s : CStr) (a b : Nat) (p q : Int)
    (h : RuleSpecText s a b p q) :
    processRequest st ('D' :: ' ' :: s) =
      match handle_D_loop ⟨a, b, p, q, [], 0⟩ st.rules with
      | some rules' =>
        ({ log_request st ('D' :: ' ' :: s) with rules := rules' }, "Rule deleted".toList)
      | none => (log_request st ('D' :: ' ' :: s), "Rule not found".toList) := by
  have h' := h
  obtain ⟨i, t, hi, ht, rfl⟩ := h'
  rw [processRequest_D st _ (trim_cmd 'D' i t ht.portRangeWord.1 ht.portRangeWord.2.1),
    handle_D_valid _ _ a b p q h]
  have hrules : (log_request st ('D' :: ' ' :: (i ++ ' ' :: t))).rules = st.rules := rfl
  rw [hrules]

/-- C11: for every state and every rule specification of the grammar whose four
endpoints are those of some stored rule, `D x` answers `Rule deleted` and the
store afterwards is the store before with the first such rule removed: the
rules before it and after it are unchanged and in the same order. -/
theorem delete_rule_removes_first (st : State) (s : CStr) (a b : Nat) (p q : Int)
    (h : RuleSpecText s a b p q) (hex : ∃ r ∈ st.rules, sameEndpoints r a b p q) :
    ∃ (pre : List Rule) (r : Rule) (post : List Rule),
      st.rules = pre ++ r :: post ∧ (∀ x ∈ pre, ¬ sameEndpoints x a b p q) ∧
      sameEndpoints r a b p q ∧
      (processRequest st ('D' :: ' ' :: s)).2 = "Rule deleted".toList ∧
      (processRequest st ('D' :: ' ' :: s)).1.rules = pre ++ post := by
  obtain ⟨pre, r, post, hsplit, hpre, hr⟩ := exists_first_same a b p q st.rules hex
  have hl : handle_D_loop ⟨a, b, p, q, [], 0⟩ st.rules = some (pre ++ post) := by
    rw [hsplit]
    exact handle_D_loop_first ⟨a, b, p, q, [], 0⟩ pre post r hpre hr
  refine ⟨pre, r, post, hsplit, hpre, hr, ?_, ?_⟩
  · rw [processRequest_D_spec st s a b p q h, hl]
  · rw [processRequest_D_spec st s a b p q h, hl]

theorem delete_rule_removes_first_witness :
    RuleSpecText "1.2.3.4 5".toList 16909060 16909060 5 5 ∧
    (∃ r ∈ [(⟨0, 9, 5, 5, [], 0⟩ : Rule), ⟨16909060, 16909060, 5, 5, [⟨16909060, 5⟩], 8⟩,
        ⟨16909060, 16909060, 5, 5, [], 0⟩], sameEndpoints r 16909060 16909060 5 5) ∧
    ∃ (pre : List Rule) (r : Rule) (post : List Rule),
      [(⟨0, 9, 5, 5, [], 0⟩ : Rule), ⟨16909060, 16909060, 5, 5, [⟨16909060, 5⟩], 8⟩,
        ⟨16909060, 16909060, 5, 5, [], 0⟩] = pre ++ r :: post ∧
      (∀ x ∈ pre, ¬ sameEndpoints x 16909060 16909060 5 5) ∧
      sameEndpoints r 16909060 16909060 5 5 ∧
      (processRequest ⟨[⟨0, 9, 5, 5, [], 0⟩, ⟨16909060, 16909060, 5, 5, [⟨16909060, 5⟩], 8⟩,
        ⟨16909060, 16909060, 5, 5, [], 0⟩], 8, [], 0⟩ "D 1.2.3.4 5".toList).2 =
          "Rule deleted".toList ∧
      (processRequest ⟨[⟨0, 9, 5, 5, [], 0⟩, ⟨16909060, 16909060, 5, 5, [⟨16909060, 5⟩], 8⟩,
        ⟨16909060, 16909060, 5, 5, [], 0⟩], 8, [], 0⟩ "D 1.2.3.4 5".toList).1.rules =
          pre ++ post :=
  have hx : IPText "1.2.3.4".toList 16909060 :=
    ⟨['1'], ['2'], ['3'], ['4'], by decide, by decide, by decide, by decide, by decide, by decide⟩
  have hspec : RuleSpecText "1.2.3.4 5".toList 16909060 16909060 5 5 :=
    ⟨"1.2.3.4".toList, "5".toList, Or.inl ⟨hx, rfl⟩, Or.inl ⟨⟨by decide, by decide⟩, rfl⟩,
      by decide⟩
  have hex : ∃ r ∈ [(⟨0, 9, 5, 5, [], 0⟩ : Rule), ⟨16909060, 16909060, 5, 5, [⟨16909060, 5⟩], 8⟩,
      ⟨16909060, 16909060, 5, 5, [], 0⟩], sameEndpoints r 16909060 16909060 5 5 :=
    ⟨⟨16909060, 16909060, 5, 5, [], 0⟩, by simp, by decide⟩
  ⟨hspec, hex, delete_rule_removes_first
    ⟨[⟨0, 9, 5, 5, [], 0⟩, ⟨16909060, 16909060, 5, 5, [⟨16909060, 5⟩], 8⟩,
      ⟨16909060, 16909060, 5, 5, [], 0⟩], 8, [], 0⟩ _ _ _ _ _ hspec hex⟩

/-- C12: for every state and every rule specification of the grammar whose four
endpoints are those of no stored rule, `D x` answers `Rule not found` and leaves
the rule store as it was. -/
theorem delete_rule_not_found (st : State) (s : CStr) (a b : Nat) (p q : Int)
    (h : RuleSpecText s a b p q) (hno : ∀ r ∈ st.rules, ¬ sameEndpoints r a b p q) :
    (processRequest st ('D' :: ' ' :: s)).2 = "Rule not found".toList ∧
    (processRequest st ('D' :: ' ' :: s)).1.rules = st.rules ∧
    (processRequest st ('D' :: ' ' :: s)).1.rule_cap = st.rule_cap := by
  have hl : handle_D_loop ⟨a, b, p, q, [], 0⟩ st.rules = none :=
    (handle_D_loop_none ⟨a, b, p, q, [], 0⟩ st.rules).mpr hno
  rw [processRequest_D_spec st s a b p q h, hl]
  exact ⟨rfl, rfl, rfl⟩

theorem delete_rule_not_found_witness :
    RuleSpecText "1.2.3.4 5".toList 16909060 16909060 5 5 ∧
    (∀ r ∈ [(⟨0, 9, 5, 5, [⟨3, 5⟩], 8⟩ : Rule), ⟨16909060, 16909060, 5, 6, [], 0⟩],
      ¬ sameEndpoints r 16909060 16909060 5 5) ∧
    (processRequest ⟨[⟨0, 9, 5, 5, [⟨3, 5⟩], 8⟩, ⟨16909060, 16909060, 5, 6, [], 0⟩], 8, [], 0⟩
      "D 1.2.3.4 5".toList).2 = "Rule not found".toList ∧
    (processRequest ⟨[⟨0, 9, 5, 5, [⟨3, 5⟩], 8⟩, ⟨16909060, 16909060, 5, 6, [], 0⟩], 8, [], 0⟩
      "D 1.2.3.4 5".toList).1.rules =
        [⟨0, 9, 5, 5, [⟨3, 5⟩], 8⟩, ⟨16909060, 16909060, 5, 6, [], 0⟩] ∧
    (processRequest ⟨[⟨0, 9, 5, 5, [⟨3, 5⟩], 8⟩, ⟨16909060, 16909060, 5, 6, [], 0⟩], 8, [], 0⟩
      "D 1.2.3.4 5".toList).1.rule_cap = 8 :=
  have hx : IPText "1.2.3.4".toList 16909060 :=
    ⟨['1'], ['2'], ['3'], ['4'], by decide, by decide, by decide, by decide, by decide, by decide⟩
  have hspec : RuleSpecText "1.2.3.4 5".toList 16909060 16909060 5 5 :=
    ⟨"1.2.3.4".toList, "5".toList, Or.inl ⟨hx, rfl⟩, Or.inl ⟨⟨by decide, by decide⟩, rfl⟩,
      by decide⟩
  have hno : ∀ r ∈ [(⟨0, 9, 5, 5, [⟨3, 5⟩], 8⟩ : Rule), ⟨16909060, 16909060, 5, 6, [], 0⟩],
      ¬ sameEndpoints r 16909060 16909060 5 5 := by decide
  ⟨hspec, hno, delete_rule_not_found
    ⟨[⟨0, 9, 5, 5, [⟨3, 5⟩], 8⟩, ⟨16909060, 16909060, 5, 6, [], 0⟩], 8, [], 0⟩ _ _ _ _ _
    hspec hno⟩

/-! ## The trimming loop -/

theorem head?_dropWhile_isspace (l : CStr) (c : Char)
    (h : (l.dropWhile isspace).head? = some c) : isspace c = false := by
  induction l with
  | nil => simp at h
  | cons x xs ih =>
    by_cases hx : isspace x = true
    · rw [List.dropWhile_cons_of_pos hx] at h
      exact ih h
    · rw [List.dropWhile_cons_of_neg hx] at h
      simp only [List.head?_cons, Option.some.injEq] at h
      subst h
      simpa using hx

/-- The trimmed request is a prefix of the request, and what is cut off is white space. -/
theorem trim_append_spaces (r : CStr) :
    r = trim r ++ (r.reverse.takeWhile isspace).reverse ∧
      ∀ c ∈ (r.reverse.takeWhile isspace).reverse, isspace c = true := by
  constructor
  · have h := List.takeWhile_append_dropWhile isspace r.reverse
    have h2 := congrArg List.reverse h
    rw [List.reverse_append, List.reverse_reverse] at h2
    exact h2.symm
  · intro c hc
    rw [List.mem_reverse] at hc
    exact (List.mem_takeWhile_imp hc)

/-- The trimmed request does not end in white space. -/
theorem trim_getLast (r : CStr) (c : Char) (h : (trim r).getLast? = some c) :
    isspace c = false := by
  unfold trim at h
  rw [List.getLast?_reverse] at h
  exact head?_dropWhile_isspace _ c h

/-- A request that does not end in white space is not changed by the loop. -/
theorem trim_eq_self (s : CStr) (h : ∀ c, s.getLast? = some c → isspace c = false) :
    trim s = s := by
  unfold trim
  have hh : ∀ c, s.reverse.head? = some c → isspace c = false := by
    intro c hc
    rw [List.head?_reverse] at hc
    exact h c hc
  cases hr : s.reverse with
  | nil =>
    have : s = [] := by simpa using hr
    subst this; rfl
  | cons x xs =>
    have hx : isspace x = false := hh x (by rw [hr]; rfl)
    rw [List.dropWhile_cons_of_neg (by simp [hx]), ← hr, List.reverse_reverse]

theorem trim_idem (r : CStr) : trim (trim r) = trim r :=
  trim_eq_self (trim r) (trim_getLast r)

theorem length_dropWhile_append_ge (p : Char → Bool) (a b : CStr) :
    (b.dropWhile p).length ≤ ((a ++ b).dropWhile p).length := by
  induction a with
  | nil => simp
  | cons x xs ih =>
    by_cases hx : p x = true
    · rw [List.cons_append, List.dropWhile_cons_of_pos hx]; exact ih
    · rw [List.cons_append, List.dropWhile_cons_of_neg hx]
      have h1 := (@List.dropWhile_sublist _ b p).length_le
      simp only [List.length_cons, List.length_append]
      omega

/-- No prefix of the request that does not end in white space is longer than the
trimmed request. -/
theorem trim_longest (r p w : CStr) (hr : r = p ++ w)
    (hp : ∀ c, p.getLast? = some c → isspace c = false) :
    p.length ≤ (trim r).length := by
  have h1 : trim p = p := trim_eq_self p hp
  have h2 : (trim p).length ≤ (trim r).length := by
    unfold trim
    rw [List.length_reverse, List.length_reverse, hr, List.reverse_append]
    exact length_dropWhile_append_ge isspace w.reverse p.reverse
  rw [h1] at h2
  exact h2

theorem getLast?_cmd (k : Char) (s : CStr) (hne : s ≠ []) :
    (k :: ' ' :: s).getLast? = s.getLast? := by
  obtain ⟨c, u, rfl⟩ := List.exists_cons_of_ne_nil hne
  rw [List.getLast?_cons_cons, List.getLast?_cons_cons]

theorem trim_cmd_last (k : Char) (s : CStr) (hne : s ≠ [])
    (hlast : ∀ c, s.getLast? = some c → isspace c = false) :
    trim (k :: ' ' :: s) = k :: ' ' :: s := by
  apply trim_eq_self
  rw [getLast?_cmd k s hne]
  exact hlast

/-! ## Claims C13, C16 and C18: failed parses, unknown commands, trimming -/

/-- C13, counterexample: `parse_rule` fails on the text `1.2.3.4 80` followed by a
newline, yet `A` with that text answers `Rule added` and stores a rule, because
the newline is trimmed before the handler runs; and `parse_rule` fails on the
empty text, yet `A` with it is answered `Illegal request`. -/
theorem invalid_rule_claim_fails_on_trimmed_text :
    parse_rule "1.2.3.4 80\n".toList = none ∧
    (processRequest State.init ('A' :: ' ' :: "1.2.3.4 80\n".toList)).2 = "Rule added".toList ∧
    (processRequest State.init ('A' :: ' ' :: "1.2.3.4 80\n".toList)).1.rules =
      [⟨16909060, 16909060, 80, 80, [], 0⟩] ∧
    parse_rule [] = none ∧
    (processRequest State.init ('A' :: ' ' :: [])).2 = "Illegal request".toList := by
  refine ⟨by decide, by decide, by decide, by decide, by decide⟩

/-- C13, amended: for every state and every text `s` that is not empty, does not
end in white space and on which `parse_rule` fails, `A s` and `D s` answer
`Invalid rule` and leave the rule store, with every rule, its endpoints, its
queries and the order, unchanged. -/
theorem invalid_rule_leaves_store (st : State) (s : CStr) (hne : s ≠ [])
    (hlast : ∀ c, s.getLast? = some c → isspace c = false) (hfail : parse_rule s = none) :
    (processRequest st ('A' :: ' ' :: s)).2 = "Invalid rule".toList ∧
    (processRequest st ('A' :: ' ' :: s)).1.rules = st.rules ∧
    (processRequest st ('D' :: ' ' :: s)).2 = "Invalid rule".toList ∧
    (processRequest st ('D' :: ' ' :: s)).1.rules = st.rules := by
  have eA : ∀ x : State, handle_A x ('A' :: ' ' :: s) = (x, "Invalid rule".toList) := by
    intro x
    simp only [handle_A, List.drop_succ_cons, List.drop_zero, hfail]
  have eD : ∀ x : State, handle_D x ('D' :: ' ' :: s) = (x, "Invalid rule".toList) := by
    intro x
    simp only [handle_D, List.drop_succ_cons, List.drop_zero, hfail]
  rw [processRequest_A st _ (trim_cmd_last 'A' s hne hlast),
    processRequest_D st _ (trim_cmd_last 'D' s hne hlast), eA, eD]
  exact ⟨rfl, rfl, rfl, rfl⟩

theorem invalid_rule_leaves_store_witness :
    "1.2.3.4-1.2.3.4 80".toList ≠ [] ∧
    ("1.2.3.4-1.2.3.4 80".toList.getLast? = some '0' ∧ isspace '0' = false) ∧
    parse_rule "1.2.3.4-1.2.3.4 80".toList = none ∧
    (processRequest ⟨[⟨0, 9, 5, 5, [⟨3, 5⟩], 8⟩], 8, [], 0⟩
      "A 1.2.3.4-1.2.3.4 80".toList).2 = "Invalid rule".toList ∧
    (processRequest ⟨[⟨0, 9, 5, 5, [⟨3, 5⟩], 8⟩], 8, [], 0⟩
      "A 1.2.3.4-1.2.3.4 80".toList).1.rules = [⟨0, 9, 5, 5, [⟨3, 5⟩], 8⟩] ∧
    (processRequest ⟨[⟨0, 9, 5, 5, [⟨3, 5⟩], 8⟩], 8, [], 0⟩
      "D 1.2.3.4-1.2.3.4 80".toList).2 = "Invalid rule".toList ∧
    (processRequest ⟨[⟨0, 9, 5, 5, [⟨3, 5⟩], 8⟩], 8, [], 0⟩
      "D 1.2.3.4-1.2.3.4 80".toList).1.rules = [⟨0, 9, 5, 5, [⟨3, 5⟩], 8⟩] :=
  have hlast : ∀ c, "1.2.3.4-1.2.3.4 80".toList.getLast? = some c → isspace c = false := by
    intro c hc
    have e : "1.2.3.4-1.2.3.4 80".toList.getLast? = some '0' := by decide
    rw [e, Option.some.injEq] at hc
    subst hc; decide
  ⟨by decide, ⟨by decide, by decide⟩, by decide,
    invalid_rule_leaves_store ⟨[⟨0, 9, 5, 5, [⟨3, 5⟩], 8⟩], 8, [], 0⟩ _ (by decide) hlast
      (by decide)⟩

theorem cons_cons_of_take_two (l : CStr) (a b : Char) (h : l.take 2 = [a, b]) :
    ∃ rest, l = a :: b :: rest := by
  match l, h with
  | x :: y :: rest, h =>
    simp only [List.take_succ_cons, List.take_zero, List.cons.injEq, and_true] at h
    exact ⟨rest, by rw [h.1, h.2]⟩

/-- C16: for every request whose trimmed form is not exactly `R`, `F` or `L` and
does not begin with `A `, `C ` or `D `, `processRequest` answers
`Illegal request`, appends the trimmed request to the log and leaves the rule
store unchanged. -/
theorem unknown_command_illegal_request (st : State) (r : CStr)
    (hR : trim r ≠ ['R']) (hF : trim r ≠ ['F']) (hL : trim r ≠ ['L'])
    (hA : ∀ rest, trim r ≠ 'A' :: ' ' :: rest) (hC : ∀ rest, trim r ≠ 'C' :: ' ' :: rest)
    (hD : ∀ rest, trim r ≠ 'D' :: ' ' :: rest) :
    (processRequest st r).2 = "Illegal request".toList ∧
    (processRequest st r).1.requests = st.requests ++ [trim r] ∧
    (processRequest st r).1.rules = st.rules := by
  have tA : (trim r).take 2 ≠ ['A', ' '] := fun e =>
    (cons_cons_of_take_two _ _ _ e).elim (fun rest h => hA rest h)
  have tC : (trim r).take 2 ≠ ['C', ' '] := fun e =>
    (cons_cons_of_take_two _ _ _ e).elim (fun rest h => hC rest h)
  have tD : (trim r).take 2 ≠ ['D', ' '] := fun e =>
    (cons_cons_of_take_two _ _ _ e).elim (fun rest h => hD rest h)
  have e : processRequest st r = (log_request st (trim r), "Illegal request".toList) := by
    simp only [processRequest, hR, hF, hL, tA, tC, tD, if_false]
  rw [e]
  exact ⟨rfl, rfl, rfl⟩

theorem unknown_command_illegal_request_witness :
    (trim "Z foo".toList ≠ ['R'] ∧ trim "Z foo".toList ≠ ['F'] ∧ trim "Z foo".toList ≠ ['L'] ∧
      (∀ rest, trim "Z foo".toList ≠ 'A' :: ' ' :: rest) ∧
      (∀ rest, trim "Z foo".toList ≠ 'C' :: ' ' :: rest) ∧
      (∀ rest, trim "Z foo".toList ≠ 'D' :: ' ' :: rest)) ∧
    (processRequest ⟨[⟨0, 9, 5, 5, [⟨3, 5⟩], 8⟩], 8, ["L".toList], 8⟩ "Z foo".toList).2 =
      "Illegal request".toList ∧
    (processRequest ⟨[⟨0, 9, 5, 5, [⟨3, 5⟩], 8⟩], 8, ["L".toList], 8⟩ "Z foo".toList).1.requests =
      ["L".toList] ++ [trim "Z foo".toList] ∧
    (processRequest ⟨[⟨0, 9, 5, 5, [⟨3, 5⟩], 8⟩], 8, ["L".toList], 8⟩ "Z foo".toList).1.rules =
      [⟨0, 9, 5, 5, [⟨3, 5⟩], 8⟩] :=
  have e : trim "Z foo".toList = ['Z', ' ', 'f', 'o', 'o'] := by decide
  have hA : ∀ rest, trim "Z foo".toList ≠ 'A' :: ' ' :: rest := by
    intro rest h; rw [e] at h; exact absurd (List.cons.inj h).1 (by decide)
  have hC : ∀ rest, trim "Z foo".toList ≠ 'C' :: ' ' :: rest := by
    intro rest h; rw [e] at h; exact absurd (List.cons.inj h).1 (by decide)
  have hD : ∀ rest, trim "Z foo".toList ≠ 'D' :: ' ' :: rest := by
    intro rest h; rw [e] at h; exact absurd (List.cons.inj h).1 (by decide)
  ⟨⟨by decide, by decide, by decide, hA, hC, hD⟩,
    unknown_command_illegal_request ⟨[⟨0, 9, 5, 5, [⟨3, 5⟩], 8⟩], 8, ["L".toList], 8⟩ _
      (by decide) (by decide) (by decide) hA hC hD⟩

theorem handle_C_requests (st : State) (request : CStr) :
    (handle_C st request).1.requests = st.requests ∧
      (handle_C st request).1.req_cap = st.req_cap := by
  unfold handle_C
  simp only
  split_ifs
  · exact ⟨rfl, rfl⟩
  · split
    · exact ⟨rfl, rfl⟩
    · split_ifs
      · exact ⟨rfl, rfl⟩
      · split
        · exact ⟨rfl, rfl⟩
        · split
          · split
            · exact ⟨rfl, rfl⟩
            · exact ⟨rfl, rfl⟩
          · exact ⟨rfl, rfl⟩

/-- The log after a call: emptied by `F`, one entry longer otherwise. -/
theorem processRequest_requests (st : State) (r : CStr) :
    (processRequest st r).1.requests =
      if trim r = ['F'] then [] else st.requests ++ [trim r] := by
  unfold processRequest
  simp only
  by_cases hR : trim r = ['R']
  · rw [if_pos hR, if_neg (by rw [hR]; decide)]; rfl
  · rw [if_neg hR]
    by_cases hA : (trim r).take 2 = ['A', ' ']
    · obtain ⟨rest, e⟩ := cons_cons_of_take_two _ _ _ hA
      rw [if_pos hA, if_neg (by rw [e]; simp)]
      unfold handle_A
      split <;> rfl
    · rw [if_neg hA]
      by_cases hC : (trim r).take 2 = ['C', ' ']
      · obtain ⟨rest, e⟩ := cons_cons_of_take_two _ _ _ hC
        rw [if_pos hC, if_neg (by rw [e]; simp), (handle_C_requests _ _).1]
        rfl
      · rw [if_neg hC]
        by_cases hF : trim r = ['F']
        · rw [if_pos hF, if_pos hF]; rfl
        · rw [if_neg hF, if_neg hF]
          by_cases hD : (trim r).take 2 = ['D', ' ']
          · rw [if_pos hD]
            unfold handle_D
            split
            · rfl
            · split <;> rfl
          · rw [if_neg hD]
            split_ifs <;> rfl

/-- C18: for every request `r`, the string `processRequest` logs and dispatches
on is the longest prefix of `r` that does not end in white space: it is a
prefix of `r` with only white space cut off, it does not end in white space, no
prefix of `r` that does not end in white space is longer, the call on `r` is
the call on that prefix, and that prefix is the entry added to the log (which
`F` then empties). -/
theorem trim_is_longest_prefix (st : State) (r : CStr) :
    (∃ w, r = trim r ++ w ∧ ∀ c ∈ w, isspace c = true) ∧
    (∀ c, (trim r).getLast? = some c → isspace c = false) ∧
    (∀ p w, r = p ++ w → (∀ c, p.getLast? = some c → isspace c = false) →
      p.length ≤ (trim r).length) ∧
    processRequest st r = processRequest st (trim r) ∧
    (log_request st (trim r)).requests = st.requests ++ [trim r] ∧
    (processRequest st r).1.requests =
      (if trim r = ['F'] then [] else st.requests ++ [trim r]) := by
  refine ⟨⟨_, trim_append_spaces r⟩, trim_getLast r, fun p w h hp => trim_longest r p w h hp,
    ?_, rfl, processRequest_requests st r⟩
  simp only [processRequest, trim_idem]

theorem trim_is_longest_prefix_witness :
    (∃ w, "A 1.2.3.4 80 \n".toList = trim "A 1.2.3.4 80 \n".toList ++ w ∧
      ∀ c ∈ w, isspace c = true) ∧
    ((trim "A 1.2.3.4 80 \n".toList).getLast? = some '0' ∧ isspace '0' = false) ∧
    ("A 1.2.3.4 80 \n".toList = "A 1.2.3.4".toList ++ " 80 \n".toList ∧
      ("A 1.2.3.4".toList.getLast? = some '4' ∧ isspace '4' = false) ∧
      "A 1.2.3.4".toList.length ≤ (trim "A 1.2.3.4 80 \n".toList).length) ∧
    processRequest State.init "A 1.2.3.4 80 \n".toList =
      processRequest State.init (trim "A 1.2.3.4 80 \n".toList) ∧
    (log_request State.init (trim "A 1.2.3.4 80 \n".toList)).requests =
      [] ++ [trim "A 1.2.3.4 80 \n".toList] ∧
    (processRequest State.init "A 1.2.3.4 80 \n".toList).1.requests =
      (if trim "A 1.2.3.4 80 \n".toList = ['F'] then []
       else [] ++ [trim "A 1.2.3.4 80 \n".toList]) :=
  have h := trim_is_longest_prefix State.init "A 1.2.3.4 80 \n".toList
  have hp : ∀ c, "A 1.2.3.4".toList.getLast? = some c → isspace c = false := by
    intro c hc
    have e : "A 1.2.3.4".toList.getLast? = some '4' := by decide
    rw [e, Option.some.injEq] at hc
    subst hc; decide
  ⟨h.1, ⟨by decide, h.2.1 '0' (by decide)⟩,
    ⟨by decide, ⟨by decide, by decide⟩, h.2.2.1 "A 1.2.3.4".toList " 80 \n".toList (by decide) hp⟩,
    h.2.2.2.1, h.2.2.2.2.1, h.2.2.2.2.2⟩

/-! ## Claim C15: the surface checks -/

theorem not_mem_of_strrchr_none (s : CStr) (c : Char) (h : strrchr s c = none) : c ∉ s := by
  induction s with
  | nil => simp
  | cons x xs ih =>
    unfold strrchr at h
    cases hx : strrchr xs c with
    | some j => rw [hx] at h; simp at h
    | none =>
      rw [hx] at h
      by_cases e : x = c
      · simp [e] at h
      · intro hm
        rcases List.mem_cons.mp hm with e' | e'
        · exact e e'.symm
        · exact ih hx e'

/-- When `strchr` and `strrchr` find the same place, the character occurs once. -/
theorem count_eq_one_of_strchr_eq_strrchr (s : CStr) (c : Char) :
    ∀ i, strchr s c = some i → strrchr s c = some i → s.count c = 1 := by
  induction s with
  | nil => intro i h; simp [strchr] at h
  | cons x xs ih =>
    intro i h1 h2
    unfold strchr at h1
    unfold strrchr at h2
    by_cases e : x = c
    · subst e
      simp only [if_true, Option.some.injEq] at h1
      subst h1
      cases hx : strrchr xs x with
      | some j => rw [hx] at h2; simp at h2
      | none =>
        have hn := not_mem_of_strrchr_none xs x hx
        simp [List.count_cons, List.count_eq_zero_of_not_mem hn]
    · rw [if_neg e] at h1
      cases h1x : strchr xs c with
      | none => rw [h1x] at h1; simp at h1
      | some i1 =>
        rw [h1x] at h1
        simp only [Option.map_some', Option.some.injEq] at h1
        cases h2x : strrchr xs c with
        | none => rw [h2x] at h2; simp [e] at h2
        | some j =>
          rw [h2x] at h2
          simp only [Option.some.injEq] at h2
          have hj : j = i1 := by omega
          subst hj
          have := ih j h1x h2x
          simp [List.count_cons, this, e]

theorem strpbrk_eq_true (s accept : CStr) (c : Char) (hc : c ∈ s) (ha : c ∈ accept) :
    strpbrk s accept = true := by
  simp only [strpbrk, List.any_eq_true, List.contains_eq_any_beq, beq_iff_eq]
  exact ⟨c, hc, c, ha, rfl⟩

theorem strpbrk_of_control (s : CStr) (h : ∃ c ∈ s, c = '\t' ∨ c = '\r' ∨ c = '\n') :
    strpbrk s ['\t', '\r', '\n'] = true := by
  obtain ⟨c, hc, e⟩ := h
  apply strpbrk_eq_true s _ c hc
  rcases e with e | e | e <;> simp [e]

/-- Function `parse_rule` fails on a text with a tab, carriage return or
newline, and on a text that does not hold exactly one space. -/
theorem parse_rule_none_of_surface (s : CStr)
    (hbad : (∃ c ∈ s, c = '\t' ∨ c = '\r' ∨ c = '\n') ∨ s.count ' ' ≠ 1) :
    parse_rule s = none := by
  unfold parse_rule
  cases h1 : strchr s ' ' with
  | none => rfl
  | some sp =>
    simp only
    by_cases h2 : some sp = strrchr s ' '
    · rw [if_neg (not_not.mpr h2)]
      have hcount := count_eq_one_of_strchr_eq_strrchr s ' ' sp h1 h2.symm
      rcases hbad with hb | hb
      · rw [if_pos (strpbrk_of_control s hb)]
      · exact absurd hcount hb
    · rw [if_pos h2]

/-- Function `handle_C` answers `Illegal IP address or port specified` on such a text. -/
theorem handle_C_illegal_of_surface (st : State) (s : CStr)
    (hbad : (∃ c ∈ s, c = '\t' ∨ c = '\r' ∨ c = '\n') ∨ s.count ' ' ≠ 1) :
    handle_C st ('C' :: ' ' :: s) = (st, "Illegal IP address or port specified".toList) := by
  unfold handle_C
  simp only [List.drop_succ_cons, List.drop_zero]
  by_cases h0 : strpbrk s ['\t', '\r', '\n'] = true
  · rw [if_pos h0]
  · rw [if_neg h0]
    cases h1 : strchr s ' ' with
    | none => rfl
    | some sp =>
      simp only
      by_cases h2 : some sp = strrchr s ' '
      · have hcount := count_eq_one_of_strchr_eq_strrchr s ' ' sp h1 h2.symm
        rcases hbad with hb | hb
        · exact absurd (strpbrk_of_control s hb) h0
        · exact absurd hcount hb
      · rw [if_pos h2]

/-- C15, counterexample: the text `1.2.3.4 80` followed by carriage return and
line feed holds a carriage return and a line feed, and the text `1.2.3.4 80`
followed by a space holds two spaces, yet `A` with either answers `Rule added`
and `C` with the first answers `Connection rejected`: trailing white space is
trimmed before the handlers run. -/
theorem surface_claim_fails_on_trailing_white_space :
    (∃ c ∈ "1.2.3.4 80\r\n".toList, c = '\t' ∨ c = '\r' ∨ c = '\n') ∧
    (processRequest State.init ('A' :: ' ' :: "1.2.3.4 80\r\n".toList)).2 =
      "Rule added".toList ∧
    (processRequest State.init ('C' :: ' ' :: "1.2.3.4 80\r\n".toList)).2 =
      "Connection rejected".toList ∧
    "1.2.3.4 80 ".toList.count ' ' ≠ 1 ∧
    (processRequest State.init ('A' :: ' ' :: "1.2.3.4 80 ".toList)).2 = "Rule added".toList := by
  refine ⟨⟨'\n', by decide, by decide⟩, by decide, by decide, by decide, by decide⟩

/-- C15, amended: for every text `s` that is not empty and does not end in white
space, if `s` holds a tab, carriage return or line feed, or does not hold
exactly one space, then `A s` and `D s` are answered `Invalid rule` and `C s` is
answered `Illegal IP address or port specified`. -/
theorem surface_checks_reject (st : State) (s : CStr) (hne : s ≠ [])
    (hlast : ∀ c, s.getLast? = some c → isspace c = false)
    (hbad : (∃ c ∈ s, c = '\t' ∨ c = '\r' ∨ c = '\n') ∨ s.count ' ' ≠ 1) :
    (processRequest st ('A' :: ' ' :: s)).2 = "Invalid rule".toList ∧
    (processRequest st ('D' :: ' ' :: s)).2 = "Invalid rule".toList ∧
    (processRequest st ('C' :: ' ' :: s)).2 =
      "Illegal IP address or port specified".toList := by
  have hfail := parse_rule_none_of_surface s hbad
  have eA : ∀ x : State, handle_A x ('A' :: ' ' :: s) = (x, "Invalid rule".toList) := by
    intro x
    simp only [handle_A, List.drop_succ_cons, List.drop_zero, hfail]
  have eD : ∀ x : State, handle_D x ('D' :: ' ' :: s) = (x, "Invalid rule".toList) := by
    intro x
    simp only [handle_D, List.drop_succ_cons, List.drop_zero, hfail]
  rw [processRequest_A st _ (trim_cmd_last 'A' s hne hlast),
    processRequest_D st _ (trim_cmd_last 'D' s hne hlast),
    processRequest_C st _ (trim_cmd_last 'C' s hne hlast), eA, eD,
    handle_C_illegal_of_surface _ s hbad]
  exact ⟨rfl, rfl, rfl⟩

theorem surface_checks_reject_witness :
    "10.0.0.1  80".toList ≠ [] ∧
    ("10.0.0.1  80".toList.getLast? = some '0' ∧ isspace '0' = false) ∧
    "10.0.0.1  80".toList.count ' ' ≠ 1 ∧
    (processRequest State.init "A 10.0.0.1  80".toList).2 = "Invalid rule".toList ∧
    (processRequest State.init "D 10.0.0.1  80".toList).2 = "Invalid rule".toList ∧
    (processRequest State.init "C 10.0.0.1  80".toList).2 =
      "Illegal IP address or port specified".toList :=
  have hlast : ∀ c, "10.0.0.1  80".toList.getLast? = some c → isspace c = false := by
    intro c hc
    have e : "10.0.0.1  80".toList.getLast? = some '0' := by decide
    rw [e, Option.some.injEq] at hc
    subst hc; decide
  ⟨by decide, ⟨by decide, by decide⟩, by decide,
    surface_checks_reject State.init _ (by decide) hlast (Or.inr (by decide))⟩

/-! ## Claim C14: when `C` answers `Illegal IP address or port specified` -/

theorem spec_decimal_natCast (n : Nat) : spec_decimal (n : Int) = Nat.toDigits 10 n := by
  rfl

theorem fmt_d_eq_spec_decimal (i : Int) : fmt_d i = spec_decimal i := by
  cases i with
  | ofNat n =>
    have h : ¬ ((Int.ofNat n) < 0) := by simp
    simp only [fmt_d, h, if_false]
    rfl
  | negSucc n =>
    have h : Int.negSucc n < 0 := Int.negSucc_lt_zero n
    simp only [fmt_d, h, if_true]
    rfl

theorem octet_shift_mask (v k : Nat) : (v >>> k) &&& 255 = v / 2 ^ k % 256 := by
  rw [Nat.shiftRight_eq_div_pow]
  exact Nat.and_pow_two_sub_one_eq_mod (v / 2 ^ k) 8

theorem ip_to_str_eq_spec_dotted_quad (v : Nat) : ip_to_str v = spec_dotted_quad v := by
  have e0 : v &&& 255 = v % 256 := Nat.and_pow_two_sub_one_eq_mod v 8
  have c1 : ((v : Int) / 16777216 % 256) = ((v / 2 ^ 24 % 256 : Nat) : Int) := by norm_cast
  have c2 : ((v : Int) / 65536 % 256) = ((v / 2 ^ 16 % 256 : Nat) : Int) := by norm_cast
  have c3 : ((v : Int) / 256 % 256) = ((v / 2 ^ 8 % 256 : Nat) : Int) := by norm_cast
  have c4 : ((v : Int) % 256) = ((v % 256 : Nat) : Int) := by norm_cast
  simp only [ip_to_str, spec_dotted_quad, fmt_u, octet_shift_mask, e0, c1, c2, c3, c4,
    spec_decimal_natCast]
  simp

theorem fmt_query_eq_spec (q : Query) : fmt_query q = spec_query_line q := by
  simp [fmt_query, spec_query_line, ip_to_str_eq_spec_dotted_quad, fmt_d_eq_spec_decimal]

theorem fmt_rule_eq_spec (r : Rule) :
    fmt_rule r = spec_rule_line r ++ (r.queries.map spec_query_line).flatten := by
  have hq : r.queries.map fmt_query = r.queries.map spec_query_line :=
    List.map_congr_left (fun q _ => fmt_query_eq_spec q)
  unfold fmt_rule spec_rule_line spec_ip_spec spec_port_spec
  rw [hq]
  simp only [ip_to_str_eq_spec_dotted_quad, fmt_d_eq_spec_decimal]
  split_ifs <;> simp

theorem flatten_fmt_rule_eq_spec (rules : List Rule) :
    (rules.map fmt_rule).flatten = spec_listing rules := by
  induction rules with
  | nil => rfl
  | cons r rs ih =>
    simp only [List.map_cons, List.flatten_cons, spec_listing, ih, fmt_rule_eq_spec]

theorem handle_L_eq_spec (st : State) : handle_L st = spec_listing st.rules := by
  unfold handle_L
  split_ifs with h
  · have : st.rules = [] := List.length_eq_zero.mp h
    rw [this]; rfl
  · exact flatten_fmt_rule_eq_spec st.rules

/-- C20: for every store the `L` response is the listing the specification
describes: for each rule in insertion order the line
`Rule: <ip-spec> <port-spec>` followed by one line `Query: <dotted-quad> <port>`
for each query of that rule in insertion order, every line ending in a newline,
where a spec is a single value when its two ends are equal and `start-end`
otherwise; for the empty store the response is the empty string. -/
theorem listing_format (st : State) :
    (processRequest st ['L']).2 = spec_listing st.rules ∧
    (processRequest ⟨[], st.rule_cap, st.requests, st.req_cap⟩ ['L']).2 = [] := by
  have e : ∀ x : State, (processRequest x ['L']).2 = handle_L (log_request x ['L']) := by
    intro x
    have ht : trim ['L'] = ['L'] := by decide
    simp [processRequest, ht]
  rw [e, e, handle_L_eq_spec, handle_L_eq_spec]
  exact ⟨rfl, rfl⟩

/-! ## Claims C17 and C19: the submitted variant -/

theorem submission_trim_loop_eq (fuel : Nat) (request : CStr) (len : Nat) :
    Submission.trim_loop fuel request len = request := by
  cases fuel with
  | zero => rfl
  | succ n => simp [Submission.trim_loop]

/-- The trimming loop of the submitted variant changes no request. -/
theorem submission_trim_eq (request : CStr) : Submission.trim request = request :=
  submission_trim_loop_eq _ _ _

/-- C17, evaluated: on the requests `Z foo`, `A` and the empty request, which
match none of the six command shapes, the submitted `processRequest` assigns no
response before returning it, where `serverWithComments.c` answers
`Illegal request`. -/
theorem submission_unknown_command_no_response :
    (Submission.processRequest State.init "Z foo".toList).2 = none ∧
    (Submission.processRequest State.init "A".toList).2 = none ∧
    (Submission.processRequest State.init []).2 = none ∧
    (processRequest State.init "Z foo".toList).2 = "Illegal request".toList := by
  refine ⟨by decide, by decide, by decide, by decide⟩

/-- C19, evaluated: the submitted `processRequest` does not strip the newline of
`A 1.2.3.4 80` followed by a newline: it answers `Invalid rule`, stores no
rule and logs the request with its newline, where on `A 1.2.3.4 80` it answers
`Rule added`; on `L` followed by a newline it assigns no response. -/
theorem submission_keeps_trailing_white_space :
    Submission.processRequest State.init "A 1.2.3.4 80\n".toList =
      (⟨[], 0, ["A 1.2.3.4 80\n".toList], 8⟩, some "Invalid rule".toList) ∧
    Submission.processRequest State.init "A 1.2.3.4 80".toList =
      (⟨[⟨16909060, 16909060, 80, 80, [], 0⟩], 8, ["A 1.2.3.4 80".toList], 8⟩,
        some "Rule added".toList) ∧
    (Submission.processRequest State.init "L\n".toList).2 = none := by
  refine ⟨by decide, by decide, by decide⟩

/-! ## Claims C21 to C23: the submitted listing, the history, the log -/

/-- C21, evaluated: after `A 147.188.192.0-147.188.194.255 22-25` and
`C 147.188.193.10 24`, the `L` response of the submitted variant has no space
between the `<ip-spec>` and the `<port-spec>` of its rule line, where
`serverWithComments.c` writes one. -/
theorem submission_listing_lacks_space :
    (Submission.processRequest
      (Submission.processRequest
        (Submission.processRequest State.init
          "A 147.188.192.0-147.188.194.255 22-25".toList).1
        "C 147.188.193.10 24".toList).1
      "L".toList).2 =
      some "Rule: 147.188.192.0-147.188.194.25522-25\nQuery: 147.188.193.10 24\n".toList ∧
    (processRequest
      (processRequest
        (processRequest State.init "A 147.188.192.0-147.188.194.255 22-25".toList).1
        "C 147.188.193.10 24".toList).1
      "L".toList).2 =
      "Rule: 147.188.192.0-147.188.194.255 22-25\nQuery: 147.188.193.10 24\n".toList := by
  refine ⟨by decide, by decide⟩

theorem handle_R_eq_spec (st : State) : handle_R st = spec_history st.requests := by
  have h : ∀ l : List CStr, (l.map (fun r => r ++ ['\n'])).flatten = spec_history l := by
    intro l
    induction l with
    | nil => rfl
    | cons r rs ih => simp [spec_history, ih]
  unfold handle_R
  split_ifs with h0
  · have : st.requests = [] := List.length_eq_zero.mp h0
    rw [this]; rfl
  · exact h st.requests

theorem spec_history_append (l : List CStr) (r : CStr) :
    spec_history (l ++ [r]) = spec_history l ++ (r ++ ['\n']) := by
  induction l with
  | nil => simp [spec_history]
  | cons x xs ih => simp [spec_history, ih]

theorem processRequest_eq_dispatch (st : State) (r : CStr) :
    processRequest st r = dispatch (log_request st (trim r)) (trim r) := rfl

/-- C22: for every state, the `R` response is the concatenation, in arrival
order, of every request in the log, each followed by one newline, and the `R`
request itself is its last line. -/
theorem history_format (st : State) (r : CStr) (hr : trim r = ['R']) :
    (processRequest st r).2 = spec_history (st.requests ++ [['R']]) ∧
    (processRequest st r).2 = spec_history st.requests ++ ['R', '\n'] ∧
    (processRequest st r).1.requests = st.requests ++ [['R']] := by
  have e : processRequest st r =
      (log_request st ['R'], handle_R (log_request st ['R'])) := by
    simp only [processRequest, hr, if_true]
  rw [e, handle_R_eq_spec]
  refine ⟨rfl, ?_, rfl⟩
  exact spec_history_append st.requests ['R']

theorem history_format_witness :
    trim "R\n".toList = ['R'] ∧
    (processRequest ⟨[], 0, ["C 10.0.0.1  80".toList, "Z foo".toList], 8⟩ "R\n".toList).2 =
      spec_history (["C 10.0.0.1  80".toList, "Z foo".toList] ++ [['R']]) ∧
    (processRequest ⟨[], 0, ["C 10.0.0.1  80".toList, "Z foo".toList], 8⟩ "R\n".toList).2 =
      spec_history ["C 10.0.0.1  80".toList, "Z foo".toList] ++ ['R', '\n'] ∧
    (processRequest ⟨[], 0, ["C 10.0.0.1  80".toList, "Z foo".toList], 8⟩
      "R\n".toList).1.requests = ["C 10.0.0.1  80".toList, "Z foo".toList] ++ [['R']] :=
  ⟨by decide, history_format ⟨[], 0, ["C 10.0.0.1  80".toList, "Z foo".toList], 8⟩
    "R\n".toList (by decide)⟩

/-- C23: for every state and every request, `processRequest` runs its chain of
tests on the state `log_request` left: there the log is the log before with one
entry, the trimmed request, added at its end, and the rules are untouched.
After the call the log is that log, unless the request is `F`, which empties
it. -/
theorem request_logged_before_dispatch (st : State) (r : CStr) :
    processRequest st r = dispatch (log_request st (trim r)) (trim r) ∧
    (log_request st (trim r)).requests = st.requests ++ [trim r] ∧
    (log_request st (trim r)).rules = st.rules ∧
    (processRequest st r).1.requests =
      (if trim r = ['F'] then [] else st.requests ++ [trim r]) :=
  ⟨rfl, rfl, rfl, processRequest_requests st r⟩

/-! ## Claims C24 to C27: the log and the reset -/

theorem run_append (st : State) (l1 l2 : List CStr) :
    run st (l1 ++ l2) = run (run st l1) l2 := by
  simp [run, List.foldl_append]

theorem run_cons (st : State) (r : CStr) (rs : List CStr) :
    run st (r :: rs) = run (processRequest st r).1 rs := rfl

/-- Without an `F`, the log after a sequence of calls is the log before followed
by the trimmed requests. -/
theorem run_requests_of_no_reset (reqs : List CStr) :
    ∀ st : State, (∀ r ∈ reqs, trim r ≠ ['F']) →
      (run st reqs).requests = st.requests ++ reqs.map trim := by
  induction reqs with
  | nil => intro st _; simp [run]
  | cons q qs ih =>
    intro st h
    rw [run_cons, ih _ (fun r hr => h r (List.mem_cons_of_mem _ hr)),
      processRequest_requests, if_neg (h q (List.mem_cons_self _ _))]
    simp

/-- C24, counterexample: after the one request `F` the log is empty, and after
the three requests `L`, `F`, `L` it holds one entry. -/
theorem log_length_claim_fails_after_reset :
    (run State.init ["F".toList]).requests.length = 0 ∧
    ["F".toList].length = 1 ∧
    (run State.init ["L".toList, "F".toList, "L".toList]).requests.length = 1 := by
  refine ⟨by decide, by decide, by decide⟩

/-- C24, amended: starting from the empty state, for every sequence of `n`
requests none of which is `F`, the log has length `n` after the `n`-th call;
`F` empties the log, so that after a sequence whose last `F` is followed by `m`
requests the log has length `m`. -/
theorem log_length_since_reset (reqs : List CStr) :
    ((∀ r ∈ reqs, trim r ≠ ['F']) → (run State.init reqs).requests.length = reqs.length) ∧
    (∀ (pre : List CStr) (f : CStr) (post : List CStr), reqs = pre ++ f :: post →
      trim f = ['F'] → (∀ r ∈ post, trim r ≠ ['F']) →
      (run State.init reqs).requests.length = post.length) := by
  constructor
  · intro h
    rw [run_requests_of_no_reset reqs State.init h]
    simp [State.init]
  · intro pre f post e hf hpost
    rw [e, run_append, run_cons, run_requests_of_no_reset post _ hpost,
      processRequest_requests, if_pos hf]
    simp

theorem log_length_since_reset_witness :
    ((∀ r ∈ ["A 1.2.3.4 5".toList, "Z foo".toList, "R".toList], trim r ≠ ['F']) ∧
      (run State.init ["A 1.2.3.4 5".toList, "Z foo".toList, "R".toList]).requests.length =
        ["A 1.2.3.4 5".toList, "Z foo".toList, "R".toList].length) ∧
    (["L".toList, "F\n".toList, "L".toList, "R".toList] =
        ["L".toList] ++ "F\n".toList :: ["L".toList, "R".toList] ∧
      trim "F\n".toList = ['F'] ∧ (∀ r ∈ ["L".toList, "R".toList], trim r ≠ ['F']) ∧
      (run State.init ["L".toList, "F\n".toList, "L".toList, "R".toList]).requests.length =
        ["L".toList, "R".toList].length) :=
  have h1 : ∀ r ∈ ["A 1.2.3.4 5".toList, "Z foo".toList, "R".toList], trim r ≠ ['F'] := by
    decide
  have h2 : ∀ r ∈ ["L".toList, "R".toList], trim r ≠ ['F'] := by decide
  ⟨⟨h1, (log_length_since_reset _).1 h1⟩,
    ⟨by decide, by decide, h2,
      (log_length_since_reset ["L".toList, "F\n".toList, "L".toList, "R".toList]).2
        ["L".toList] "F\n".toList ["L".toList, "R".toList] (by decide) (by decide) h2⟩⟩

theorem processRequest_F (st : State) :
    processRequest st ['F'] = (⟨[], 0, [], 0⟩, "All rules deleted".toList) := by
  have ht : trim ['F'] = ['F'] := by decide
  simp [processRequest, ht, handle_F]

theorem processRequest_L (st : State) :
    processRequest st ['L'] = (log_request st ['L'], handle_L (log_request st ['L'])) := by
  have ht : trim ['L'] = ['L'] := by decide
  simp [processRequest, ht]

theorem processRequest_R (st : State) :
    processRequest st ['R'] = (log_request st ['R'], handle_R (log_request st ['R'])) := by
  have ht : trim ['R'] = ['R'] := by decide
  simp [processRequest, ht]

/-- C25: for every state, `F` answers `All rules deleted` and leaves the store
without rules (and so without queries); an `L` issued next returns the empty
string. -/
theorem reset_empties_store (st : State) :
    (processRequest st ['F']).2 = "All rules deleted".toList ∧
    (processRequest st ['F']).1.rules = [] ∧
    (processRequest (processRequest st ['F']).1 ['L']).2 = [] := by
  rw [processRequest_F, processRequest_L]
  exact ⟨rfl, rfl, rfl⟩

/-- C26, counterexample: after `F` and `L`, the response to `R` is the two lines
`L` and `R`, not the empty string. -/
theorem history_after_reset_not_empty :
    (processRequest (processRequest (processRequest State.init ['F']).1 ['L']).1 ['R']).2 =
      "L\nR\n".toList ∧
    (processRequest (processRequest (processRequest State.init ['F']).1 ['L']).1 ['R']).2 ≠
      [] := by
  refine ⟨by decide, by decide⟩

/-- C26, amended: for every state, after `F` has been processed the following
`L` returns the empty string, and the `R` issued after it returns the requests
logged since the `F`: the line `L` and the line `R`. -/
theorem listing_and_history_after_reset (st : State) :
    (processRequest (processRequest st ['F']).1 ['L']).2 = [] ∧
    (processRequest (processRequest (processRequest st ['F']).1 ['L']).1 ['R']).2 =
      "L\nR\n".toList := by
  rw [processRequest_F, processRequest_L, processRequest_R]
  exact ⟨rfl, by decide⟩

/-- C27, counterexample: from the empty state the first `R` returns the line
`R`; after `F` the second `R` returns the line `R` again, and not the line `R`
followed by the line `F`. -/
theorem history_claim_fails_across_reset :
    (processRequest State.init ['R']).2 = "R\n".toList ∧
    (processRequest (processRequest (processRequest State.init ['R']).1 ['F']).1 ['R']).2 =
      "R\n".toList ∧
    (processRequest (processRequest (processRequest State.init ['R']).1 ['F']).1 ['R']).2 ≠
      (processRequest State.init ['R']).2 ++ "F\n".toList := by
  refine ⟨by decide, by decide, by decide⟩

/-- C27, amended: for every state, if `R` is issued immediately before `F` and
`R` is issued again after `F`, the second `R` response consists of the line `R`
and nothing else: `F` empties the log, so none of the lines the first `R`
returned is left. -/
theorem history_across_reset (st : State) :
    (processRequest (processRequest (processRequest st ['R']).1 ['F']).1 ['R']).2 =
      "R\n".toList ∧
    (processRequest (processRequest st ['R']).1 ['F']).1.requests = [] := by
  rw [processRequest_F, processRequest_R]
  exact ⟨by decide, rfl⟩

/-! ## Claims C28 to C30: sequences of equal requests -/

theorem responses_cons (st : State) (r : CStr) (rs : List CStr) :
    responses st (r :: rs) = (processRequest st r).2 :: responses (processRequest st r).1 rs :=
  rfl

theorem responses_append (l1 l2 : List CStr) :
    ∀ st : State, responses st (l1 ++ l2) = responses st l1 ++ responses (run st l1) l2 := by
  induction l1 with
  | nil => intro st; rfl
  | cons r rs ih =>
    intro st
    rw [List.cons_append, responses_cons, responses_cons, run_cons, ih]
    rfl

/-- One `A` with a rule specification of the grammar. -/
theorem processRequest_A_spec (st : State) (s : CStr) (a b : Nat) (p q : Int)
    (h : RuleSpecText s a b p q) :
    (processRequest st ('A' :: ' ' :: s)).2 = "Rule added".toList ∧
    (processRequest st ('A' :: ' ' :: s)).1.rules = st.rules ++ [⟨a, b, p, q, [], 0⟩] := by
  have hp := parse_rule_of_spec h
  obtain ⟨i, t, hi, ht, rfl⟩ := h
  rw [processRequest_A st _ (trim_cmd 'A' i t ht.portRangeWord.1 ht.portRangeWord.2.1)]
  have e : handle_A (log_request st ('A' :: ' ' :: (i ++ ' ' :: t)))
      ('A' :: ' ' :: (i ++ ' ' :: t)) =
      ({ log_request st ('A' :: ' ' :: (i ++ ' ' :: t)) with
          rules := st.rules ++ [⟨a, b, p, q, [], 0⟩],
          rule_cap := grow st.rules.length st.rule_cap }, "Rule added".toList) := by
    simp only [handle_A, List.drop_succ_cons, List.drop_zero, hp]
    rfl
  rw [e]
  exact ⟨rfl, rfl⟩

/-- One `D` with a rule specification of the grammar, when the rule to remove is known. -/
theorem processRequest_D_first (st : State) (s : CStr) (a b : Nat) (p q : Int)
    (h : RuleSpecText s a b p q) (pre post : List Rule) (r : Rule)
    (hsplit : st.rules = pre ++ r :: post) (hpre : ∀ x ∈ pre, ¬ sameEndpoints x a b p q)
    (hr : sameEndpoints r a b p q) :
    (processRequest st ('D' :: ' ' :: s)).2 = "Rule deleted".toList ∧
    (processRequest st ('D' :: ' ' :: s)).1.rules = pre ++ post := by
  have hl : handle_D_loop ⟨a, b, p, q, [], 0⟩ st.rules = some (pre ++ post) := by
    rw [hsplit]
    exact handle_D_loop_first ⟨a, b, p, q, [], 0⟩ pre post r hpre hr
  rw [processRequest_D_spec st s a b p q h, hl]
  exact ⟨rfl, rfl⟩

/-- One `D` with a rule specification of the grammar, when no rule has its endpoints. -/
theorem processRequest_D_none (st : State) (s : CStr) (a b : Nat) (p q : Int)
    (h : RuleSpecText s a b p q) (hno : ∀ r ∈ st.rules, ¬ sameEndpoints r a b p q) :
    (processRequest st ('D' :: ' ' :: s)).2 = "Rule not found".toList ∧
    (processRequest st ('D' :: ' ' :: s)).1.rules = st.rules := by
  have hl : handle_D_loop ⟨a, b, p, q, [], 0⟩ st.rules = none :=
    (handle_D_loop_none ⟨a, b, p, q, [], 0⟩ st.rules).mpr hno
  rw [processRequest_D_spec st s a b p q h, hl]
  exact ⟨rfl, rfl⟩

theorem run_adds (s : CStr) (a b : Nat) (p q : Int) (h : RuleSpecText s a b p q) (n : Nat) :
    ∀ st : State,
      (run st (List.replicate n ('A' :: ' ' :: s))).rules =
        st.rules ++ List.replicate n ⟨a, b, p, q, [], 0⟩ ∧
      responses st (List.replicate n ('A' :: ' ' :: s)) =
        List.replicate n "Rule added".toList := by
  induction n with
  | zero => intro st; simp [run, responses]
  | succ n ih =>
    intro st
    obtain ⟨h1, h2⟩ := processRequest_A_spec st s a b p q h
    obtain ⟨i1, i2⟩ := ih (processRequest st ('A' :: ' ' :: s)).1
    rw [List.replicate_succ, run_cons, responses_cons, i1, i2, h1, h2]
    simp [List.replicate_succ]

theorem run_deletes (s : CStr) (a b : Nat) (p q : Int) (h : RuleSpecText s a b p q)
    (base : List Rule) (hbase : ∀ r ∈ base, ¬ sameEndpoints r a b p q) (n : Nat) :
    ∀ st : State, st.rules = base ++ List.replicate n ⟨a, b, p, q, [], 0⟩ →
      (run st (List.replicate n ('D' :: ' ' :: s))).rules = base ∧
      responses st (List.replicate n ('D' :: ' ' :: s)) =
        List.replicate n "Rule deleted".toList := by
  induction n with
  | zero => intro st hst; simpa [run, responses] using hst
  | succ n ih =>
    intro st hst
    rw [List.replicate_succ] at hst
    obtain ⟨h1, h2⟩ := processRequest_D_first st s a b p q h base
      (List.replicate n ⟨a, b, p, q, [], 0⟩) ⟨a, b, p, q, [], 0⟩ hst hbase ⟨rfl, rfl, rfl, rfl⟩
    obtain ⟨i1, i2⟩ := ih (processRequest st ('D' :: ' ' :: s)).1 h2
    rw [List.replicate_succ, run_cons, responses_cons, i1, i2, h1]
    simp [List.replicate_succ]

/-- C28: rules are not deduplicated.  For every rule specification `x` of the
grammar and every `n`, starting from a store with no rule of the endpoints of
`x`, `n` requests `A x` in a row each answer `Rule added` and store `n` rules,
the next `n` requests `D x` each answer `Rule deleted`, and one more `D x`
answers `Rule not found`; the store is then as it was at the start. -/
theorem rules_not_deduplicated (st : State) (s : CStr) (a b : Nat) (p q : Int) (n : Nat)
    (h : RuleSpecText s a b p q) (hno : ∀ r ∈ st.rules, ¬ sameEndpoints r a b p q) :
    (run st (List.replicate n ('A' :: ' ' :: s))).rules =
      st.rules ++ List.replicate n ⟨a, b, p, q, [], 0⟩ ∧
    responses st (List.replicate n ('A' :: ' ' :: s) ++
        (List.replicate n ('D' :: ' ' :: s) ++ [('D' :: ' ' :: s)])) =
      List.replicate n "Rule added".toList ++
        (List.replicate n "Rule deleted".toList ++ ["Rule not found".toList]) ∧
    (run st (List.replicate n ('A' :: ' ' :: s) ++
        (List.replicate n ('D' :: ' ' :: s) ++ [('D' :: ' ' :: s)]))).rules = st.rules := by
  obtain ⟨a1, a2⟩ := run_adds s a b p q h n st
  obtain ⟨d1, d2⟩ := run_deletes s a b p q h st.rules hno n _ a1
  obtain ⟨f1, f2⟩ := processRequest_D_none
    (run (run st (List.replicate n ('A' :: ' ' :: s))) (List.replicate n ('D' :: ' ' :: s)))
    s a b p q h (by rw [d1]; exact hno)
  refine ⟨a1, ?_, ?_⟩
  · rw [responses_append, responses_append, a2, d2, responses_cons, f1]
    rfl
  · rw [run_append, run_append, run_cons]
    show (processRequest _ _).1.rules = st.rules
    rw [f2, d1]

theorem rules_not_deduplicated_witness :
    RuleSpecText "1.2.3.4 5".toList 16909060 16909060 5 5 ∧
    (∀ r ∈ State.init.rules, ¬ sameEndpoints r 16909060 16909060 5 5) ∧
    (run State.init (List.replicate 2 "A 1.2.3.4 5".toList)).rules =
      State.init.rules ++ List.replicate 2 ⟨16909060, 16909060, 5, 5, [], 0⟩ ∧
    responses State.init (List.replicate 2 "A 1.2.3.4 5".toList ++
        (List.replicate 2 "D 1.2.3.4 5".toList ++ ["D 1.2.3.4 5".toList])) =
      List.replicate 2 "Rule added".toList ++
        (List.replicate 2 "Rule deleted".toList ++ ["Rule not found".toList]) ∧
    (run State.init (List.replicate 2 "A 1.2.3.4 5".toList ++
        (List.replicate 2 "D 1.2.3.4 5".toList ++ ["D 1.2.3.4 5".toList]))).rules =
      State.init.rules :=
  have hx : IPText "1.2.3.4".toList 16909060 :=
    ⟨['1'], ['2'], ['3'], ['4'], by decide, by decide, by decide, by decide, by decide, by decide⟩
  have hspec : RuleSpecText "1.2.3.4 5".toList 16909060 16909060 5 5 :=
    ⟨"1.2.3.4".toList, "5".toList, Or.inl ⟨hx, rfl⟩, Or.inl ⟨⟨by decide, by decide⟩, rfl⟩,
      by decide⟩
  have hno : ∀ r ∈ State.init.rules, ¬ sameEndpoints r 16909060 16909060 5 5 := by decide
  ⟨hspec, hno, rules_not_deduplicated State.init _ _ _ _ _ 2 hspec hno⟩

theorem countP_split (f : Rule → Bool) (pre post : List Rule) (r : Rule) (hr : f r = true) :
    (pre ++ r :: post).countP f = (pre ++ post).countP f + 1 := by
  simp [List.countP_append, List.countP_cons, hr]
  omega

/-- C29: for every state and every rule specification `x` of the grammar, `A x`
and then `D x` answer `Rule added` and `Rule deleted`; after the pair the store
holds one fewer rule with the endpoints of `x` than right after the `A`, that
is as many as before the `A`; and when the store held no such rule before, its
rules after the pair are the rules before it. -/
theorem add_then_delete (st : State) (s : CStr) (a b : Nat) (p q : Int)
    (h : RuleSpecText s a b p q) :
    responses st [('A' :: ' ' :: s), ('D' :: ' ' :: s)] =
      ["Rule added".toList, "Rule deleted".toList] ∧
    (run st [('A' :: ' ' :: s), ('D' :: ' ' :: s)]).rules.countP
        (fun r => decide (sameEndpoints r a b p q)) + 1 =
      (run st [('A' :: ' ' :: s)]).rules.countP (fun r => decide (sameEndpoints r a b p q)) ∧
    (run st [('A' :: ' ' :: s), ('D' :: ' ' :: s)]).rules.countP
        (fun r => decide (sameEndpoints r a b p q)) =
      st.rules.countP (fun r => decide (sameEndpoints r a b p q)) ∧
    ((∀ r ∈ st.rules, ¬ sameEndpoints r a b p q) →
      (run st [('A' :: ' ' :: s), ('D' :: ' ' :: s)]).rules = st.rules) := by
  obtain ⟨a1, a2⟩ := processRequest_A_spec st s a b p q h
  have hnew : sameEndpoints (⟨a, b, p, q, [], 0⟩ : Rule) a b p q := ⟨rfl, rfl, rfl, rfl⟩
  have hex : ∃ r ∈ (processRequest st ('A' :: ' ' :: s)).1.rules, sameEndpoints r a b p q :=
    ⟨⟨a, b, p, q, [], 0⟩, by rw [a2]; simp, hnew⟩
  obtain ⟨pre, r, post, hsplit, hpre, hr⟩ := exists_first_same a b p q _ hex
  obtain ⟨d1, d2⟩ := processRequest_D_first _ s a b p q h pre post r hsplit hpre hr
  have hrun2 : (run st [('A' :: ' ' :: s), ('D' :: ' ' :: s)]).rules = pre ++ post := d2
  have hrun1 : (run st [('A' :: ' ' :: s)]).rules = pre ++ r :: post := hsplit
  have hc := countP_split (fun r => decide (sameEndpoints r a b p q)) pre post r (by simpa using hr)
  refine ⟨?_, ?_, ?_, ?_⟩
  · rw [responses_cons, responses_cons, a1, d1]; rfl
  · rw [hrun2, hrun1, hc]
  · have : (pre ++ r :: post).countP (fun r => decide (sameEndpoints r a b p q)) =
        st.rules.countP (fun r => decide (sameEndpoints r a b p q)) + 1 := by
      rw [← hsplit, a2]
      simp [List.countP_append, List.countP_cons, hnew]
    rw [hrun2]
    omega
  · intro hno
    obtain ⟨e1, e2⟩ := processRequest_D_first (processRequest st ('A' :: ' ' :: s)).1 s a b p q h
      st.rules [] ⟨a, b, p, q, [], 0⟩ a2 hno hnew
    have : (run st [('A' :: ' ' :: s), ('D' :: ' ' :: s)]).rules = st.rules ++ [] := e2
    rw [this, List.append_nil]

theorem add_then_delete_witness :
    RuleSpecText "1.2.3.4 5".toList 16909060 16909060 5 5 ∧
    responses ⟨[⟨0, 9, 5, 5, [⟨3, 5⟩], 8⟩], 8, [], 0⟩
        ["A 1.2.3.4 5".toList, "D 1.2.3.4 5".toList] =
      ["Rule added".toList, "Rule deleted".toList] ∧
    (run ⟨[⟨0, 9, 5, 5, [⟨3, 5⟩], 8⟩], 8, [], 0⟩
        ["A 1.2.3.4 5".toList, "D 1.2.3.4 5".toList]).rules.countP
        (fun r => decide (sameEndpoints r 16909060 16909060 5 5)) + 1 =
      (run ⟨[⟨0, 9, 5, 5, [⟨3, 5⟩], 8⟩], 8, [], 0⟩ ["A 1.2.3.4 5".toList]).rules.countP
        (fun r => decide (sameEndpoints r 16909060 16909060 5 5)) ∧
    (run ⟨[⟨0, 9, 5, 5, [⟨3, 5⟩], 8⟩], 8, [], 0⟩
        ["A 1.2.3.4 5".toList, "D 1.2.3.4 5".toList]).rules.countP
        (fun r => decide (sameEndpoints r 16909060 16909060 5 5)) =
      [(⟨0, 9, 5, 5, [⟨3, 5⟩], 8⟩ : Rule)].countP
        (fun r => decide (sameEndpoints r 16909060 16909060 5 5)) ∧
    ((∀ r ∈ [(⟨0, 9, 5, 5, [⟨3, 5⟩], 8⟩ : Rule)], ¬ sameEndpoints r 16909060 16909060 5 5) ∧
      (run ⟨[⟨0, 9, 5, 5, [⟨3, 5⟩], 8⟩], 8, [], 0⟩
        ["A 1.2.3.4 5".toList, "D 1.2.3.4 5".toList]).rules = [⟨0, 9, 5, 5, [⟨3, 5⟩], 8⟩]) :=
  have hx : IPText "1.2.3.4".toList 16909060 :=
    ⟨['1'], ['2'], ['3'], ['4'], by decide, by decide, by decide, by decide, by decide, by decide⟩
  have hspec : RuleSpecText "1.2.3.4 5".toList 16909060 16909060 5 5 :=
    ⟨"1.2.3.4".toList, "5".toList, Or.inl ⟨hx, rfl⟩, Or.inl ⟨⟨by decide, by decide⟩, rfl⟩,
      by decide⟩
  have hno : ∀ r ∈ [(⟨0, 9, 5, 5, [⟨3, 5⟩], 8⟩ : Rule)],
      ¬ sameEndpoints r 16909060 16909060 5 5 := by decide
  have h := add_then_delete ⟨[⟨0, 9, 5, 5, [⟨3, 5⟩], 8⟩], 8, [], 0⟩ _ _ _ _ _ hspec
  ⟨hspec, h.1, h.2.1, h.2.2.1, ⟨hno, h.2.2.2 hno⟩⟩

/-- One `C` of the grammar, when the first covering rule is known. -/
theorem processRequest_C_first (st : State) (ipT portT : CStr) (ip : Nat) (port : Int)
    (hip : IPText ipT ip) (hport : PortText portT port) (pre post : List Rule) (r : Rule)
    (hsplit : st.rules = pre ++ r :: post) (hpre : ∀ x ∈ pre, ¬ covers x ip port)
    (hr : covers r ip port) :
    (processRequest st ('C' :: ' ' :: (ipT ++ ' ' :: portT))).2 = "Connection accepted".toList ∧
    (processRequest st ('C' :: ' ' :: (ipT ++ ' ' :: portT))).1.rules =
      pre ++ record_query r ip port :: post := by
  constructor
  all_goals
    rw [processRequest_C st _ (trim_cmd 'C' ipT portT hport.portWord.1 hport.portWord.2.1),
      handle_C_valid _ ipT portT ip port hip hport]
    have hrules : (log_request st ('C' :: ' ' :: (ipT ++ ' ' :: portT))).rules = st.rules := rfl
    rw [hrules, hsplit, handle_C_loop_first ip port pre post r hpre hr]

theorem run_checks (ipT portT : CStr) (ip : Nat) (port : Int) (hip : IPText ipT ip)
    (hport : PortText portT port) (pre post : List Rule)
    (hpre : ∀ x ∈ pre, ¬ covers x ip port) (n : Nat) :
    ∀ (st : State) (r : Rule), st.rules = pre ++ r :: post → covers r ip port →
      responses st (List.replicate n ('C' :: ' ' :: (ipT ++ ' ' :: portT))) =
        List.replicate n "Connection accepted".toList ∧
      ∃ r' : Rule,
        (run st (List.replicate n ('C' :: ' ' :: (ipT ++ ' ' :: portT)))).rules =
          pre ++ r' :: post ∧
        r'.queries = r.queries ++ List.replicate n ⟨ip, port⟩ ∧
        r'.ip_start = r.ip_start ∧ r'.ip_end = r.ip_end ∧
        r'.port_start = r.port_start ∧ r'.port_end = r.port_end := by
  induction n with
  | zero =>
    intro st r hsplit _
    exact ⟨rfl, r, hsplit, by simp, rfl, rfl, rfl, rfl⟩
  | succ n ih =>
    intro st r hsplit hr
    obtain ⟨c1, c2⟩ := processRequest_C_first st ipT portT ip port hip hport pre post r
      hsplit hpre hr
    obtain ⟨i1, r', i2, i3, i4, i5, i6, i7⟩ :=
      ih (processRequest st ('C' :: ' ' :: (ipT ++ ' ' :: portT))).1 (record_query r ip port)
        c2 hr
    refine ⟨?_, r', ?_, ?_, i4, i5, i6, i7⟩
    · rw [List.replicate_succ, responses_cons, c1, i1]
      rfl
    · rw [List.replicate_succ, run_cons]
      exact i2
    · rw [i3]
      simp [record_query, List.replicate_succ]

/-- C30: queries are not deduplicated.  For every state, every pair of the
grammar that some stored rule covers and every `n`, `n` requests `C ip port` in
a row each answer `Connection accepted` and append `n` query records
`(ip, port)` at the end of the query list of the first covering rule, whose
endpoints and whose neighbours stay as they were. -/
theorem queries_not_deduplicated (st : State) (ipT portT : CStr) (ip : Nat) (port : Int)
    (n : Nat) (hip : IPText ipT ip) (hport : PortText portT port)
    (hcov : ∃ r ∈ st.rules, covers r ip port) :
    ∃ (pre : List Rule) (r : Rule) (post : List Rule) (r' : Rule),
      st.rules = pre ++ r :: post ∧ (∀ x ∈ pre, ¬ covers x ip port) ∧ covers r ip port ∧
      responses st (List.replicate n ('C' :: ' ' :: (ipT ++ ' ' :: portT))) =
        List.replicate n "Connection accepted".toList ∧
      (run st (List.replicate n ('C' :: ' ' :: (ipT ++ ' ' :: portT)))).rules =
        pre ++ r' :: post ∧
      r'.queries = r.queries ++ List.replicate n ⟨ip, port⟩ ∧
      r'.ip_start = r.ip_start ∧ r'.ip_end = r.ip_end ∧
      r'.port_start = r.port_start ∧ r'.port_end = r.port_end := by
  obtain ⟨pre, r, post, hsplit, hpre, hr⟩ := exists_first_cover ip port st.rules hcov
  obtain ⟨h1, r', h2, h3, h4, h5, h6, h7⟩ :=
    run_checks ipT portT ip port hip hport pre post hpre n st r hsplit hr
  exact ⟨pre, r, post, r', hsplit, hpre, hr, h1, h2, h3, h4, h5, h6, h7⟩

theorem queries_not_deduplicated_witness :
    IPText "1.2.3.4".toList 16909060 ∧ PortText "80".toList 80 ∧
    (∃ r ∈ [(⟨0, 5, 80, 80, [], 0⟩ : Rule), ⟨16909060, 16909060, 80, 80, [⟨16909060, 80⟩], 8⟩,
        ⟨0, 4294967295, 0, 65535, [], 0⟩], covers r 16909060 80) ∧
    ∃ (pre : List Rule) (r : Rule) (post : List Rule) (r' : Rule),
      [(⟨0, 5, 80, 80, [], 0⟩ : Rule), ⟨16909060, 16909060, 80, 80, [⟨16909060, 80⟩], 8⟩,
        ⟨0, 4294967295, 0, 65535, [], 0⟩] = pre ++ r :: post ∧
      (∀ x ∈ pre, ¬ covers x 16909060 80) ∧ covers r 16909060 80 ∧
      responses ⟨[⟨0, 5, 80, 80, [], 0⟩, ⟨16909060, 16909060, 80, 80, [⟨16909060, 80⟩], 8⟩,
          ⟨0, 4294967295, 0, 65535, [], 0⟩], 8, [], 0⟩
          (List.replicate 5 "C 1.2.3.4 80".toList) =
        List.replicate 5 "Connection accepted".toList ∧
      (run ⟨[⟨0, 5, 80, 80, [], 0⟩, ⟨16909060, 16909060, 80, 80, [⟨16909060, 80⟩], 8⟩,
          ⟨0, 4294967295, 0, 65535, [], 0⟩], 8, [], 0⟩
          (List.replicate 5 "C 1.2.3.4 80".toList)).rules = pre ++ r' :: post ∧
      r'.queries = r.queries ++ List.replicate 5 ⟨16909060, 80⟩ ∧
      r'.ip_start = r.ip_start ∧ r'.ip_end = r.ip_end ∧
      r'.port_start = r.port_start ∧ r'.port_end = r.port_end :=
  have hip : IPText "1.2.3.4".toList 16909060 :=
    ⟨['1'], ['2'], ['3'], ['4'], by decide, by decide, by decide, by decide, by decide, by decide⟩
  have hport : PortText "80".toList 80 := ⟨by decide, by decide⟩
  have hcov : ∃ r ∈ [(⟨0, 5, 80, 80, [], 0⟩ : Rule),
      ⟨16909060, 16909060, 80, 80, [⟨16909060, 80⟩], 8⟩,
      ⟨0, 4294967295, 0, 65535, [], 0⟩], covers r 16909060 80 :=
    ⟨⟨0, 4294967295, 0, 65535, [], 0⟩, by simp, by decide⟩
  ⟨hip, hport, hcov, queries_not_deduplicated
    ⟨[⟨0, 5, 80, 80, [], 0⟩, ⟨16909060, 16909060, 80, 80, [⟨16909060, 80⟩], 8⟩,
      ⟨0, 4294967295, 0, 65535, [], 0⟩], 8, [], 0⟩ _ _ _ _ 5 hip hport hcov⟩

/-! ## Claims C34 and C38: the history is never empty, the log holds trimmed requests -/

/-- C34: for every state, an `R` request handled through `processRequest` does
not return the empty string: when `handle_R` runs the log holds at least the
`R` itself, so its count is not 0 and the response ends with the line `R`. -/
theorem history_never_empty (st : State) (r : CStr) (hr : trim r = ['R']) :
    (processRequest st r).2 ≠ [] ∧
    (∃ before : CStr, (processRequest st r).2 = before ++ ['R', '\n']) ∧
    (log_request st (trim r)).requests.length ≠ 0 ∧
    processRequest st r = (log_request st (trim r), handle_R (log_request st (trim r))) := by
  have e : processRequest st r =
      (log_request st (trim r), handle_R (log_request st (trim r))) := by
    simp only [processRequest, hr, if_true]
  have hresp : (processRequest st r).2 = spec_history st.requests ++ ['R', '\n'] := by
    rw [e, hr, handle_R_eq_spec]
    exact spec_history_append st.requests ['R']
  refine ⟨?_, ⟨spec_history st.requests, hresp⟩, ?_, e⟩
  · rw [hresp]; simp
  · simp [log_request]

theorem history_never_empty_witness :
    trim "R \n".toList = ['R'] ∧
    (processRequest State.init "R \n".toList).2 ≠ [] ∧
    (∃ before : CStr, (processRequest State.init "R \n".toList).2 = before ++ ['R', '\n']) ∧
    (log_request State.init (trim "R \n".toList)).requests.length ≠ 0 ∧
    processRequest State.init "R \n".toList =
      (log_request State.init (trim "R \n".toList),
        handle_R (log_request State.init (trim "R \n".toList))) :=
  ⟨by decide, history_never_empty State.init "R \n".toList (by decide)⟩

/-- A property of log entries that holds for every trimmed request holds for
every entry of the log after every sequence of calls. -/
theorem run_log_preserves (P : CStr → Prop) (htrim : ∀ r, P (trim r)) (reqs : List CStr) :
    ∀ st : State, (∀ e ∈ st.requests, P e) → ∀ e ∈ (run st reqs).requests, P e := by
  induction reqs with
  | nil => intro st hst; exact hst
  | cons q qs ih =>
    intro st hst
    rw [run_cons]
    apply ih
    rw [processRequest_requests]
    split_ifs
    · intro e he; simp at he
    · intro e he
      rcases List.mem_append.mp he with h | h
      · exact hst e h
      · rw [List.mem_singleton] at h
        rw [h]; exact htrim q

/-- C38: log invariant.  After every finite sequence of requests from the empty
state, no entry of the log ends in white space, trimming leaves every entry as
it is, and `processRequest` on an entry logs that entry unchanged. -/
theorem log_entries_trimmed (reqs : List CStr) (e : CStr)
    (he : e ∈ (run State.init reqs).requests) :
    (∀ c, e.getLast? = some c → isspace c = false) ∧
    trim e = e ∧
    (∀ st : State, (log_request st (trim e)).requests = st.requests ++ [e]) ∧
    (∀ r : CStr, trim (trim r) = trim r) := by
  have h := run_log_preserves (fun x => ∀ c, x.getLast? = some c → isspace c = false)
    (fun r => trim_getLast r) reqs State.init (by intro x hx; simp [State.init] at hx) e he
  have ht : trim e = e := trim_eq_self e h
  refine ⟨h, ht, ?_, trim_idem⟩
  intro st
  rw [ht]
  rfl

theorem log_entries_trimmed_witness :
    "A 1.2.3.4 80".toList ∈
      (run State.init ["Z foo \t".toList, "A 1.2.3.4 80\r\n".toList]).requests ∧
    (("A 1.2.3.4 80".toList.getLast? = some '0' ∧ isspace '0' = false) ∧
      trim "A 1.2.3.4 80".toList = "A 1.2.3.4 80".toList ∧
      (log_request State.init (trim "A 1.2.3.4 80".toList)).requests =
        State.init.requests ++ ["A 1.2.3.4 80".toList] ∧
      trim (trim "A 1.2.3.4 80\r\n".toList) = trim "A 1.2.3.4 80\r\n".toList) :=
  have he : "A 1.2.3.4 80".toList ∈
      (run State.init ["Z foo \t".toList, "A 1.2.3.4 80\r\n".toList]).requests := by decide
  have h := log_entries_trimmed ["Z foo \t".toList, "A 1.2.3.4 80\r\n".toList] _ he
  ⟨he, ⟨by decide, h.1 '0' (by decide)⟩, h.2.1, h.2.2.1 State.init, h.2.2.2 _⟩

/-! ## Claim C37: the two variants on their common requests -/

/-- One call of the two variants on a common request. -/
theorem submission_step_agrees (st : State) (r : CStr) (h : CommonRequest r) :
    Submission.processRequest st r = ((processRequest st r).1, some (processRequest st r).2) := by
  obtain ⟨hlast, hshape⟩ := h
  have ht : trim r = r := trim_eq_self r hlast
  unfold Submission.processRequest processRequest
  simp only [submission_trim_eq, ht]
  rcases hshape with e | e | ⟨rest, e⟩ | ⟨rest, e⟩ | ⟨rest, e⟩ <;> subst e <;> simp

theorem submission_run_cons (st : State) (r : CStr) (rs : List CStr) :
    Submission.run st (r :: rs) = Submission.run (Submission.processRequest st r).1 rs := rfl

/-- C37: for every sequence of requests none of which ends in white space and
each of which is exactly `R` or `F` or begins with `A `, `C ` or `D `, the
`processRequest` of `serverCSubmission.c` and that of `serverWithComments.c`
return the same responses and reach the same state, with the same rule store
and the same request log. -/
theorem variants_agree_on_common_requests (reqs : List CStr) :
    ∀ st : State, (∀ r ∈ reqs, CommonRequest r) →
      Submission.responses st reqs = (responses st reqs).map some ∧
      Submission.run st reqs = run st reqs := by
  induction reqs with
  | nil => intro st _; exact ⟨rfl, rfl⟩
  | cons q qs ih =>
    intro st h
    have hq := submission_step_agrees st q (h q (List.mem_cons_self _ _))
    have hs : (Submission.processRequest st q).1 = (processRequest st q).1 := by rw [hq]
    have hr : (Submission.processRequest st q).2 = some (processRequest st q).2 := by rw [hq]
    obtain ⟨i1, i2⟩ := ih (processRequest st q).1 (fun r hr => h r (List.mem_cons_of_mem _ hr))
    constructor
    · rw [responses_cons, List.map_cons, ← i1, ← hr, ← hs]
      rfl
    · rw [submission_run_cons, run_cons, hs, i2]

theorem variants_agree_on_common_requests_witness :
    (∀ r ∈ ["A 1.2.3.4 80".toList, "C 1.2.3.4 80".toList, "R".toList, "D 1.2.3.4 80".toList,
        "F".toList], CommonRequest r) ∧
    Submission.responses State.init ["A 1.2.3.4 80".toList, "C 1.2.3.4 80".toList, "R".toList,
        "D 1.2.3.4 80".toList, "F".toList] =
      (responses State.init ["A 1.2.3.4 80".toList, "C 1.2.3.4 80".toList, "R".toList,
        "D 1.2.3.4 80".toList, "F".toList]).map some ∧
    Submission.run State.init ["A 1.2.3.4 80".toList, "C 1.2.3.4 80".toList, "R".toList,
        "D 1.2.3.4 80".toList, "F".toList] =
      run State.init ["A 1.2.3.4 80".toList, "C 1.2.3.4 80".toList, "R".toList,
        "D 1.2.3.4 80".toList, "F".toList] :=
  have hlast : ∀ (s : CStr) (c0 : Char), s.getLast? = some c0 → isspace c0 = false →
      ∀ c, s.getLast? = some c → isspace c = false := by
    intro s c0 h0 hs c hc
    rw [h0, Option.some.injEq] at hc
    subst hc; exact hs
  have h : ∀ r ∈ ["A 1.2.3.4 80".toList, "C 1.2.3.4 80".toList, "R".toList,
      "D 1.2.3.4 80".toList, "F".toList], CommonRequest r := by
    intro r hr
    simp only [List.mem_cons, List.mem_singleton, List.not_mem_nil, or_false] at hr
    rcases hr with e | e | e | e | e <;> subst e
    · exact ⟨hlast _ '0' (by decide) (by decide), Or.inr (Or.inr (Or.inl ⟨_, rfl⟩))⟩
    · exact ⟨hlast _ '0' (by decide) (by decide), Or.inr (Or.inr (Or.inr (Or.inl ⟨_, rfl⟩)))⟩
    · exact ⟨hlast _ 'R' (by decide) (by decide), Or.inl rfl⟩
    · exact ⟨hlast _ '0' (by decide) (by decide), Or.inr (Or.inr (Or.inr (Or.inr ⟨_, rfl⟩)))⟩
    · exact ⟨hlast _ 'F' (by decide) (by decide), Or.inr (Or.inl rfl)⟩
  ⟨h, variants_agree_on_common_requests _ State.init h⟩

/-! ## Claim C39: the capacities -/

theorem capOK_grow (count cap : Nat) (h : capOK cap) : capOK (grow count cap) := by
  unfold grow
  split_ifs with h1 h2
  · exact Or.inr ⟨0, by norm_num⟩
  · rcases h with h | ⟨k, hk⟩
    · exact absurd h h2
    · exact Or.inr ⟨k + 1, by rw [hk, pow_succ]; ring⟩
  · exact h

/-- After the growth step the slot at index `count` is inside the array. -/
theorem lt_grow (count cap : Nat) (h : count ≤ cap) : count < grow count cap := by
  unfold grow
  split_ifs with h1 h2 <;> omega

theorem handle_C_loop_length (ip : Nat) (port : Int) :
    ∀ (rules rules' : List Rule), handle_C_loop ip port rules = some rules' →
      rules'.length = rules.length := by
  intro rules
  induction rules with
  | nil => intro rules' h; simp [handle_C_loop] at h
  | cons x xs ih =>
    intro rules' h
    unfold handle_C_loop at h
    split_ifs at h
    · rw [Option.some.injEq] at h
      subst h; rfl
    · cases hl : handle_C_loop ip port xs with
      | none => rw [hl] at h; simp at h
      | some ys =>
        rw [hl] at h
        simp only [Option.map_some', Option.some.injEq] at h
        subst h
        simp [ih ys hl]

theorem handle_D_loop_length (k : Rule) :
    ∀ (rules rules' : List Rule), handle_D_loop k rules = some rules' →
      rules'.length ≤ rules.length := by
  intro rules
  induction rules with
  | nil => intro rules' h; simp [handle_D_loop] at h
  | cons x xs ih =>
    intro rules' h
    unfold handle_D_loop at h
    split_ifs at h
    · rw [Option.some.injEq] at h
      subst h; simp
    · cases hl : handle_D_loop k xs with
      | none => rw [hl] at h; simp at h
      | some ys =>
        rw [hl] at h
        simp only [Option.map_some', Option.some.injEq] at h
        subst h
        have := ih ys hl
        simp only [List.length_cons]
        omega

theorem record_query_cap (r : Rule) (ip : Nat) (port : Int)
    (h : r.queries.length ≤ r.query_cap ∧ capOK r.query_cap) :
    (record_query r ip port).queries.length ≤ (record_query r ip port).query_cap ∧
      capOK (record_query r ip port).query_cap := by
  constructor
  · have := lt_grow r.queries.length r.query_cap h.1
    simp only [record_query, List.length_append, List.length_singleton]
    omega
  · exact capOK_grow _ _ h.2

theorem capInv_log_request (st : State) (q : CStr) (h : CapInv st) :
    CapInv (log_request st q) := by
  obtain ⟨h1, h2, h3, h4, h5⟩ := h
  refine ⟨h1, h2, ?_, capOK_grow _ _ h4, h5⟩
  have := lt_grow st.requests.length st.req_cap h3
  simp only [log_request, List.length_append, List.length_singleton]
  omega

theorem capInv_handle_A (st : State) (q : CStr) (h : CapInv st) : CapInv (handle_A st q).1 := by
  obtain ⟨h1, h2, h3, h4, h5⟩ := h
  unfold handle_A
  split
  · exact ⟨h1, h2, h3, h4, h5⟩
  · rename_i r hr
    refine ⟨?_, capOK_grow _ _ h2, h3, h4, ?_⟩
    · have := lt_grow st.rules.length st.rule_cap h1
      simp only [List.length_append, List.length_singleton]
      omega
    · intro x hx
      simp only [List.mem_append, List.mem_singleton] at hx
      rcases hx with e | e
      · exact h5 x e
      · subst e
        have hs := parse_rule_sound hr
        have hcap : x.query_cap = 0 := by
          unfold parse_rule at hr
          split at hr
          · exact Option.noConfusion hr
          · split_ifs at hr
            split at hr
            · exact Option.noConfusion hr
            · split at hr
              · exact Option.noConfusion hr
              · split at hr
                · exact Option.noConfusion hr
                · rw [Option.some.injEq] at hr
                  subst hr; rfl
        rw [hs.2.2.2.2, hcap]
        exact ⟨Nat.le_refl _, Or.inl rfl⟩

theorem capInv_handle_C (st : State) (q : CStr) (h : CapInv st) : CapInv (handle_C st q).1 := by
  obtain ⟨h1, h2, h3, h4, h5⟩ := h
  have hreq := handle_C_requests st q
  have hcap : (handle_C st q).1.rule_cap = st.rule_cap := by
    unfold handle_C
    simp only
    split_ifs
    · rfl
    · split
      · rfl
      · split_ifs
        · rfl
        · split
          · rfl
          · split
            · split <;> rfl
            · rfl
  rcases handle_C_rules st q with e | ⟨ip, port, e⟩
  · refine ⟨by rw [e, hcap]; exact h1, by rw [hcap]; exact h2, by rw [hreq.1, hreq.2]; exact h3,
      by rw [hreq.2]; exact h4, by rw [e]; exact h5⟩
  · refine ⟨?_, by rw [hcap]; exact h2, by rw [hreq.1, hreq.2]; exact h3,
      by rw [hreq.2]; exact h4, ?_⟩
    · rw [handle_C_loop_length ip port _ _ e, hcap]; exact h1
    · exact handle_C_loop_preserves
        (fun r => r.queries.length ≤ r.query_cap ∧ capOK r.query_cap) ip port
        (fun r hr _ => record_query_cap r ip port hr) _ _ h5 e

theorem capInv_handle_D (st : State) (q : CStr) (h : CapInv st) : CapInv (handle_D st q).1 := by
  obtain ⟨h1, h2, h3, h4, h5⟩ := h
  unfold handle_D
  split
  · exact ⟨h1, h2, h3, h4, h5⟩
  · split
    · rename_i k _ rules' hl
      refine ⟨?_, h2, h3, h4, ?_⟩
      · have := handle_D_loop_length _ _ _ hl
        show rules'.length ≤ st.rule_cap
        omega
      · intro x hx
        exact h5 x (handle_D_loop_subset _ _ _ hl x hx)
    · exact ⟨h1, h2, h3, h4, h5⟩

theorem capInv_processRequest (st : State) (r : CStr) (h : CapInv st) :
    CapInv (processRequest st r).1 := by
  have hl := capInv_log_request st (trim r) h
  unfold processRequest
  simp only
  split_ifs
  · exact hl
  · exact capInv_handle_A _ _ hl
  · exact capInv_handle_C _ _ hl
  · exact ⟨Nat.le_refl _, Or.inl rfl, Nat.le_refl _, Or.inl rfl, by intro x hx; simp [handle_F] at hx⟩
  · exact capInv_handle_D _ _ hl
  · exact hl
  · exact hl

theorem capInv_run (reqs : List CStr) : ∀ st : State, CapInv st → CapInv (run st reqs) := by
  induction reqs with
  | nil => intro st h; exact h
  | cons q qs ih => intro st h; exact ih _ (capInv_processRequest st q h)

/-- C39: capacity invariant.  After every finite sequence of requests from the
empty state, the count of rules, the count of logged requests and, for every
rule, the count of queries are at most their capacities, and every capacity is
0 or 8 times a power of two; so after the growth step the slots
`rules[rule_count]`, `requests[req_count]` and `queries[query_count]` that
`handle_A`, `log_request` and `handle_C` write are inside their arrays. -/
theorem capacity_invariant (reqs : List CStr) :
    (run State.init reqs).rules.length ≤ (run State.init reqs).rule_cap ∧
    capOK (run State.init reqs).rule_cap ∧
    (run State.init reqs).requests.length ≤ (run State.init reqs).req_cap ∧
    capOK (run State.init reqs).req_cap ∧
    (∀ r ∈ (run State.init reqs).rules,
      r.queries.length ≤ r.query_cap ∧ capOK r.query_cap ∧
      r.queries.length < grow r.queries.length r.query_cap) ∧
    (run State.init reqs).rules.length <
      grow (run State.init reqs).rules.length (run State.init reqs).rule_cap ∧
    (run State.init reqs).requests.length <
      grow (run State.init reqs).requests.length (run State.init reqs).req_cap := by
  have h0 : CapInv State.init :=
    ⟨Nat.le_refl _, Or.inl rfl, Nat.le_refl _, Or.inl rfl, by intro x hx; simp [State.init] at hx⟩
  obtain ⟨h1, h2, h3, h4, h5⟩ := capInv_run reqs State.init h0
  exact ⟨h1, h2, h3, h4,
    fun r hr => ⟨(h5 r hr).1, (h5 r hr).2, lt_grow _ _ (h5 r hr).1⟩,
    lt_grow _ _ h1, lt_grow _ _ h3⟩

theorem capacity_invariant_witness :
    (⟨16909060, 16909060, 80, 80, [⟨16909060, 80⟩], 8⟩ : Rule) ∈
      (run State.init ["A 1.2.3.4 80".toList, "C 1.2.3.4 80".toList]).rules ∧
    (run State.init ["A 1.2.3.4 80".toList, "C 1.2.3.4 80".toList]).rules.length ≤
      (run State.init ["A 1.2.3.4 80".toList, "C 1.2.3.4 80".toList]).rule_cap ∧
    capOK (run State.init ["A 1.2.3.4 80".toList, "C 1.2.3.4 80".toList]).rule_cap ∧
    (run State.init ["A 1.2.3.4 80".toList, "C 1.2.3.4 80".toList]).requests.length ≤
      (run State.init ["A 1.2.3.4 80".toList, "C 1.2.3.4 80".toList]).req_cap ∧
    capOK (run State.init ["A 1.2.3.4 80".toList, "C 1.2.3.4 80".toList]).req_cap ∧
    ([(⟨16909060, 80⟩ : Query)].length ≤ 8 ∧ capOK 8 ∧
      [(⟨16909060, 80⟩ : Query)].length < grow [(⟨16909060, 80⟩ : Query)].length 8) ∧
    (run State.init ["A 1.2.3.4 80".toList, "C 1.2.3.4 80".toList]).rules.length <
      grow (run State.init ["A 1.2.3.4 80".toList, "C 1.2.3.4 80".toList]).rules.length
        (run State.init ["A 1.2.3.4 80".toList, "C 1.2.3.4 80".toList]).rule_cap ∧
    (run State.init ["A 1.2.3.4 80".toList, "C 1.2.3.4 80".toList]).requests.length <
      grow (run State.init ["A 1.2.3.4 80".toList, "C 1.2.3.4 80".toList]).requests.length
        (run State.init ["A 1.2.3.4 80".toList, "C 1.2.3.4 80".toList]).req_cap :=
  have hr : (⟨16909060, 16909060, 80, 80, [⟨16909060, 80⟩], 8⟩ : Rule) ∈
      (run State.init ["A 1.2.3.4 80".toList, "C 1.2.3.4 80".toList]).rules := by decide
  have h := capacity_invariant ["A 1.2.3.4 80".toList, "C 1.2.3.4 80".toList]
  ⟨hr, h.1, h.2.1, h.2.2.1, h.2.2.2.1, h.2.2.2.2.1 _ hr, h.2.2.2.2.2.1, h.2.2.2.2.2.2⟩

/-! ## Claim C35: the packing and the order of addresses -/

/-- The packing as a sum: the four octets do not overlap. -/
theorem pack_eq_sum (a b c d : Nat) (hb : b ≤ 255) (hc : c ≤ 255) (hd : d ≤ 255) :
    pack a b c d = a * 16777216 + b * 65536 + c * 256 + d := by
  unfold pack
  simp only [Nat.shiftLeft_eq]
  have e1 : a * 2 ^ 24 ||| b * 2 ^ 16 = a * 2 ^ 24 + b * 2 ^ 16 := by
    have h := @Nat.mul_add_lt_is_or 24 (b * 2 ^ 16) (by omega) a
    have e : 2 ^ 24 * a = a * 2 ^ 24 := by ring
    rw [e] at h
    exact h.symm
  have e2 : a * 2 ^ 24 + b * 2 ^ 16 ||| c * 2 ^ 8 = a * 2 ^ 24 + b * 2 ^ 16 + c * 2 ^ 8 := by
    have h := @Nat.mul_add_lt_is_or 16 (c * 2 ^ 8) (by omega) (a * 2 ^ 8 + b)
    have e : 2 ^ 16 * (a * 2 ^ 8 + b) = a * 2 ^ 24 + b * 2 ^ 16 := by ring
    rw [e] at h
    exact h.symm
  have e3 : a * 2 ^ 24 + b * 2 ^ 16 + c * 2 ^ 8 ||| d =
      a * 2 ^ 24 + b * 2 ^ 16 + c * 2 ^ 8 + d := by
    have h := @Nat.mul_add_lt_is_or 8 d (by omega) (a * 2 ^ 16 + b * 2 ^ 8 + c)
    have e : 2 ^ 8 * (a * 2 ^ 16 + b * 2 ^ 8 + c) = a * 2 ^ 24 + b * 2 ^ 16 + c * 2 ^ 8 := by
      ring
    rw [e] at h
    exact h.symm
  rw [e1, e2, e3]
  norm_num

theorem pack_lt_iff_lexLt (a b c d a' b' c' d' : Nat) (_ha : a ≤ 255) (hb : b ≤ 255)
    (hc : c ≤ 255) (hd : d ≤ 255) (_ha' : a' ≤ 255) (hb' : b' ≤ 255) (hc' : c' ≤ 255)
    (hd' : d' ≤ 255) :
    pack a b c d < pack a' b' c' d' ↔ lexLt a b c d a' b' c' d' := by
  rw [pack_eq_sum a b c d hb hc hd, pack_eq_sum a' b' c' d' hb' hc' hd']
  unfold lexLt
  omega

theorem pack_injective (a b c d a' b' c' d' : Nat) (hb : b ≤ 255)
    (hc : c ≤ 255) (hd : d ≤ 255) (hb' : b' ≤ 255) (hc' : c' ≤ 255) (hd' : d' ≤ 255) :
    pack a b c d = pack a' b' c' d' ↔ a = a' ∧ b = b' ∧ c = c' ∧ d = d' := by
  rw [pack_eq_sum a b c d hb hc hd, pack_eq_sum a' b' c' d' hb' hc' hd']
  omega

theorem parse_ip_fmt_u (a b c d : Nat) (ha : a ≤ 255) (hb : b ≤ 255) (hc : c ≤ 255)
    (hd : d ≤ 255) :
    parse_ip (dotted (fmt_u a) (fmt_u b) (fmt_u c) (fmt_u d)) = some (pack a b c d) := by
  obtain ⟨ta, va⟩ := octetText_fmt_u a ha
  obtain ⟨tb, vb⟩ := octetText_fmt_u b hb
  obtain ⟨tc, vc⟩ := octetText_fmt_u c hc
  obtain ⟨td, vd⟩ := octetText_fmt_u d hd
  have h := parse_ip_dotted (fmt_u a) (fmt_u b) (fmt_u c) (fmt_u d) ta tb tc td
  rw [va, vb, vc, vd] at h
  exact h

/-- C35: the packing used by `parse_ip` is injective and order-preserving.  For
all octets in 0..255 the value `parse_ip` returns for `a.b.c.d` is the 32-bit
value `(a<<24)|(b<<16)|(c<<8)|d`; it is below the value for `a'.b'.c'.d'`
exactly when `(a, b, c, d)` is lexicographically smaller, and equal to it
exactly when the octets are equal; so `ip_in_range` holds exactly when the
address is, in this order, neither below the start nor above the end of the
rule, also when first octets are 128 or more. -/
theorem packing_preserves_order (a b c d a' b' c' d' e1 e2 e3 e4 : Nat)
    (ha : a ≤ 255) (hb : b ≤ 255) (hc : c ≤ 255) (hd : d ≤ 255)
    (ha' : a' ≤ 255) (hb' : b' ≤ 255) (hc' : c' ≤ 255) (hd' : d' ≤ 255)
    (he1 : e1 ≤ 255) (he2 : e2 ≤ 255) (he3 : e3 ≤ 255) (he4 : e4 ≤ 255) :
    parse_ip (dotted (fmt_u a) (fmt_u b) (fmt_u c) (fmt_u d)) = some (pack a b c d) ∧
    parse_ip (dotted (fmt_u a') (fmt_u b') (fmt_u c') (fmt_u d')) = some (pack a' b' c' d') ∧
    pack a b c d < 4294967296 ∧
    (pack a b c d < pack a' b' c' d' ↔ lexLt a b c d a' b' c' d') ∧
    (pack a b c d = pack a' b' c' d' ↔ a = a' ∧ b = b' ∧ c = c' ∧ d = d') ∧
    (∀ (p q : Int) (qs : List Query) (cap : Nat),
      ip_in_range (pack a b c d) ⟨pack a' b' c' d', pack e1 e2 e3 e4, p, q, qs, cap⟩ = true ↔
        ¬ lexLt a b c d a' b' c' d' ∧ ¬ lexLt e1 e2 e3 e4 a b c d) := by
  refine ⟨parse_ip_fmt_u a b c d ha hb hc hd, parse_ip_fmt_u a' b' c' d' ha' hb' hc' hd',
    pack_lt a b c d ha hb hc hd,
    pack_lt_iff_lexLt a b c d a' b' c' d' ha hb hc hd ha' hb' hc' hd',
    pack_injective a b c d a' b' c' d' hb hc hd hb' hc' hd', ?_⟩
  intro p q qs cap
  rw [← pack_lt_iff_lexLt a b c d a' b' c' d' ha hb hc hd ha' hb' hc' hd',
    ← pack_lt_iff_lexLt e1 e2 e3 e4 a b c d he1 he2 he3 he4 ha hb hc hd]
  simp only [ip_in_range, Bool.and_eq_true, decide_eq_true_eq]
  omega

theorem packing_preserves_order_witness :
    ((200 : Nat) ≤ 255 ∧ (0 : Nat) ≤ 255 ∧ (255 : Nat) ≤ 255 ∧ (128 : Nat) ≤ 255 ∧
      (10 : Nat) ≤ 255) ∧
    parse_ip (dotted (fmt_u 200) (fmt_u 0) (fmt_u 0) (fmt_u 255)) = some (pack 200 0 0 255) ∧
    parse_ip (dotted (fmt_u 128) (fmt_u 255) (fmt_u 255) (fmt_u 255)) =
      some (pack 128 255 255 255) ∧
    pack 200 0 0 255 < 4294967296 ∧
    (pack 200 0 0 255 < pack 128 255 255 255 ↔ lexLt 200 0 0 255 128 255 255 255) ∧
    (pack 200 0 0 255 = pack 128 255 255 255 ↔
      (200 : Nat) = 128 ∧ (0 : Nat) = 255 ∧ (0 : Nat) = 255 ∧ (255 : Nat) = 255) ∧
    (∀ (p q : Int) (qs : List Query) (cap : Nat),
      ip_in_range (pack 200 0 0 255) ⟨pack 128 255 255 255, pack 200 10 0 0, p, q, qs, cap⟩ =
          true ↔
        ¬ lexLt 200 0 0 255 128 255 255 255 ∧ ¬ lexLt 200 10 0 0 200 0 0 255) :=
  ⟨by decide, packing_preserves_order 200 0 0 255 128 255 255 255 200 10 0 0
    (by decide) (by decide) (by decide) (by decide) (by decide) (by decide) (by decide)
    (by decide) (by decide) (by decide) (by decide) (by decide)⟩

/-! ## Decimal texts: `%u` and `%d` against `decVal` -/

theorem toDigitsCore_append (fuel : Nat) :
    ∀ (n : Nat) (acc : CStr),
      Nat.toDigitsCore 10 fuel n acc = Nat.toDigitsCore 10 fuel n [] ++ acc := by
  induction fuel with
  | zero => intro n acc; simp [Nat.toDigitsCore]
  | succ f ih =>
    intro n acc
    simp only [Nat.toDigitsCore]
    split_ifs
    · simp
    · rw [ih (n / 10) (Nat.digitChar (n % 10) :: acc), ih (n / 10) [Nat.digitChar (n % 10)]]
      simp

theorem toDigitsCore_fuel (f1 : Nat) :
    ∀ (f2 n : Nat), n < f1 → n < f2 →
      Nat.toDigitsCore 10 f1 n [] = Nat.toDigitsCore 10 f2 n [] := by
  induction f1 with
  | zero => intro f2 n h; omega
  | succ f ih =>
    intro f2 n h1 h2
    cases f2 with
    | zero => omega
    | succ g =>
      simp only [Nat.toDigitsCore]
      split_ifs with h0
      · rfl
      · have hn : n / 10 < n := Nat.div_lt_self (by omega) (by decide)
        rw [toDigitsCore_append f, toDigitsCore_append g,
          ih g (n / 10) (by omega) (by omega)]

theorem toDigits_small (n : Nat) (h : n < 10) : Nat.toDigits 10 n = [Nat.digitChar n] := by
  have h0 : n / 10 = 0 := Nat.div_eq_of_lt h
  have h1 : n % 10 = n := Nat.mod_eq_of_lt h
  simp [Nat.toDigits, Nat.toDigitsCore, h0, h1]

theorem toDigits_step (n : Nat) (h : 10 ≤ n) :
    Nat.toDigits 10 n = Nat.toDigits 10 (n / 10) ++ [Nat.digitChar (n % 10)] := by
  have h0 : n / 10 ≠ 0 := by omega
  have hn : n / 10 < n := Nat.div_lt_self (by omega) (by decide)
  have e1 : Nat.toDigits 10 n = Nat.toDigitsCore 10 n (n / 10) [Nat.digitChar (n % 10)] := by
    simp only [Nat.toDigits, Nat.toDigitsCore, h0, if_false]
  have e2 : Nat.toDigits 10 (n / 10) = Nat.toDigitsCore 10 (n / 10 + 1) (n / 10) [] := rfl
  rw [e1, e2, toDigitsCore_append n, toDigitsCore_fuel n (n / 10 + 1) (n / 10) hn (by omega)]

theorem decVal_append_singleton (l : CStr) (c : Char) :
    decVal (l ++ [c]) = decVal l * 10 + digitVal c := by
  simp [decVal, List.foldl_append]

theorem digitChar_facts :
    ∀ k : Nat, k < 10 → isdigit (Nat.digitChar k) = true ∧ digitVal (Nat.digitChar k) = k ∧
      (Nat.digitChar k = '0' ↔ k = 0) := by
  decide

theorem digitChar_digitVal (c : Char) (h : isdigit c = true) :
    Nat.digitChar (digitVal c) = c ∧ digitVal c < 10 := by
  rw [isdigit_iff] at h
  have hv : digitVal c < 10 := by unfold digitVal; omega
  refine ⟨?_, hv⟩
  have key : ∀ k : Nat, k < 10 → (Nat.digitChar k).toNat = 48 + k := by decide
  apply Char.ext
  apply UInt32.ext
  have := key (digitVal c) hv
  unfold digitVal at this ⊢
  have e : 48 + (c.toNat - 48) = c.toNat := by omega
  rw [e] at this
  exact this

theorem head?_append_of_ne_nil (l : CStr) (c : Char) (h : l ≠ []) :
    (l ++ [c]).head? = l.head? := by
  obtain ⟨x, xs, rfl⟩ := List.exists_cons_of_ne_nil h
  rfl

/-- The text `%u` prints: digits only, with the value of the number, without
leading zeros. -/
theorem toDigits_spec (n : Nat) :
    Nat.toDigits 10 n ≠ [] ∧ (∀ c ∈ Nat.toDigits 10 n, isdigit c = true) ∧
      decVal (Nat.toDigits 10 n) = n ∧ noLeadingZero (Nat.toDigits 10 n) := by
  induction n using Nat.strong_induction_on with
  | _ n ih =>
    by_cases h : n < 10
    · obtain ⟨f1, f2, f3⟩ := digitChar_facts n h
      rw [toDigits_small n h]
      refine ⟨by simp, ?_, ?_, ?_⟩
      · intro c hc
        rw [List.mem_singleton] at hc
        rw [hc]; exact f1
      · simp [decVal, f2]
      · by_cases h0 : n = 0
        · left; rw [h0]; rfl
        · right
          intro c hc
          simp only [List.head?_cons, Option.some.injEq] at hc
          rw [← hc]
          exact fun e => h0 (f3.mp e)
    · have h10 : 10 ≤ n := by omega
      have hlt : n / 10 < n := Nat.div_lt_self (by omega) (by decide)
      obtain ⟨i1, i2, i3, i4⟩ := ih (n / 10) hlt
      obtain ⟨f1, f2, _⟩ := digitChar_facts (n % 10) (Nat.mod_lt _ (by decide))
      rw [toDigits_step n h10]
      refine ⟨by simp, ?_, ?_, ?_⟩
      · intro c hc
        rcases List.mem_append.mp hc with e | e
        · exact i2 c e
        · rw [List.mem_singleton] at e
          rw [e]; exact f1
      · rw [decVal_append_singleton, i3, f2]
        omega
      · right
        rw [head?_append_of_ne_nil _ _ i1]
        rcases i4 with e | e
        · rw [e] at i3
          have : decVal ['0'] = 0 := by decide
          omega
        · exact e

/-- A text of digits without leading zeros is what `%u` prints for its value. -/
theorem toDigits_decVal (t : CStr) :
    t ≠ [] → (∀ c ∈ t, isdigit c = true) → noLeadingZero t →
      Nat.toDigits 10 (decVal t) = t := by
  induction t using List.reverseRecOn with
  | nil => intro h; exact absurd rfl h
  | append_singleton u c ih =>
    intro _ hd hz
    have hc : isdigit c = true := hd c (by simp)
    obtain ⟨g1, g2⟩ := digitChar_digitVal c hc
    by_cases hu : u = []
    · subst hu
      have e : decVal ([] ++ [c]) = digitVal c := by simp [decVal]
      rw [e, toDigits_small _ g2, g1]
      rfl
    · have hdu : ∀ x ∈ u, isdigit x = true := fun x hx => hd x (by simp [hx])
      have hne : u ++ [c] ≠ ['0'] := by
        intro e
        have := congrArg List.length e
        simp only [List.length_append, List.length_singleton] at this
        have hl : 0 < u.length := List.length_pos.mpr hu
        omega
      have hhead : ∀ x, u.head? = some x → x ≠ '0' := by
        rcases hz with e | e
        · exact absurd e hne
        · intro x hx
          exact e x (by rw [head?_append_of_ne_nil _ _ hu]; exact hx)
      have iu := ih hu hdu (Or.inr hhead)
      have hpos : 1 ≤ decVal u := by
        by_contra h0
        have e0 : decVal u = 0 := by omega
        rw [e0] at iu
        obtain ⟨x, xs, rfl⟩ := List.exists_cons_of_ne_nil hu
        have hx := hhead x rfl
        have : Nat.toDigits 10 0 = ['0'] := by decide
        rw [this] at iu
        exact hx (List.cons.inj iu).1.symm
      rw [decVal_append_singleton, toDigits_step _ (by omega)]
      have e1 : (decVal u * 10 + digitVal c) / 10 = decVal u := by omega
      have e2 : (decVal u * 10 + digitVal c) % 10 = digitVal c := by omega
      rw [e1, e2, iu, g1]

theorem toDigits_length (n e : Nat) (h : n < 10 ^ e) (he : 0 < e) :
    (Nat.toDigits 10 n).length ≤ e :=
  Nat.toDigitsCore_length 10 (by decide) (n + 1) n e h he

/-! ## Claim C36: the listing fits its buffer -/

theorem sum_map_le {α : Type} (l : List α) (f g : α → Nat) (h : ∀ x ∈ l, f x ≤ g x) :
    (l.map f).sum ≤ (l.map g).sum := by
  induction l with
  | nil => simp
  | cons x xs ih =>
    have h1 := h x (List.mem_cons_self _ _)
    have h2 := ih (fun y hy => h y (List.mem_cons_of_mem _ hy))
    simp only [List.map_cons, List.sum_cons]
    omega

/-- The conversion `%d` writes at most five characters for a port in 0..65535. -/
theorem fmt_d_length (p : Int) (h0 : 0 ≤ p) (h1 : p ≤ 65535) : (fmt_d p).length ≤ 5 := by
  have hn : ¬ p < 0 := by omega
  simp only [fmt_d, hn, if_false]
  exact toDigits_length p.toNat 5 (by omega) (by decide)

theorem fmt_query_length (q : Query) (h0 : 0 ≤ q.port) (h1 : q.port ≤ 65535) :
    (fmt_query q).length ≤ query_total q := by
  have h := fmt_d_length q.port h0 h1
  simp only [fmt_query, query_total, List.length_append, List.length_cons, List.length_nil]
  omega

theorem fmt_rule_length (r : Rule)
    (hp : 0 ≤ r.port_start ∧ r.port_start ≤ 65535 ∧ 0 ≤ r.port_end ∧ r.port_end ≤ 65535)
    (hq : ∀ q ∈ r.queries, 0 ≤ q.port ∧ q.port ≤ 65535) :
    (fmt_rule r).length ≤ rule_total r := by
  have h1 := fmt_d_length r.port_start hp.1 hp.2.1
  have h2 := fmt_d_length r.port_end hp.2.2.1 hp.2.2.2
  have h3 : ((r.queries.map fmt_query).flatten).length ≤ (r.queries.map query_total).sum := by
    rw [List.length_flatten, List.map_map]
    exact sum_map_le r.queries _ _ (fun q hq' => fmt_query_length q (hq q hq').1 (hq q hq').2)
  unfold fmt_rule rule_total
  simp only [List.length_append]
  split_ifs <;> simp only [List.length_append, List.length_cons, List.length_nil] <;> omega

/-- C36: for every store whose rule ports and query ports are in 0..65535, the
number of characters `handle_L` writes in its second pass is at most the
`total` its first pass computed, so the terminating NUL is inside the
`total + 1` bytes allocated. -/
theorem listing_fits_buffer (st : State)
    (hports : ∀ r ∈ st.rules,
      (0 ≤ r.port_start ∧ r.port_start ≤ 65535 ∧ 0 ≤ r.port_end ∧ r.port_end ≤ 65535) ∧
      ∀ q ∈ r.queries, 0 ≤ q.port ∧ q.port ≤ 65535) :
    (handle_L st).length ≤ handle_L_total st ∧ (handle_L st).length < handle_L_total st + 1 := by
  have h : (handle_L st).length ≤ handle_L_total st := by
    unfold handle_L handle_L_total
    split_ifs with h0
    · simp
    · rw [List.length_flatten, List.map_map]
      exact sum_map_le st.rules _ _
        (fun r hr => fmt_rule_length r (hports r hr).1 (hports r hr).2)
  exact ⟨h, by omega⟩

theorem listing_fits_buffer_witness :
    (∀ r ∈ [(⟨16909060, 16909065, 80, 65535, [⟨16909061, 65535⟩, ⟨16909062, 80⟩], 8⟩ : Rule),
        ⟨4294967295, 4294967295, 0, 0, [], 0⟩],
      (0 ≤ r.port_start ∧ r.port_start ≤ 65535 ∧ 0 ≤ r.port_end ∧ r.port_end ≤ 65535) ∧
      ∀ q ∈ r.queries, 0 ≤ q.port ∧ q.port ≤ 65535) ∧
    (handle_L ⟨[⟨16909060, 16909065, 80, 65535, [⟨16909061, 65535⟩, ⟨16909062, 80⟩], 8⟩,
        ⟨4294967295, 4294967295, 0, 0, [], 0⟩], 8, [], 0⟩).length ≤
      handle_L_total ⟨[⟨16909060, 16909065, 80, 65535, [⟨16909061, 65535⟩, ⟨16909062, 80⟩], 8⟩,
        ⟨4294967295, 4294967295, 0, 0, [], 0⟩], 8, [], 0⟩ ∧
    (handle_L ⟨[⟨16909060, 16909065, 80, 65535, [⟨16909061, 65535⟩, ⟨16909062, 80⟩], 8⟩,
        ⟨4294967295, 4294967295, 0, 0, [], 0⟩], 8, [], 0⟩).length <
      handle_L_total ⟨[⟨16909060, 16909065, 80, 65535, [⟨16909061, 65535⟩, ⟨16909062, 80⟩], 8⟩,
        ⟨4294967295, 4294967295, 0, 0, [], 0⟩], 8, [], 0⟩ + 1 :=
  have h : ∀ r ∈ [(⟨16909060, 16909065, 80, 65535, [⟨16909061, 65535⟩, ⟨16909062, 80⟩], 8⟩ :
      Rule), ⟨4294967295, 4294967295, 0, 0, [], 0⟩],
      (0 ≤ r.port_start ∧ r.port_start ≤ 65535 ∧ 0 ≤ r.port_end ∧ r.port_end ≤ 65535) ∧
      ∀ q ∈ r.queries, 0 ≤ q.port ∧ q.port ≤ 65535 := by decide
  ⟨h, listing_fits_buffer _ h⟩

/-! ## Claim C32: addresses, parsed and printed -/

theorem ip_to_str_eq_dotted (v : Nat) :
    ip_to_str v = dotted (fmt_u (v / 2 ^ 24 % 256)) (fmt_u (v / 2 ^ 16 % 256))
      (fmt_u (v / 2 ^ 8 % 256)) (fmt_u (v % 256)) := by
  have e0 : v &&& 255 = v % 256 := Nat.and_pow_two_sub_one_eq_mod v 8
  simp only [ip_to_str, dotted, octet_shift_mask, e0]
  simp

theorem octetText_and_canon_fmt_u (a : Nat) (h : a ≤ 255) :
    (octetText (fmt_u a) = true ∧ noLeadingZero (fmt_u a)) ∧ decVal (fmt_u a) = a :=
  ⟨⟨(octetText_fmt_u a h).1, (toDigits_spec a).2.2.2⟩, (octetText_fmt_u a h).2⟩

/-- What `ip_to_str` prints for a 32-bit value is a dotted quad without leading
zeros that denotes the value. -/
theorem canonIPText_ip_to_str (v : Nat) (h : v < 4294967296) : CanonIPText (ip_to_str v) v := by
  have b1 : v / 2 ^ 24 % 256 ≤ 255 := by omega
  have b2 : v / 2 ^ 16 % 256 ≤ 255 := by omega
  have b3 : v / 2 ^ 8 % 256 ≤ 255 := by omega
  have b4 : v % 256 ≤ 255 := by omega
  obtain ⟨c1, v1⟩ := octetText_and_canon_fmt_u _ b1
  obtain ⟨c2, v2⟩ := octetText_and_canon_fmt_u _ b2
  obtain ⟨c3, v3⟩ := octetText_and_canon_fmt_u _ b3
  obtain ⟨c4, v4⟩ := octetText_and_canon_fmt_u _ b4
  refine ⟨_, _, _, _, c1, c2, c3, c4, ip_to_str_eq_dotted v, ?_⟩
  rw [v1, v2, v3, v4, pack_eq_sum _ _ _ _ b2 b3 b4]
  omega

theorem IPText_of_canon {t : CStr} {v : Nat} (h : CanonIPText t v) : IPText t v := by
  obtain ⟨o1, o2, o3, o4, h1, h2, h3, h4, e, ev⟩ := h
  exact ⟨o1, o2, o3, o4, h1.1, h2.1, h3.1, h4.1, e, ev⟩

theorem fmt_u_decVal_octet (o : CStr) (h : octetText o = true ∧ noLeadingZero o) :
    fmt_u (decVal o) = o := by
  obtain ⟨n, _, d, _⟩ := (octetText_iff o).mp h.1
  exact toDigits_decVal o n d h.2

/-- Printing the value of a dotted quad written without leading zeros gives the
quad back. -/
theorem ip_to_str_of_canon {t : CStr} {v : Nat} (h : CanonIPText t v) : ip_to_str v = t := by
  obtain ⟨o1, o2, o3, o4, h1, h2, h3, h4, e, ev⟩ := h
  have b1 := ((octetText_iff o1).mp h1.1).2.2.2
  have b2 := ((octetText_iff o2).mp h2.1).2.2.2
  have b3 := ((octetText_iff o3).mp h3.1).2.2.2
  have b4 := ((octetText_iff o4).mp h4.1).2.2.2
  rw [pack_eq_sum _ _ _ _ b2 b3 b4] at ev
  have e1 : v / 2 ^ 24 % 256 = decVal o1 := by omega
  have e2 : v / 2 ^ 16 % 256 = decVal o2 := by omega
  have e3 : v / 2 ^ 8 % 256 = decVal o3 := by omega
  have e4 : v % 256 = decVal o4 := by omega
  rw [ip_to_str_eq_dotted, e1, e2, e3, e4, fmt_u_decVal_octet o1 h1, fmt_u_decVal_octet o2 h2,
    fmt_u_decVal_octet o3 h3, fmt_u_decVal_octet o4 h4, e]

/-- The value `parse_ip` returns fits 32 bits. -/
theorem parse_ip_lt {s : CStr} {v : Nat} (h : parse_ip s = some v) : v < 4294967296 := by
  unfold parse_ip at h
  split at h
  · exact Option.noConfusion h
  · rename_i a b c d rest _
    split_ifs at h with h1 h2
    rw [Option.some.injEq] at h
    have ha : a = ((a.toNat : Nat) : Int) := by omega
    have hb : b = ((b.toNat : Nat) : Int) := by omega
    have hc : c = ((c.toNat : Nat) : Int) := by omega
    have hd : d = ((d.toNat : Nat) : Int) := by omega
    have ba : a.toNat ≤ 255 := by omega
    have bb : b.toNat ≤ 255 := by omega
    have bc : c.toNat ≤ 255 := by omega
    have bd : d.toNat ≤ 255 := by omega
    rw [ha, hb, hc, hd, u32_of_int_small ba, u32_of_int_small bb, u32_of_int_small bc,
      u32_of_int_small bd, shl32_small ba (le_refl 24), shl32_small bb (by decide : 16 ≤ 24),
      shl32_small bc (by decide : 8 ≤ 24)] at h
    rw [← h]
    exact pack_lt _ _ _ _ ba bb bc bd

/-- C32, counterexample: `parse_ip` accepts `001.2.3.4`, a text of the grammar,
with the value of `1.2.3.4`, and `ip_to_str` prints that value as `1.2.3.4`,
which is not the text parsed. -/
theorem ip_round_trip_fails_on_leading_zeros :
    parse_ip "001.2.3.4".toList = some 16909060 ∧
    IPText "001.2.3.4".toList 16909060 ∧
    ip_to_str 16909060 = "1.2.3.4".toList ∧
    ip_to_str 16909060 ≠ "001.2.3.4".toList :=
  ⟨by decide, ⟨['0', '0', '1'], ['2'], ['3'], ['4'], by decide, by decide, by decide, by decide,
    by decide, by decide⟩, by decide, by decide⟩

/-- C32, amended: for every string accepted by `parse_ip` with value `v`, `v`
fits 32 bits and `ip_to_str v` is a dotted quad without leading zeros that
`parse_ip` reads back as `v`; `ip_to_str v` is byte-identical to the string
parsed when that string is a dotted quad written without leading zeros; and
for every 32-bit value `v`, `parse_ip (ip_to_str v)` succeeds and returns `v`. -/
theorem ip_round_trip :
    (∀ (s : CStr) (v : Nat), parse_ip s = some v →
      v < 4294967296 ∧ CanonIPText (ip_to_str v) v ∧ parse_ip (ip_to_str v) = some v) ∧
    (∀ (s : CStr) (v : Nat), CanonIPText s v → parse_ip s = some v ∧ ip_to_str v = s) ∧
    (∀ v : Nat, v < 4294967296 → parse_ip (ip_to_str v) = some v) := by
  refine ⟨?_, ?_, ?_⟩
  · intro s v h
    have hv := parse_ip_lt h
    have hc := canonIPText_ip_to_str v hv
    exact ⟨hv, hc, parse_ip_of_IPText (IPText_of_canon hc)⟩
  · intro s v h
    exact ⟨parse_ip_of_IPText (IPText_of_canon h), ip_to_str_of_canon h⟩
  · intro v hv
    exact parse_ip_of_IPText (IPText_of_canon (canonIPText_ip_to_str v hv))

theorem ip_round_trip_witness :
    (parse_ip "001.2.3.4".toList = some 16909060 ∧
      16909060 < 4294967296 ∧ CanonIPText (ip_to_str 16909060) 16909060 ∧
      parse_ip (ip_to_str 16909060) = some 16909060) ∧
    (CanonIPText "147.188.192.0".toList 2478620672 ∧
      parse_ip "147.188.192.0".toList = some 2478620672 ∧
      ip_to_str 2478620672 = "147.188.192.0".toList) ∧
    ((4294967295 : Nat) < 4294967296 ∧ parse_ip (ip_to_str 4294967295) = some 4294967295) :=
  have h1 : parse_ip "001.2.3.4".toList = some 16909060 := by decide
  have h2 : CanonIPText "147.188.192.0".toList 2478620672 :=
    ⟨"147".toList, "188".toList, "192".toList, "0".toList,
      ⟨by decide, Or.inr (by intro c hc; rw [← Option.some.inj hc]; decide)⟩,
      ⟨by decide, Or.inr (by intro c hc; rw [← Option.some.inj hc]; decide)⟩,
      ⟨by decide, Or.inr (by intro c hc; rw [← Option.some.inj hc]; decide)⟩,
      ⟨by decide, Or.inl rfl⟩, by decide, by decide⟩
  ⟨⟨h1, ip_round_trip.1 _ _ h1⟩, ⟨h2, ip_round_trip.2.1 _ _ h2⟩,
    ⟨by decide, ip_round_trip.2.2 _ (by decide)⟩⟩

/-! ## Claim C31: a rule, added and listed -/

theorem spec_listing_append (l1 l2 : List Rule) :
    spec_listing (l1 ++ l2) = spec_listing l1 ++ spec_listing l2 := by
  induction l1 with
  | nil => rfl
  | cons r rs ih => simp [spec_listing, ih]

theorem spec_rule_line_new (a b : Nat) (p q : Int) :
    spec_listing [⟨a, b, p, q, [], 0⟩] =
      "Rule: ".toList ++ spec_canonical a b p q ++ ['\n'] := by
  simp [spec_listing, spec_rule_line, spec_canonical]

theorem IPText_lt {t : CStr} {v : Nat} (h : IPText t v) : v < 4294967296 := by
  obtain ⟨o1, o2, o3, o4, h1, h2, h3, h4, _, rfl⟩ := h
  exact pack_lt _ _ _ _ ((octetText_iff o1).mp h1).2.2.2 ((octetText_iff o2).mp h2).2.2.2
    ((octetText_iff o3).mp h3).2.2.2 ((octetText_iff o4).mp h4).2.2.2

theorem spec_dotted_quad_canon (v : Nat) (h : v < 4294967296) :
    CanonIPText (spec_dotted_quad v) v := by
  rw [← ip_to_str_eq_spec_dotted_quad]
  exact canonIPText_ip_to_str v h

theorem spec_decimal_canon (p : Int) (h0 : 0 ≤ p) (h1 : p ≤ 65535) :
    CanonPortText (spec_decimal p) p := by
  have hn : ¬ p < 0 := by omega
  have e : spec_decimal p = Nat.toDigits 10 p.toNat := by
    rw [← fmt_d_eq_spec_decimal]
    simp only [fmt_d, hn, if_false]
  obtain ⟨s1, s2, s3, s4⟩ := toDigits_spec p.toNat
  have hl := toDigits_length p.toNat 5 (by omega) (by decide)
  rw [e]
  refine ⟨⟨(portText_iff _).mpr ⟨s1, hl, s2, by rw [s3]; omega⟩, ?_⟩, s4⟩
  rw [s3]
  omega

theorem spec_decimal_of_canon {t : CStr} {v : Int} (h : CanonPortText t v) :
    spec_decimal v = t := by
  obtain ⟨⟨h1, rfl⟩, hz⟩ := h
  obtain ⟨n, _, d, _⟩ := (portText_iff t).mp h1
  rw [spec_decimal_natCast]
  exact toDigits_decVal t n d hz

theorem spec_dotted_quad_of_canon {t : CStr} {v : Nat} (h : CanonIPText t v) :
    spec_dotted_quad v = t := by
  rw [← ip_to_str_eq_spec_dotted_quad]
  exact ip_to_str_of_canon h

theorem PortText_of_canon {t : CStr} {v : Int} (h : CanonPortText t v) : PortText t v := h.1

/-- A rule specification written without leading zeros is a rule specification
of the grammar and is its own canonical form. -/
theorem canonical_fixed (s : CStr) (a b : Nat) (p q : Int) (h : CanonRuleSpecText s a b p q) :
    RuleSpecText s a b p q ∧ spec_canonical a b p q = s := by
  obtain ⟨i, t, hi, ht, rfl⟩ := h
  have gi : IPRangeText i a b ∧ spec_ip_spec ⟨a, b, p, q, [], 0⟩ = i := by
    rcases hi with ⟨h1, rfl⟩ | ⟨x, y, hx, hy, hlt, rfl⟩
    · exact ⟨Or.inl ⟨IPText_of_canon h1, rfl⟩, by
        simp [spec_ip_spec, spec_dotted_quad_of_canon h1]⟩
    · have hne : a ≠ b := by omega
      exact ⟨Or.inr ⟨x, y, IPText_of_canon hx, IPText_of_canon hy, hlt, rfl⟩, by
        simp [spec_ip_spec, hne, spec_dotted_quad_of_canon hx, spec_dotted_quad_of_canon hy]⟩
  have gt : PortRangeText t p q ∧ spec_port_spec ⟨a, b, p, q, [], 0⟩ = t := by
    rcases ht with ⟨h1, rfl⟩ | ⟨x, y, hx, hy, hlt, rfl⟩
    · exact ⟨Or.inl ⟨h1.1, rfl⟩, by simp [spec_port_spec, spec_decimal_of_canon h1]⟩
    · have hne : p ≠ q := by omega
      exact ⟨Or.inr ⟨x, y, hx.1, hy.1, hlt, rfl⟩, by
        simp [spec_port_spec, hne, spec_decimal_of_canon hx, spec_decimal_of_canon hy]⟩
  refine ⟨⟨i, t, gi.1, gt.1, rfl⟩, ?_⟩
  rw [spec_canonical, gi.2, gt.2]

/-- The canonical form of a rule specification of the grammar is a rule
specification written without leading zeros, with the same endpoints. -/
theorem canonical_is_canon (s : CStr) (a b : Nat) (p q : Int) (h : RuleSpecText s a b p q) :
    CanonRuleSpecText (spec_canonical a b p q) a b p q := by
  obtain ⟨i, t, hi, ht, _⟩ := h
  refine ⟨spec_ip_spec ⟨a, b, p, q, [], 0⟩, spec_port_spec ⟨a, b, p, q, [], 0⟩, ?_, ?_, rfl⟩
  · rcases hi with ⟨h1, rfl⟩ | ⟨x, y, hx, hy, hlt, _⟩
    · left
      exact ⟨by simpa [spec_ip_spec] using spec_dotted_quad_canon b (IPText_lt h1), rfl⟩
    · right
      have hne : a ≠ b := by omega
      exact ⟨spec_dotted_quad a, spec_dotted_quad b, spec_dotted_quad_canon a (IPText_lt hx),
        spec_dotted_quad_canon b (IPText_lt hy), hlt, by simp [spec_ip_spec, hne]⟩
  · rcases ht with ⟨h1, rfl⟩ | ⟨x, y, hx, hy, hlt, _⟩
    · left
      have b1 := h1.portShape
      exact ⟨by simpa [spec_port_spec] using spec_decimal_canon q b1.2.2.2.1 b1.2.2.2.2, rfl⟩
    · right
      have hne : p ≠ q := by omega
      have b1 := hx.portShape
      have b2 := hy.portShape
      exact ⟨spec_decimal p, spec_decimal q, spec_decimal_canon p b1.2.2.2.1 b1.2.2.2.2,
        spec_decimal_canon q b2.2.2.2.1 b2.2.2.2.2, hlt, by simp [spec_port_spec, hne]⟩

/-- Add and list on the grammar.  For every state and every rule specification
`s` of the grammar, after `A s` the `L` response is the listing of the rules
stored before followed by the line `Rule: c`, where `c`, the canonical form of
`s`, is a rule specification with the endpoints of `s` in which every number is
written without leading zeros, a single value once and a range as `start-end`;
and when `s` itself is written without leading zeros, `c` equals `s` byte for
byte. -/
theorem add_list_round_trip (st : State) (s : CStr) (a b : Nat) (p q : Int) :
    (RuleSpecText s a b p q →
      (processRequest (processRequest st ('A' :: ' ' :: s)).1 ['L']).2 =
        spec_listing st.rules ++ ("Rule: ".toList ++ spec_canonical a b p q ++ ['\n']) ∧
      CanonRuleSpecText (spec_canonical a b p q) a b p q) ∧
    (CanonRuleSpecText s a b p q → RuleSpecText s a b p q ∧ spec_canonical a b p q = s) := by
  refine ⟨?_, canonical_fixed s a b p q⟩
  intro h
  refine ⟨?_, canonical_is_canon s a b p q h⟩
  obtain ⟨_, a2⟩ := processRequest_A_spec st s a b p q h
  rw [processRequest_L, handle_L_eq_spec]
  have hr : (log_request (processRequest st ('A' :: ' ' :: s)).1 ['L']).rules =
      st.rules ++ [⟨a, b, p, q, [], 0⟩] := a2
  rw [hr, spec_listing_append, spec_rule_line_new]

theorem add_list_round_trip_witness :
    (RuleSpecText "001.2.3.4 080".toList 16909060 16909060 80 80 ∧
      (processRequest (processRequest ⟨[⟨0, 9, 5, 5, [⟨3, 5⟩], 8⟩], 8, [], 0⟩
          "A 001.2.3.4 080".toList).1 ['L']).2 =
        spec_listing [⟨0, 9, 5, 5, [⟨3, 5⟩], 8⟩] ++
          ("Rule: ".toList ++ spec_canonical 16909060 16909060 80 80 ++ ['\n']) ∧
      CanonRuleSpecText (spec_canonical 16909060 16909060 80 80) 16909060 16909060 80 80) ∧
    (CanonRuleSpecText "1.2.3.4-1.2.3.9 80".toList 16909060 16909065 80 80 ∧
      RuleSpecText "1.2.3.4-1.2.3.9 80".toList 16909060 16909065 80 80 ∧
      spec_canonical 16909060 16909065 80 80 = "1.2.3.4-1.2.3.9 80".toList) :=
  have nz : ∀ (x : Char) (xs : CStr), x ≠ '0' → noLeadingZero (x :: xs) := by
    intro x xs hx
    exact Or.inr (by intro c hc; rw [← Option.some.inj hc]; exact hx)
  have h1 : RuleSpecText "001.2.3.4 080".toList 16909060 16909060 80 80 :=
    ⟨"001.2.3.4".toList, "080".toList,
      Or.inl ⟨⟨"001".toList, ['2'], ['3'], ['4'], by decide, by decide, by decide, by decide,
        by decide, by decide⟩, rfl⟩,
      Or.inl ⟨⟨by decide, by decide⟩, rfl⟩, by decide⟩
  have hx : CanonIPText "1.2.3.4".toList 16909060 :=
    ⟨['1'], ['2'], ['3'], ['4'], ⟨by decide, nz _ _ (by decide)⟩, ⟨by decide, nz _ _ (by decide)⟩,
      ⟨by decide, nz _ _ (by decide)⟩, ⟨by decide, nz _ _ (by decide)⟩, by decide, by decide⟩
  have hy : CanonIPText "1.2.3.9".toList 16909065 :=
    ⟨['1'], ['2'], ['3'], ['9'], ⟨by decide, nz _ _ (by decide)⟩, ⟨by decide, nz _ _ (by decide)⟩,
      ⟨by decide, nz _ _ (by decide)⟩, ⟨by decide, nz _ _ (by decide)⟩, by decide, by decide⟩
  have h2 : CanonRuleSpecText "1.2.3.4-1.2.3.9 80".toList 16909060 16909065 80 80 :=
    ⟨"1.2.3.4-1.2.3.9".toList, "80".toList,
      Or.inr ⟨"1.2.3.4".toList, "1.2.3.9".toList, hx, hy, by decide, by decide⟩,
      Or.inl ⟨⟨⟨by decide, by decide⟩, nz _ _ (by decide)⟩, rfl⟩, by decide⟩
  ⟨⟨h1, (add_list_round_trip ⟨[⟨0, 9, 5, 5, [⟨3, 5⟩], 8⟩], 8, [], 0⟩ _ _ _ _ _).1 h1⟩,
    ⟨h2, (add_list_round_trip State.init _ _ _ _ _).2 h2⟩⟩

/-! ## Claim C14: the texts `C` does not answer as illegal -/

theorem scan_s_nil (w : Nat) : scan_s w [] = none := by
  simp [scan_s]

/-- C31, evaluated: the request `A 1.2.3.4 4294967296` is answered `Rule added`.
Its address and its port are written without leading zeros, so the rule
specification is its own canonical form; yet the next `L` response is the one
line `Rule: 1.2.3.4 0` and does not contain the line
`Rule: 1.2.3.4 4294967296`. -/
theorem add_list_round_trip_fails_on_wrapped_port :
    (processRequest State.init "A 1.2.3.4 4294967296".toList).2 = "Rule added".toList ∧
    CanonIPText "1.2.3.4".toList 16909060 ∧
    noLeadingZero "4294967296".toList ∧
    (processRequest (processRequest State.init "A 1.2.3.4 4294967296".toList).1 ['L']).2 =
      "Rule: 1.2.3.4 0\n".toList ∧
    ¬ ("Rule: 1.2.3.4 4294967296\n".toList <:+:
      (processRequest (processRequest State.init "A 1.2.3.4 4294967296".toList).1 ['L']).2) := by
  have nz : ∀ (x : Char) (xs : CStr), x ≠ '0' → noLeadingZero (x :: xs) := by
    intro x xs hx
    exact Or.inr (by intro c hc; rw [← Option.some.inj hc]; exact hx)
  have hL : (processRequest (processRequest State.init "A 1.2.3.4 4294967296".toList).1 ['L']).2 =
      "Rule: 1.2.3.4 0\n".toList := by decide
  refine ⟨by decide, ?_, nz _ _ (by decide), hL, ?_⟩
  · exact ⟨['1'], ['2'], ['3'], ['4'], ⟨by decide, nz _ _ (by decide)⟩,
      ⟨by decide, nz _ _ (by decide)⟩, ⟨by decide, nz _ _ (by decide)⟩,
      ⟨by decide, nz _ _ (by decide)⟩, by decide, by decide⟩
  · rw [hL]
    rintro ⟨s, u, e⟩
    have hlen := congrArg List.length e
    simp only [List.length_append] at hlen
    have l1 : "Rule: 1.2.3.4 4294967296\n".toList.length = 25 := by decide
    have l2 : "Rule: 1.2.3.4 0\n".toList.length = 16 := by decide
    omega

end Firewall
